import Mathlib

/-!
# ComLynx: a shared multi-drop serial bus

A shallow embedding of `src/comlynx.h` (the parity and checksum helpers and the
`ComLynx` class) together with theorems about it.

Conventions of the embedding:

* `UBYTE` (`uint8_t`), `Player` (`int`) and `ReadReceipt` (`uint32_t`) are natural
  numbers; every place where the source truncates to a machine width carries an
  explicit `% 256` or `% 2 ^ 32`.
* A member function that can hit `COMLYNX_ASSERT` (which prints and calls
  `std::abort`) returns an `Option`; `none` is the abort.
* A member function that mutates the object returns the new object next to its
  result.
* `std::vector` members are lists, read with `getD` and written with `set`.
  Indexing a vector outside its bounds, a negative player and a shift by 32 or
  more are undefined in the source; theorems that depend on such an access carry
  the corresponding bound as a hypothesis.
* `ByteMessage::time_point` (the wall clock at construction) is never read by the
  class and is left out.
-/

/-- The type `uint8_t`: a natural number below 256. -/
abbrev UBYTE := Nat

/-- The type `ComLynx::Player` (an `int`); only non-negative identities are modelled. -/
abbrev Player := Nat

/-- The type `ComLynx::ReadReceipt` (`uint32_t`). -/
abbrev ReadReceipt := Nat

/-- The checksum used by most ComLynx games: `sum` is a `UBYTE` accumulator, so
`sum += byte` wraps at every step, and the result is `255 - sum` as a `UBYTE`. -/
def ComLynxCommonChecksum (bytes : List UBYTE) : UBYTE :=
  let sum := bytes.foldl (fun sum byte => (sum + byte) % 256) 0
  (255 - sum) % 256

/-- Fold the byte onto its lowest bit with three xor-shift steps. -/
def CalculateEvenParity (byte : UBYTE) : Bool :=
  let byte := (byte ^^^ (byte >>> 4)) % 256
  let byte := (byte ^^^ (byte >>> 2)) % 256
  let byte := (byte ^^^ (byte >>> 1)) % 256
  (byte &&& 1) != 0

/-- Negation of the even parity. -/
def CalculateOddParity (byte : UBYTE) : Bool :=
  !CalculateEvenParity byte

/-- Parity selected by polarity. -/
def CalculateParity (even_parity : Bool) (byte : UBYTE) : Bool :=
  if even_parity then CalculateEvenParity byte else CalculateOddParity byte

/-- The enumeration `ComLynx::ParityConfig`. -/
inductive ParityConfig where
  | kOdd
  | kEven
  | kSpace
  | kMark
deriving DecidableEq, Repr

/-- The enumeration `ComLynx::TxNotReadyReason`. -/
inductive TxNotReadyReason where
  | kNone
  | kOverrun
  | kFrame
deriving DecidableEq, Repr

/-- The structure `ComLynx::Error`: three flags, all false initially. -/
structure Error where
  overrun : Bool := false
  parity : Bool := false
  frame : Bool := false
deriving DecidableEq, Repr, Inhabited

/-- The member `Error::Reset`. -/
def Error.Reset (_e : Error) : Error :=
  { overrun := false, parity := false, frame := false }

/-- The value of `(1 << player)` once converted to `uint32_t`. -/
def PlayerBit (player : Player) : ReadReceipt :=
  (1 <<< player) % 2 ^ 32

/-- The structure `ComLynx::ByteMessage` without its time stamp. -/
structure ByteMessage where
  sender : Player
  data : UBYTE
  parity : Bool
  read_receipt : ReadReceipt
deriving DecidableEq, Repr

/-- The member `ByteMessage::HasRead`: `read_receipt & (1 << player)` as a boolean. -/
def ByteMessage.HasRead (m : ByteMessage) (player : Player) : Bool :=
  (m.read_receipt &&& PlayerBit player) != 0

/-- The member `ByteMessage::MarkRead`: `read_receipt |= (1 << player)`. -/
def ByteMessage.MarkRead (m : ByteMessage) (player : Player) : ByteMessage :=
  { m with read_receipt := m.read_receipt ||| PlayerBit player }

/-- The member `ByteMessage::AllHaveRead`; the static `s_read_receipt_complete`
is passed in. -/
def ByteMessage.AllHaveRead (m : ByteMessage) (s_read_receipt_complete : ReadReceipt) : Bool :=
  m.read_receipt == s_read_receipt_complete

/-- The member `ByteMessage::ResetRead`. -/
def ByteMessage.ResetRead (m : ByteMessage) : ByteMessage :=
  { m with read_receipt := 0 }

/-- The constructor of `ByteMessage`: receipt 0, then `MarkRead(player)`. -/
def ByteMessage.new (player : Player) (data : UBYTE) (parity : Bool) : ByteMessage :=
  ByteMessage.MarkRead { sender := player, data := data, parity := parity, read_receipt := 0 } player

/-- The class `ComLynx`: its private members and the static
`ByteMessage::s_read_receipt_complete`, which the constructor sets. -/
structure ComLynx where
  n_players_ : Nat
  s_read_receipt_complete : ReadReceipt
  configured_ : Bool
  enable_parity_ : Bool
  even_parity_ : Bool
  buffer_ : List ByteMessage
  errors_ : List Error
  breaks_ : List Bool
  rx_int_en_ : List Bool
  tx_int_en_ : List Bool
deriving DecidableEq, Repr

namespace ComLynx

/-- The constructor `ComLynx(n_players)`: the complete mask is
`(1u << n_players) - 1u` in 32-bit unsigned arithmetic and the four vectors are
resized to `n_players` default entries. -/
def new (n_players : Nat) : ComLynx :=
  { n_players_ := n_players
    s_read_receipt_complete := ((1 <<< n_players) % 2 ^ 32 + 2 ^ 32 - 1) % 2 ^ 32
    configured_ := false
    enable_parity_ := false
    even_parity_ := false
    buffer_ := []
    errors_ := List.replicate n_players {}
    breaks_ := List.replicate n_players false
    rx_int_en_ := List.replicate n_players false
    tx_int_en_ := List.replicate n_players false }

/-- The member `Configure(bool, bool)`. -/
def Configure (s : ComLynx) (enable_parity even_parity : Bool) : ComLynx :=
  { s with enable_parity_ := enable_parity, even_parity_ := even_parity, configured_ := true }

/-- The member `Configure(ParityConfig)`. -/
def ConfigureParityConfig (s : ComLynx) (config : ParityConfig) : ComLynx :=
  match config with
  | .kOdd => s.Configure true false
  | .kEven => s.Configure true true
  | .kSpace => s.Configure false false
  | .kMark => s.Configure false true

/-- The member `EnableRxIRQ`. -/
def EnableRxIRQ (s : ComLynx) (player : Player) (value : Bool) : Option ComLynx :=
  if !s.configured_ then none
  else some { s with rx_int_en_ := s.rx_int_en_.set player value }

/-- The member `EnableTxIRQ`. -/
def EnableTxIRQ (s : ComLynx) (player : Player) (value : Bool) : Option ComLynx :=
  if !s.configured_ then none
  else some { s with tx_int_en_ := s.tx_int_en_.set player value }

/-- The private member `ParityFor`. -/
def ParityFor (s : ComLynx) (byte : UBYTE) : Bool :=
  if s.enable_parity_ then CalculateParity s.even_parity_ byte else s.even_parity_

/-- The member `IsTxReady`; `reason` is the in-out reference argument, returned
next to the result. -/
def IsTxReady (s : ComLynx) (_player : Player) (reason : TxNotReadyReason) :
    Option (Bool × TxNotReadyReason) :=
  if !s.configured_ then none
  else
    let len := s.buffer_.length
    if len = 0 then some (true, reason)
    else if len ≥ 32 then some (false, TxNotReadyReason.kOverrun)
    else some (true, reason)

/-- The member `Send`. The assertion on the string literal in the `kNone` case
always passes. -/
def Send (s : ComLynx) (player : Player) (data : UBYTE) : Option (Bool × ComLynx) :=
  if !s.configured_ then none
  else
    match s.IsTxReady player TxNotReadyReason.kNone with
    | none => none
    | some (false, reason) =>
      match reason with
      | .kNone => some (false, s)
      | .kFrame =>
        some (false, { s with
            errors_ := s.errors_.set player { (s.errors_.getD player default) with frame := true } })
      | .kOverrun =>
        some (false, { s with
            errors_ := s.errors_.set player { (s.errors_.getD player default) with overrun := true } })
    | some (true, _) =>
      some (true, { s with buffer_ :=
        s.buffer_ ++ [ByteMessage.new player data (s.ParityFor data)] })

/-- The loop of `FirstUnreadMessage`: position of the first message of the list
that `player` has not read. -/
def firstUnread (player : Player) : List ByteMessage → Option Nat
  | [] => none
  | msg :: rest =>
    if !msg.HasRead player then some 0
    else (firstUnread player rest).map (· + 1)

/-- The member `FirstUnreadMessage`; the returned pointer is the position in the
buffer, `nullptr` is the inner `none`. -/
def FirstUnreadMessage (s : ComLynx) (player : Player) : Option (Option Nat) :=
  if !s.configured_ then none
  else some (firstUnread player s.buffer_)

/-- The eviction step at the end of `Recv`: `pop_front` when the front message
is complete. -/
def popFrontIfComplete (complete : ReadReceipt) : List ByteMessage → List ByteMessage
  | [] => []
  | front :: rest => if front.AllHaveRead complete then rest else front :: rest

/-- The member `Recv`. The source returns `curr_msg.data` through the reference
bound before `pop_front`; the model returns the payload that reference
designates, which is the byte the tests of the repository expect, also when the
message read is the one that is popped. -/
def Recv (s : ComLynx) (player : Player) : Option (UBYTE × ComLynx) :=
  if !s.configured_ then none
  else if s.buffer_.isEmpty then none
  else
    match s.FirstUnreadMessage player with
    | none => none
    | some none => none
    | some (some i) =>
      match s.buffer_[i]? with
      | none => none
      | some curr_msg =>
        if curr_msg.HasRead player then none
        else
          let buffer := s.buffer_.set i (curr_msg.MarkRead player)
          some (curr_msg.data,
            { s with buffer_ := popFrontIfComplete s.s_read_receipt_complete buffer })

/-- The member `SendBreak`. -/
def SendBreak (s : ComLynx) : Option ComLynx :=
  if !s.configured_ then none
  else some { s with breaks_ :=
    (List.range s.n_players_).foldl (fun breaks i => breaks.set i true) s.breaks_ }

/-- The member `IsRxReady`. -/
def IsRxReady (s : ComLynx) (player : Player) : Option (Bool × ComLynx) :=
  if !s.configured_ then none
  else
    match s.FirstUnreadMessage player with
    | none => none
    | some none => some (false, s)
    | some (some i) =>
      match s.buffer_[i]? with
      | none => none
      | some msg =>
        if msg.parity != CalculateParity s.even_parity_ msg.data then
          some (true, { s with
            errors_ := s.errors_.set player { (s.errors_.getD player default) with parity := true } })
        else some (true, s)

/-- The member `IsTxEmpty`. -/
def IsTxEmpty (s : ComLynx) (player : Player) : Option Bool :=
  if !s.configured_ then none
  else some (s.buffer_.all (fun msg => msg.sender != player))

/-- The member `IsRxBrk`. -/
def IsRxBrk (s : ComLynx) (player : Player) : Option (Bool × ComLynx) :=
  if !s.configured_ then none
  else if s.breaks_.getD player false then
    some (true, { s with breaks_ := s.breaks_.set player false })
  else some (false, s)

/-- The member `IsIRQ`. It has no assertion of its own; `&&` evaluates its
right operand only when the enable flag is set. -/
def IsIRQ (s : ComLynx) (player : Player) : Option (Bool × ComLynx) :=
  match (if s.rx_int_en_.getD player false then s.IsRxReady player else some (false, s)) with
  | none => none
  | some (true, s1) => some (true, s1)
  | some (false, s1) =>
    match (if s1.tx_int_en_.getD player false
           then (s1.IsTxReady player TxNotReadyReason.kNone).map (fun r => r.1)
           else some false) with
    | none => none
    | some true => some (true, s1)
    | some false => some (false, s1)

/-- The member `HasFrameError`. -/
def HasFrameError (s : ComLynx) (player : Player) : Option Bool :=
  if !s.configured_ then none else some (s.errors_.getD player default).frame

/-- The member `HasOverrunError`. -/
def HasOverrunError (s : ComLynx) (player : Player) : Option Bool :=
  if !s.configured_ then none else some (s.errors_.getD player default).overrun

/-- The member `HasParityError`. -/
def HasParityError (s : ComLynx) (player : Player) : Option Bool :=
  if !s.configured_ then none else some (s.errors_.getD player default).parity

/-- The member `HasAnyError`. -/
def HasAnyError (s : ComLynx) (player : Player) : Option Bool :=
  if !s.configured_ then none
  else
    match s.HasFrameError player with
    | none => none
    | some true => some true
    | some false =>
      match s.HasOverrunError player with
      | none => none
      | some true => some true
      | some false =>
        match s.HasParityError player with
        | none => none
        | some true => some true
        | some false => some false

/-- The member `ResetErrors`. -/
def ResetErrors (s : ComLynx) (player : Player) : Option ComLynx :=
  if !s.configured_ then none
  else some { s with errors_ := s.errors_.set player (s.errors_.getD player default).Reset }

/-- The private member `PackSERCTL`. -/
def PackSERCTL (tx_ready rx_ready tx_empty parity_err overrun_err frame_err rx_break
    parity_bit : Bool) : UBYTE :=
  let byte := 0
  let byte := (byte ||| (if tx_ready then 0x80 else 0x00)) % 256
  let byte := (byte ||| (if rx_ready then 0x40 else 0x00)) % 256
  let byte := (byte ||| (if tx_empty then 0x20 else 0x00)) % 256
  let byte := (byte ||| (if parity_err then 0x10 else 0x00)) % 256
  let byte := (byte ||| (if overrun_err then 0x08 else 0x00)) % 256
  let byte := (byte ||| (if frame_err then 0x04 else 0x00)) % 256
  let byte := (byte ||| (if rx_break then 0x02 else 0x00)) % 256
  let byte := (byte ||| (if parity_bit then 0x01 else 0x00)) % 256
  byte

/-- The loop of `PeekNextByte` over the buffer. -/
def peekNext (player : Player) (byte : UBYTE) : List ByteMessage → Bool × UBYTE
  | [] => (false, byte)
  | msg :: rest => if !msg.HasRead player then (true, msg.data) else peekNext player byte rest

/-- The private member `PeekNextByte`; `byte` is the in-out reference argument. -/
def PeekNextByte (s : ComLynx) (player : Player) (byte : UBYTE) : Bool × UBYTE :=
  peekNext player byte s.buffer_

/-- The private member `GetParityOfNextByte`. -/
def GetParityOfNextByte (s : ComLynx) (player : Player) : Bool :=
  match s.PeekNextByte player 0 with
  | (true, byte) => s.ParityFor byte
  | (false, _) => false

/-- The member `GetSERCTL`. -/
def GetSERCTL (s : ComLynx) (player : Player) : Option (UBYTE × ComLynx) :=
  if !s.configured_ then none
  else
    match s.IsTxReady player TxNotReadyReason.kNone with
    | none => none
    | some (tx_ready, _) =>
      match s.IsRxReady player with
      | none => none
      | some (rx_ready, s1) =>
        match s1.IsTxEmpty player with
        | none => none
        | some tx_empty =>
          let errors := s1.errors_.getD player default
          let parity_bit := s1.GetParityOfNextByte player
          some (PackSERCTL tx_ready rx_ready tx_empty errors.parity errors.overrun
            errors.frame (s1.breaks_.getD player false) parity_bit, s1)

end ComLynx

/-- One call of a public operation of the bus, with its arguments. -/
inductive Op where
  | Configure (enable_parity even_parity : Bool)
  | ConfigureParityConfig (config : ParityConfig)
  | EnableRxIRQ (player : Player) (value : Bool)
  | EnableTxIRQ (player : Player) (value : Bool)
  | Send (player : Player) (data : UBYTE)
  | Recv (player : Player)
  | SendBreak
  | IsRxReady (player : Player)
  | IsTxReady (player : Player) (reason : TxNotReadyReason)
  | IsTxEmpty (player : Player)
  | IsRxBrk (player : Player)
  | IsIRQ (player : Player)
  | HasFrameError (player : Player)
  | HasOverrunError (player : Player)
  | HasParityError (player : Player)
  | HasAnyError (player : Player)
  | ResetErrors (player : Player)
  | GetSERCTL (player : Player)
deriving DecidableEq, Repr

/-- What a call hands back to its caller. -/
inductive Ret where
  | void
  | bool (value : Bool)
  | byte (value : UBYTE)
  | ready (value : Bool) (reason : TxNotReadyReason)
deriving DecidableEq, Repr

/-- Perform one call on the bus: the returned value and the bus afterwards, or
`none` when the call aborts. -/
def step (s : ComLynx) : Op → Option (Ret × ComLynx)
  | .Configure enable_parity even_parity => some (Ret.void, s.Configure enable_parity even_parity)
  | .ConfigureParityConfig config => some (Ret.void, s.ConfigureParityConfig config)
  | .EnableRxIRQ player value => (s.EnableRxIRQ player value).map (fun s1 => (Ret.void, s1))
  | .EnableTxIRQ player value => (s.EnableTxIRQ player value).map (fun s1 => (Ret.void, s1))
  | .Send player data => (s.Send player data).map (fun r => (Ret.bool r.1, r.2))
  | .Recv player => (s.Recv player).map (fun r => (Ret.byte r.1, r.2))
  | .SendBreak => s.SendBreak.map (fun s1 => (Ret.void, s1))
  | .IsRxReady player => (s.IsRxReady player).map (fun r => (Ret.bool r.1, r.2))
  | .IsTxReady player reason => (s.IsTxReady player reason).map (fun r => (Ret.ready r.1 r.2, s))
  | .IsTxEmpty player => (s.IsTxEmpty player).map (fun b => (Ret.bool b, s))
  | .IsRxBrk player => (s.IsRxBrk player).map (fun r => (Ret.bool r.1, r.2))
  | .IsIRQ player => (s.IsIRQ player).map (fun r => (Ret.bool r.1, r.2))
  | .HasFrameError player => (s.HasFrameError player).map (fun b => (Ret.bool b, s))
  | .HasOverrunError player => (s.HasOverrunError player).map (fun b => (Ret.bool b, s))
  | .HasParityError player => (s.HasParityError player).map (fun b => (Ret.bool b, s))
  | .HasAnyError player => (s.HasAnyError player).map (fun b => (Ret.bool b, s))
  | .ResetErrors player => (s.ResetErrors player).map (fun s1 => (Ret.void, s1))
  | .GetSERCTL player => (s.GetSERCTL player).map (fun r => (Ret.byte r.1, r.2))

/-- Perform a sequence of calls in order; the list of returned values and the
final bus, or `none` as soon as one call aborts. -/
def run (s : ComLynx) : List Op → Option (List Ret × ComLynx)
  | [] => some ([], s)
  | op :: ops =>
    match step s op with
    | none => none
    | some (r, s1) =>
      match run s1 ops with
      | none => none
      | some (rs, s2) => some (r :: rs, s2)

/-! ## Observations used to state the properties -/

/-- The buffered messages that `player` has not read, in buffer order. -/
def unreadBy (player : Player) (buffer : List ByteMessage) : List ByteMessage :=
  buffer.filter (fun msg => !msg.HasRead player)

/-- The payloads still pending for `player`, in buffer order. -/
def pendingFor (player : Player) (s : ComLynx) : List UBYTE :=
  (unreadBy player s.buffer_).map (fun msg => msg.data)

/-- The payloads of the accepted `Send` calls of a run whose sender is not
`player`, in call order; `rets` are the values the calls returned. -/
def sentByOthers (player : Player) : List Op → List Ret → List UBYTE
  | Op.Send p d :: ops, Ret.bool true :: rets =>
    if p = player then sentByOthers player ops rets else d :: sentByOthers player ops rets
  | _ :: ops, _ :: rets => sentByOthers player ops rets
  | _, _ => []

/-- The bytes returned by the `Recv` calls of `player` in a run, in call order. -/
def receivedBy (player : Player) : List Op → List Ret → List UBYTE
  | Op.Recv p :: ops, Ret.byte b :: rets =>
    if p = player then b :: receivedBy player ops rets else receivedBy player ops rets
  | _ :: ops, _ :: rets => receivedBy player ops rets
  | _, _ => []

/-- The payloads of all accepted `Send` calls of a run, in call order. -/
def sentAccepted : List Op → List Ret → List UBYTE
  | Op.Send _ d :: ops, Ret.bool true :: rets => d :: sentAccepted ops rets
  | _ :: ops, _ :: rets => sentAccepted ops rets
  | _, _ => []

/-- The values returned by the `Send` calls of a run, in call order. -/
def sendResults : List Op → List Ret → List Bool
  | Op.Send _ _ :: ops, Ret.bool b :: rets => b :: sendResults ops rets
  | _ :: ops, _ :: rets => sendResults ops rets
  | _, _ => []

/-- The number of 1 bits among the eight bits of a byte. -/
def onesCount (byte : UBYTE) : Nat :=
  ((List.range 8).filter (fun i => byte.testBit i)).length

/-- Every player that has read `b` has read `a`. -/
def ReceiptLe (a b : ByteMessage) : Prop :=
  ∀ i, b.read_receipt.testBit i = true → a.read_receipt.testBit i = true

/-- The shape of the buffer while `S` is the only sender on a bus of `n`
players: every message is from `S`, is not complete, carries the bit of `S` and
no bit at position `n` or above, and whoever has read a message has read all
messages before it. -/
def SingleSenderInv (n S : Nat) (buffer : List ByteMessage) : Prop :=
  (∀ m ∈ buffer, m.sender = S ∧ m.read_receipt ≠ 2 ^ n - 1 ∧
    m.read_receipt.testBit S = true ∧ ∀ i, m.read_receipt.testBit i = true → i < n) ∧
  buffer.Pairwise ReceiptLe

/-- Message `b` is message `a` with possibly more readers: the sender, the
payload and the parity are those of `a`, and every read bit of `a` is set in `b`. -/
def ReceiptGrows (a b : ByteMessage) : Prop :=
  b.sender = a.sender ∧ b.data = a.data ∧ b.parity = a.parity ∧
  ∀ i, a.read_receipt.testBit i = true → b.read_receipt.testBit i = true

/-- The node argument of a call, for the calls that take one. -/
def Op.player : Op → Option Player
  | .Configure _ _ => none
  | .ConfigureParityConfig _ => none
  | .EnableRxIRQ player _ => some player
  | .EnableTxIRQ player _ => some player
  | .Send player _ => some player
  | .Recv player => some player
  | .SendBreak => none
  | .IsRxReady player => some player
  | .IsTxReady player _ => some player
  | .IsTxEmpty player => some player
  | .IsRxBrk player => some player
  | .IsIRQ player => some player
  | .HasFrameError player => some player
  | .HasOverrunError player => some player
  | .HasParityError player => some player
  | .HasAnyError player => some player
  | .ResetErrors player => some player
  | .GetSERCTL player => some player

/-- The receipt of a message on a bus of `n` players is well formed: the sender
is a player of the bus, its bit is set, and no bit at position `n` or above is
set. -/
def SenderMarked (n : Nat) (m : ByteMessage) : Prop :=
  m.sender < n ∧ m.read_receipt.testBit m.sender = true ∧
  ∀ i, m.read_receipt.testBit i = true → i < n

/-- Whether a call is one of the two `Configure` members. -/
def Op.isConfigure : Op → Bool
  | .Configure _ _ => true
  | .ConfigureParityConfig _ => true
  | _ => false

/-- The calls of `test_parity_mark` and `test_parity_space` after the
configuration, with `L1 = 0` and `L2 = 1`. -/
def parityTestOps : List Op :=
  [Op.Send 0 0b10101011, Op.HasAnyError 0, Op.IsRxReady 1, Op.HasAnyError 1, Op.Recv 1,
   Op.Send 0 0b10101010, Op.HasAnyError 0, Op.IsRxReady 1, Op.HasAnyError 1,
   Op.HasParityError 1, Op.ResetErrors 1, Op.Recv 1]

/-- The class `ComLynxClient`. Its members are the reference `comlynx_` to the
bus and the constant `player_`; the bus behind the reference is passed to every
member function and returned by those that can change it. -/
structure ComLynxClient where
  player_ : Player
deriving DecidableEq, Repr

namespace ComLynxClient

/-- The member `ComLynxClient::Configure`. -/
def Configure (_c : ComLynxClient) (comlynx_ : ComLynx) (enable_parity even_parity : Bool) :
    ComLynx :=
  comlynx_.Configure enable_parity even_parity

/-- The member `ComLynxClient::EnableRxIRQ`. -/
def EnableRxIRQ (c : ComLynxClient) (comlynx_ : ComLynx) (value : Bool) : Option ComLynx :=
  comlynx_.EnableRxIRQ c.player_ value

/-- The member `ComLynxClient::EnableTxIRQ`. -/
def EnableTxIRQ (c : ComLynxClient) (comlynx_ : ComLynx) (value : Bool) : Option ComLynx :=
  comlynx_.EnableTxIRQ c.player_ value

/-- The member `ComLynxClient::Send`. -/
def Send (c : ComLynxClient) (comlynx_ : ComLynx) (data : UBYTE) : Option (Bool × ComLynx) :=
  comlynx_.Send c.player_ data

/-- The member `ComLynxClient::Recv`. -/
def Recv (c : ComLynxClient) (comlynx_ : ComLynx) : Option (UBYTE × ComLynx) :=
  comlynx_.Recv c.player_

/-- The member `ComLynxClient::SendBreak`. -/
def SendBreak (_c : ComLynxClient) (comlynx_ : ComLynx) : Option ComLynx :=
  comlynx_.SendBreak

/-- The member `ComLynxClient::IsRxReady`. -/
def IsRxReady (c : ComLynxClient) (comlynx_ : ComLynx) : Option (Bool × ComLynx) :=
  comlynx_.IsRxReady c.player_

/-- The member `ComLynxClient::IsTxReady`. -/
def IsTxReady (c : ComLynxClient) (comlynx_ : ComLynx) (reason : TxNotReadyReason) :
    Option (Bool × TxNotReadyReason) :=
  comlynx_.IsTxReady c.player_ reason

/-- The member `ComLynxClient::IsTxEmpty`. -/
def IsTxEmpty (c : ComLynxClient) (comlynx_ : ComLynx) : Option Bool :=
  comlynx_.IsTxEmpty c.player_

/-- The member `ComLynxClient::IsRxBrk`. -/
def IsRxBrk (c : ComLynxClient) (comlynx_ : ComLynx) : Option (Bool × ComLynx) :=
  comlynx_.IsRxBrk c.player_

/-- The member `ComLynxClient::IsIRQ`. -/
def IsIRQ (c : ComLynxClient) (comlynx_ : ComLynx) : Option (Bool × ComLynx) :=
  comlynx_.IsIRQ c.player_

/-- The member `ComLynxClient::HasFrameError`. -/
def HasFrameError (c : ComLynxClient) (comlynx_ : ComLynx) : Option Bool :=
  comlynx_.HasFrameError c.player_

/-- The member `ComLynxClient::HasOverrunError`. -/
def HasOverrunError (c : ComLynxClient) (comlynx_ : ComLynx) : Option Bool :=
  comlynx_.HasOverrunError c.player_

/-- The member `ComLynxClient::HasParityError`. -/
def HasParityError (c : ComLynxClient) (comlynx_ : ComLynx) : Option Bool :=
  comlynx_.HasParityError c.player_

/-- The member `ComLynxClient::HasAnyError`. -/
def HasAnyError (c : ComLynxClient) (comlynx_ : ComLynx) : Option Bool :=
  comlynx_.HasAnyError c.player_

/-- The member `ComLynxClient::ResetErrors`. -/
def ResetErrors (c : ComLynxClient) (comlynx_ : ComLynx) : Option ComLynx :=
  comlynx_.ResetErrors c.player_

/-- The member `ComLynxClient::GetSERCTL`. -/
def GetSERCTL (c : ComLynxClient) (comlynx_ : ComLynx) : Option (UBYTE × ComLynx) :=
  comlynx_.GetSERCTL c.player_

/-- The member `ComLynxClient::GetPlayer`. -/
def GetPlayer (c : ComLynxClient) : Player :=
  c.player_

end ComLynxClient

/-- One call of an operation of a client, with its arguments. -/
inductive ClientOp where
  | EnableRxIRQ (value : Bool)
  | EnableTxIRQ (value : Bool)
  | Send (data : UBYTE)
  | Recv
  | SendBreak
  | IsRxReady
  | IsTxReady (reason : TxNotReadyReason)
  | IsTxEmpty
  | IsRxBrk
  | IsIRQ
  | HasFrameError
  | HasOverrunError
  | HasParityError
  | HasAnyError
  | ResetErrors
  | GetSERCTL
deriving DecidableEq, Repr

/-- The call of the bus that corresponds to a call of a client bound to `player`. -/
def ClientOp.toOp (player : Player) : ClientOp → Op
  | .EnableRxIRQ value => Op.EnableRxIRQ player value
  | .EnableTxIRQ value => Op.EnableTxIRQ player value
  | .Send data => Op.Send player data
  | .Recv => Op.Recv player
  | .SendBreak => Op.SendBreak
  | .IsRxReady => Op.IsRxReady player
  | .IsTxReady reason => Op.IsTxReady player reason
  | .IsTxEmpty => Op.IsTxEmpty player
  | .IsRxBrk => Op.IsRxBrk player
  | .IsIRQ => Op.IsIRQ player
  | .HasFrameError => Op.HasFrameError player
  | .HasOverrunError => Op.HasOverrunError player
  | .HasParityError => Op.HasParityError player
  | .HasAnyError => Op.HasAnyError player
  | .ResetErrors => Op.ResetErrors player
  | .GetSERCTL => Op.GetSERCTL player

/-- Perform one call through a client: the returned value and the bus
afterwards, or `none` when the call aborts. -/
def clientStep (c : ComLynxClient) (comlynx_ : ComLynx) : ClientOp → Option (Ret × ComLynx)
  | .EnableRxIRQ value => (c.EnableRxIRQ comlynx_ value).map (fun s1 => (Ret.void, s1))
  | .EnableTxIRQ value => (c.EnableTxIRQ comlynx_ value).map (fun s1 => (Ret.void, s1))
  | .Send data => (c.Send comlynx_ data).map (fun r => (Ret.bool r.1, r.2))
  | .Recv => (c.Recv comlynx_).map (fun r => (Ret.byte r.1, r.2))
  | .SendBreak => (c.SendBreak comlynx_).map (fun s1 => (Ret.void, s1))
  | .IsRxReady => (c.IsRxReady comlynx_).map (fun r => (Ret.bool r.1, r.2))
  | .IsTxReady reason => (c.IsTxReady comlynx_ reason).map (fun r => (Ret.ready r.1 r.2, comlynx_))
  | .IsTxEmpty => (c.IsTxEmpty comlynx_).map (fun b => (Ret.bool b, comlynx_))
  | .IsRxBrk => (c.IsRxBrk comlynx_).map (fun r => (Ret.bool r.1, r.2))
  | .IsIRQ => (c.IsIRQ comlynx_).map (fun r => (Ret.bool r.1, r.2))
  | .HasFrameError => (c.HasFrameError comlynx_).map (fun b => (Ret.bool b, comlynx_))
  | .HasOverrunError => (c.HasOverrunError comlynx_).map (fun b => (Ret.bool b, comlynx_))
  | .HasParityError => (c.HasParityError comlynx_).map (fun b => (Ret.bool b, comlynx_))
  | .HasAnyError => (c.HasAnyError comlynx_).map (fun b => (Ret.bool b, comlynx_))
  | .ResetErrors => (c.ResetErrors comlynx_).map (fun s1 => (Ret.void, s1))
  | .GetSERCTL => (c.GetSERCTL comlynx_).map (fun r => (Ret.byte r.1, r.2))

/-- Perform a sequence of calls, each through the client named with it. -/
def clientRun (comlynx_ : ComLynx) : List (ComLynxClient × ClientOp) → Option (List Ret × ComLynx)
  | [] => some ([], comlynx_)
  | (c, op) :: ops =>
    match clientStep c comlynx_ op with
    | none => none
    | some (r, s1) =>
      match clientRun s1 ops with
      | none => none
      | some (rs, s2) => some (r :: rs, s2)

/-- A two-player bus in Odd mode with the given buffer and every flag clear. -/
def twoPlayerBus (buffer : List ByteMessage) : ComLynx :=
  { n_players_ := 2, s_read_receipt_complete := 3, configured_ := true,
    enable_parity_ := true, even_parity_ := false, buffer_ := buffer,
    errors_ := [{}, {}], breaks_ := [false, false],
    rx_int_en_ := [false, false], tx_int_en_ := [false, false] }

/-! ## Theorems -/

/-! ## Bit-level facts about read receipts -/

theorem PlayerBit_eq_two_pow {p : Player} (hp : p < 32) : PlayerBit p = 2 ^ p := by
  unfold PlayerBit
  rw [Nat.one_shiftLeft]
  exact Nat.mod_eq_of_lt (Nat.pow_lt_pow_right (by decide) hp)

theorem PlayerBit_testBit (p q : Nat) :
    (PlayerBit p).testBit q = (decide (q < 32) && decide (p = q)) := by
  unfold PlayerBit
  rw [Nat.one_shiftLeft, Nat.testBit_mod_two_pow, Nat.testBit_two_pow]

theorem and_PlayerBit_ne_zero (r : Nat) {p : Player} (hp : p < 32) :
    ((r &&& PlayerBit p) != 0) = r.testBit p := by
  cases h : r.testBit p with
  | true =>
    have hb : (r &&& PlayerBit p).testBit p = true := by
      simp [Nat.testBit_and, PlayerBit_testBit, h, hp]
    have hne : r &&& PlayerBit p ≠ 0 := by
      intro h0
      rw [h0] at hb
      simp at hb
    simpa using hne
  | false =>
    have h0 : r &&& PlayerBit p = 0 := by
      apply Nat.eq_of_testBit_eq
      intro i
      simp only [Nat.testBit_and, PlayerBit_testBit, Nat.zero_testBit]
      by_cases hi : p = i
      · subst hi
        simp [h]
      · simp [hi]
    simp [h0]

theorem ByteMessage.HasRead_eq_testBit (m : ByteMessage) {p : Player} (hp : p < 32) :
    m.HasRead p = m.read_receipt.testBit p := by
  unfold ByteMessage.HasRead
  exact and_PlayerBit_ne_zero _ hp

theorem ByteMessage.HasRead_MarkRead_self (m : ByteMessage) {p : Player} (hp : p < 32) :
    (m.MarkRead p).HasRead p = true := by
  rw [ByteMessage.HasRead_eq_testBit _ hp]
  simp [ByteMessage.MarkRead, Nat.testBit_or, PlayerBit_testBit, hp]

theorem ByteMessage.HasRead_MarkRead_ne (m : ByteMessage) {p q : Player} (hq : q < 32)
    (hne : p ≠ q) : (m.MarkRead p).HasRead q = m.HasRead q := by
  rw [ByteMessage.HasRead_eq_testBit _ hq, ByteMessage.HasRead_eq_testBit _ hq]
  simp [ByteMessage.MarkRead, Nat.testBit_or, PlayerBit_testBit, hne]

theorem ByteMessage.HasRead_new (p : Player) (d : UBYTE) (par : Bool) {q : Player}
    (hq : q < 32) : (ByteMessage.new p d par).HasRead q = decide (p = q) := by
  rw [ByteMessage.HasRead_eq_testBit _ hq]
  simp [ByteMessage.new, ByteMessage.MarkRead, PlayerBit_testBit, hq]

@[simp] theorem ByteMessage.MarkRead_data (m : ByteMessage) (p : Player) :
    (m.MarkRead p).data = m.data := rfl

@[simp] theorem ByteMessage.MarkRead_sender (m : ByteMessage) (p : Player) :
    (m.MarkRead p).sender = m.sender := rfl

@[simp] theorem ByteMessage.MarkRead_parity (m : ByteMessage) (p : Player) :
    (m.MarkRead p).parity = m.parity := rfl

/-- The complete mask built by the constructor for at most 31 players. -/
theorem ComLynx.new_complete {n : Nat} (hn : n ≤ 31) :
    (ComLynx.new n).s_read_receipt_complete = 2 ^ n - 1 := by
  have h1 : (2 : Nat) ^ n < 2 ^ 32 := Nat.pow_lt_pow_right (by decide) (by omega)
  have h2 : 0 < (2 : Nat) ^ n := Nat.pos_pow_of_pos n (by decide)
  show ((1 <<< n) % 2 ^ 32 + 2 ^ 32 - 1) % 2 ^ 32 = 2 ^ n - 1
  rw [Nat.one_shiftLeft, Nat.mod_eq_of_lt h1]
  omega

/-! ## The scan for the first unread message -/

theorem firstUnread_eq_none_iff (p : Player) (l : List ByteMessage) :
    ComLynx.firstUnread p l = none ↔ ∀ m ∈ l, m.HasRead p = true := by
  induction l with
  | nil => simp [ComLynx.firstUnread]
  | cons a l ih =>
    by_cases ha : a.HasRead p = true
    · simp [ComLynx.firstUnread, ha, ih]
    · simp [ComLynx.firstUnread, ha]

theorem firstUnread_append (p : Player) (pre : List ByteMessage) (m : ByteMessage)
    (post : List ByteMessage) (hpre : ∀ x ∈ pre, x.HasRead p = true)
    (hm : m.HasRead p = false) :
    ComLynx.firstUnread p (pre ++ m :: post) = some pre.length := by
  induction pre with
  | nil => simp [ComLynx.firstUnread, hm]
  | cons a pre ih =>
    have ha : a.HasRead p = true := hpre a (List.mem_cons_self _ _)
    have ih1 := ih (fun x hx => hpre x (List.mem_cons_of_mem _ hx))
    simp [ComLynx.firstUnread, ha, ih1]

theorem firstUnread_split (p : Player) (l : List ByteMessage) (i : Nat)
    (h : ComLynx.firstUnread p l = some i) :
    ∃ pre m post, l = pre ++ m :: post ∧ pre.length = i ∧
      (∀ x ∈ pre, x.HasRead p = true) ∧ m.HasRead p = false := by
  induction l generalizing i with
  | nil => simp [ComLynx.firstUnread] at h
  | cons a l ih =>
    by_cases ha : a.HasRead p = true
    · simp only [ComLynx.firstUnread, ha, Bool.not_true, Bool.false_eq_true, if_false,
        Option.map_eq_some'] at h
      obtain ⟨j, hj, rfl⟩ := h
      obtain ⟨pre, m, post, hl, hlen, hpre, hm⟩ := ih j hj
      refine ⟨a :: pre, m, post, by simp [hl], by simp [hlen], ?_, hm⟩
      intro x hx
      rcases List.mem_cons.mp hx with rfl | hx
      · exact ha
      · exact hpre x hx
    · have ha2 : a.HasRead p = false := by simpa using ha
      simp only [ComLynx.firstUnread, ha2, Bool.not_false, if_true, Option.some.injEq] at h
      exact ⟨[], a, l, by simp, by simp [← h], by simp, ha2⟩

theorem exists_unread_split (p : Player) (l : List ByteMessage)
    (h : ∃ m ∈ l, m.HasRead p = false) :
    ∃ pre m post, l = pre ++ m :: post ∧
      (∀ x ∈ pre, x.HasRead p = true) ∧ m.HasRead p = false := by
  cases hf : ComLynx.firstUnread p l with
  | none =>
    obtain ⟨m, hm, hr⟩ := h
    have := (firstUnread_eq_none_iff p l).mp hf m hm
    simp [hr] at this
  | some i =>
    obtain ⟨pre, m, post, hl, _, hpre, hm⟩ := firstUnread_split p l i hf
    exact ⟨pre, m, post, hl, hpre, hm⟩

theorem getElem?_append_cons_length {α : Type} (pre : List α) (m : α) (post : List α) :
    (pre ++ m :: post)[pre.length]? = some m := by
  induction pre with
  | nil => simp
  | cons a pre ih => simpa using ih

theorem set_append_cons_length {α : Type} (pre : List α) (m : α) (post : List α) (x : α) :
    (pre ++ m :: post).set pre.length x = pre ++ x :: post := by
  induction pre with
  | nil => rfl
  | cons a pre ih => simp [ih]

/-! ## Closed forms of `Recv` and `IsRxReady` -/

theorem Recv_of_split (s : ComLynx) (p : Player) (pre : List ByteMessage) (m : ByteMessage)
    (post : List ByteMessage) (hc : s.configured_ = true) (hb : s.buffer_ = pre ++ m :: post)
    (hpre : ∀ x ∈ pre, x.HasRead p = true) (hm : m.HasRead p = false) :
    s.Recv p = some (m.data, { s with
      buffer_ := ComLynx.popFrontIfComplete s.s_read_receipt_complete
        (pre ++ m.MarkRead p :: post) }) := by
  have hf : ComLynx.firstUnread p s.buffer_ = some pre.length := by
    rw [hb]
    exact firstUnread_append p pre m post hpre hm
  have hg : s.buffer_[pre.length]? = some m := by
    rw [hb]
    exact getElem?_append_cons_length pre m post
  have hs : s.buffer_.set pre.length (m.MarkRead p) = pre ++ m.MarkRead p :: post := by
    rw [hb]
    exact set_append_cons_length pre m post _
  have hne : s.buffer_.isEmpty = false := by
    rw [hb]
    cases pre <;> rfl
  unfold ComLynx.Recv ComLynx.FirstUnreadMessage
  simp only [hc, hf, hg, hs, hm, hne, Bool.not_true, Bool.false_eq_true, if_false]

theorem Recv_eq_none_iff (s : ComLynx) (p : Player) (hc : s.configured_ = true) :
    s.Recv p = none ↔ ∀ m ∈ s.buffer_, m.HasRead p = true := by
  constructor
  · intro h
    by_contra hne
    push_neg at hne
    obtain ⟨m0, hm0, hr0⟩ := hne
    have hr0 : m0.HasRead p = false := by simpa using hr0
    obtain ⟨pre, m, post, hb, hpre, hm⟩ := exists_unread_split p s.buffer_ ⟨m0, hm0, hr0⟩
    rw [Recv_of_split s p pre m post hc hb hpre hm] at h
    exact Option.noConfusion h
  · intro h
    have hf := (firstUnread_eq_none_iff p s.buffer_).mpr h
    simp [ComLynx.Recv, ComLynx.FirstUnreadMessage, hc, hf]

theorem IsRxReady_of_all_read (s : ComLynx) (p : Player) (hc : s.configured_ = true)
    (h : ∀ m ∈ s.buffer_, m.HasRead p = true) : s.IsRxReady p = some (false, s) := by
  have hf := (firstUnread_eq_none_iff p s.buffer_).mpr h
  simp [ComLynx.IsRxReady, ComLynx.FirstUnreadMessage, hc, hf]

theorem IsRxReady_of_split (s : ComLynx) (p : Player) (pre : List ByteMessage) (m : ByteMessage)
    (post : List ByteMessage) (hc : s.configured_ = true) (hb : s.buffer_ = pre ++ m :: post)
    (hpre : ∀ x ∈ pre, x.HasRead p = true) (hm : m.HasRead p = false) :
    s.IsRxReady p = some (true,
      if m.parity != CalculateParity s.even_parity_ m.data then
        { s with errors_ := s.errors_.set p { (s.errors_.getD p default) with parity := true } }
      else s) := by
  have hf : ComLynx.firstUnread p s.buffer_ = some pre.length := by
    rw [hb]
    exact firstUnread_append p pre m post hpre hm
  have hg : s.buffer_[pre.length]? = some m := by
    rw [hb]
    exact getElem?_append_cons_length pre m post
  unfold ComLynx.IsRxReady ComLynx.FirstUnreadMessage
  simp only [hc, hf, hg, Bool.not_true, Bool.false_eq_true, if_false]
  split <;> rfl

/-- The parity flag update made by `IsRxReady` on a mismatch. -/
theorem IsRxReady_cases (s : ComLynx) (p : Player) (b : Bool) (s1 : ComLynx)
    (h : s.IsRxReady p = some (b, s1)) :
    s.configured_ = true ∧
    (s1 = s ∨ s1 = { s with
      errors_ := s.errors_.set p { (s.errors_.getD p default) with parity := true } }) := by
  have hc : s.configured_ = true := by
    by_contra hc
    simp [ComLynx.IsRxReady, hc] at h
  refine ⟨hc, ?_⟩
  cases hf : ComLynx.firstUnread p s.buffer_ with
  | none =>
    rw [IsRxReady_of_all_read s p hc ((firstUnread_eq_none_iff p _).mp hf)] at h
    simp only [Option.some.injEq, Prod.mk.injEq] at h
    exact Or.inl h.2.symm
  | some i =>
    obtain ⟨pre, m, post, hb, _, hpre, hm⟩ := firstUnread_split p _ i hf
    rw [IsRxReady_of_split s p pre m post hc hb hpre hm] at h
    simp only [Option.some.injEq, Prod.mk.injEq] at h
    rw [← h.2]
    split
    · exact Or.inr rfl
    · exact Or.inl rfl

theorem IsRxReady_buffer (s : ComLynx) (p : Player) (b : Bool) (s1 : ComLynx)
    (h : s.IsRxReady p = some (b, s1)) :
    s1.buffer_ = s.buffer_ ∧ s1.s_read_receipt_complete = s.s_read_receipt_complete ∧
    s1.n_players_ = s.n_players_ ∧ s1.configured_ = s.configured_ ∧
    s1.enable_parity_ = s.enable_parity_ ∧ s1.even_parity_ = s.even_parity_ ∧
    s1.breaks_ = s.breaks_ ∧ s1.rx_int_en_ = s.rx_int_en_ ∧ s1.tx_int_en_ = s.tx_int_en_ := by
  rcases (IsRxReady_cases s p b s1 h).2 with rfl | rfl <;> simp

theorem IsIRQ_cases (s : ComLynx) (p : Player) (b : Bool) (s1 : ComLynx)
    (h : s.IsIRQ p = some (b, s1)) :
    s1 = s ∨ ∃ b1, s.IsRxReady p = some (b1, s1) := by
  unfold ComLynx.IsIRQ at h
  by_cases hrx : s.rx_int_en_.getD p false = true
  · rw [if_pos hrx] at h
    cases hr : s.IsRxReady p with
    | none => simp [hr] at h
    | some r =>
      obtain ⟨b1, s2⟩ := r
      rw [hr] at h
      right
      refine ⟨b1, ?_⟩
      cases b1 with
      | true =>
        simp only [Option.some.injEq, Prod.mk.injEq] at h
        rw [h.2]
      | false =>
        simp only at h
        split at h
        · exact Option.noConfusion h
        · simp only [Option.some.injEq, Prod.mk.injEq] at h
          rw [h.2]
        · simp only [Option.some.injEq, Prod.mk.injEq] at h
          rw [h.2]
  · rw [if_neg hrx] at h
    left
    simp only at h
    split at h
    · exact Option.noConfusion h
    · simp only [Option.some.injEq, Prod.mk.injEq] at h
      exact h.2.symm
    · simp only [Option.some.injEq, Prod.mk.injEq] at h
      exact h.2.symm

theorem GetSERCTL_cases (s : ComLynx) (p : Player) (b : UBYTE) (s1 : ComLynx)
    (h : s.GetSERCTL p = some (b, s1)) :
    ∃ b1, s.IsRxReady p = some (b1, s1) := by
  unfold ComLynx.GetSERCTL at h
  split at h
  · exact Option.noConfusion h
  · split at h
    · exact Option.noConfusion h
    · split at h
      · exact Option.noConfusion h
      · rename_i rx_ready s2 hr
        split at h
        · exact Option.noConfusion h
        · simp only [Option.some.injEq, Prod.mk.injEq] at h
          exact ⟨rx_ready, by rw [hr, h.2]⟩

/-- Every call leaves the node count and the complete mask alone, and every call
other than `Send` and `Recv` leaves the buffer alone. -/
theorem step_static (s : ComLynx) (op : Op) (r : Ret) (s1 : ComLynx)
    (h : step s op = some (r, s1)) :
    s1.s_read_receipt_complete = s.s_read_receipt_complete ∧
    s1.n_players_ = s.n_players_ ∧
    ((∀ p d, op ≠ Op.Send p d) → (∀ p, op ≠ Op.Recv p) → s1.buffer_ = s.buffer_) := by
  cases op with
  | Configure ep ev =>
    simp only [step, Option.some.injEq, Prod.mk.injEq] at h
    rw [← h.2]
    simp [ComLynx.Configure]
  | ConfigureParityConfig c =>
    simp only [step, Option.some.injEq, Prod.mk.injEq] at h
    rw [← h.2]
    cases c <;> simp [ComLynx.ConfigureParityConfig, ComLynx.Configure]
  | EnableRxIRQ p v =>
    simp only [step, ComLynx.EnableRxIRQ, Option.map_eq_some'] at h
    obtain ⟨s2, h2, h3⟩ := h
    split at h2
    · exact Option.noConfusion h2
    · simp only [Option.some.injEq, Prod.mk.injEq] at h2 h3
      rw [← h3.2, ← h2]
      simp
  | EnableTxIRQ p v =>
    simp only [step, ComLynx.EnableTxIRQ, Option.map_eq_some'] at h
    obtain ⟨s2, h2, h3⟩ := h
    split at h2
    · exact Option.noConfusion h2
    · simp only [Option.some.injEq, Prod.mk.injEq] at h2 h3
      rw [← h3.2, ← h2]
      simp
  | Send p d =>
    simp only [step, Option.map_eq_some'] at h
    obtain ⟨r2, h2, h3⟩ := h
    simp only [Prod.mk.injEq] at h3
    rw [← h3.2]
    refine ⟨?_, ?_, fun hs _ => absurd rfl (hs p d)⟩
    all_goals
      unfold ComLynx.Send ComLynx.IsTxReady at h2
      split at h2
      · exact Option.noConfusion h2
      · simp only at h2
        split_ifs at h2 <;> simp only [Option.some.injEq] at h2 <;> rw [← h2]
  | Recv p =>
    simp only [step, Option.map_eq_some'] at h
    obtain ⟨r2, h2, h3⟩ := h
    simp only [Prod.mk.injEq] at h3
    rw [← h3.2]
    refine ⟨?_, ?_, fun _ hr => absurd rfl (hr p)⟩
    all_goals
      unfold ComLynx.Recv at h2
      split_ifs at h2
      split at h2
      · exact Option.noConfusion h2
      · exact Option.noConfusion h2
      · split at h2
        · exact Option.noConfusion h2
        · split_ifs at h2
          simp only [Option.some.injEq] at h2
          rw [← h2]
  | SendBreak =>
    simp only [step, ComLynx.SendBreak, Option.map_eq_some'] at h
    obtain ⟨s2, h2, h3⟩ := h
    split at h2
    · exact Option.noConfusion h2
    · simp only [Option.some.injEq, Prod.mk.injEq] at h2 h3
      rw [← h3.2, ← h2]
      simp
  | IsRxReady p =>
    simp only [step, Option.map_eq_some'] at h
    obtain ⟨r2, h2, h3⟩ := h
    simp only [Prod.mk.injEq] at h3
    rw [← h3.2]
    have := IsRxReady_buffer s p r2.1 r2.2 h2
    exact ⟨this.2.1, this.2.2.1, fun _ _ => this.1⟩
  | IsTxReady p reason =>
    simp only [step, Option.map_eq_some'] at h
    obtain ⟨r2, _, h3⟩ := h
    simp only [Prod.mk.injEq] at h3
    rw [← h3.2]
    simp
  | IsTxEmpty p =>
    simp only [step, Option.map_eq_some'] at h
    obtain ⟨r2, _, h3⟩ := h
    simp only [Prod.mk.injEq] at h3
    rw [← h3.2]
    simp
  | IsRxBrk p =>
    simp only [step, ComLynx.IsRxBrk, Option.map_eq_some'] at h
    obtain ⟨r2, h2, h3⟩ := h
    simp only [Prod.mk.injEq] at h3
    rw [← h3.2]
    split_ifs at h2 <;> simp only [Option.some.injEq] at h2 <;> rw [← h2] <;> simp
  | IsIRQ p =>
    simp only [step, Option.map_eq_some'] at h
    obtain ⟨r2, h2, h3⟩ := h
    simp only [Prod.mk.injEq] at h3
    rw [← h3.2]
    rcases IsIRQ_cases s p r2.1 r2.2 h2 with h4 | ⟨b1, h4⟩
    · rw [h4]
      simp
    · have := IsRxReady_buffer s p b1 r2.2 h4
      exact ⟨this.2.1, this.2.2.1, fun _ _ => this.1⟩
  | HasFrameError p =>
    simp only [step, Option.map_eq_some'] at h
    obtain ⟨r2, _, h3⟩ := h
    simp only [Prod.mk.injEq] at h3
    rw [← h3.2]
    simp
  | HasOverrunError p =>
    simp only [step, Option.map_eq_some'] at h
    obtain ⟨r2, _, h3⟩ := h
    simp only [Prod.mk.injEq] at h3
    rw [← h3.2]
    simp
  | HasParityError p =>
    simp only [step, Option.map_eq_some'] at h
    obtain ⟨r2, _, h3⟩ := h
    simp only [Prod.mk.injEq] at h3
    rw [← h3.2]
    simp
  | HasAnyError p =>
    simp only [step, Option.map_eq_some'] at h
    obtain ⟨r2, _, h3⟩ := h
    simp only [Prod.mk.injEq] at h3
    rw [← h3.2]
    simp
  | ResetErrors p =>
    simp only [step, ComLynx.ResetErrors, Option.map_eq_some'] at h
    obtain ⟨s2, h2, h3⟩ := h
    split at h2
    · exact Option.noConfusion h2
    · simp only [Option.some.injEq, Prod.mk.injEq] at h2 h3
      rw [← h3.2, ← h2]
      simp
  | GetSERCTL p =>
    simp only [step, Option.map_eq_some'] at h
    obtain ⟨r2, h2, h3⟩ := h
    simp only [Prod.mk.injEq] at h3
    rw [← h3.2]
    obtain ⟨b1, h4⟩ := GetSERCTL_cases s p r2.1 r2.2 h2
    have := IsRxReady_buffer s p b1 r2.2 h4
    exact ⟨this.2.1, this.2.2.1, fun _ _ => this.1⟩

/-! ## What each call does to the messages pending for one player -/

theorem unreadBy_popFrontIfComplete (B : Player) (hB : B < 32) (complete : ReadReceipt)
    (hmask : complete.testBit B = true) (l : List ByteMessage) :
    unreadBy B (ComLynx.popFrontIfComplete complete l) = unreadBy B l := by
  cases l with
  | nil => rfl
  | cons a l =>
    simp only [ComLynx.popFrontIfComplete]
    split
    · rename_i hfull
      have hr : a.HasRead B = true := by
        rw [ByteMessage.HasRead_eq_testBit _ hB]
        simp only [ByteMessage.AllHaveRead, beq_iff_eq] at hfull
        rw [hfull]
        exact hmask
      simp [unreadBy, hr]
    · rfl

theorem unreadBy_all_read (B : Player) (l : List ByteMessage)
    (h : ∀ x ∈ l, x.HasRead B = true) : unreadBy B l = [] := by
  simp only [unreadBy, List.filter_eq_nil_iff]
  intro x hx
  simp [h x hx]

theorem pending_mark_self (B : Player) (hB : B < 32) (pre : List ByteMessage) (m : ByteMessage)
    (post : List ByteMessage) (hpre : ∀ x ∈ pre, x.HasRead B = true)
    (hm : m.HasRead B = false) :
    (unreadBy B (pre ++ m :: post)).map (fun x => x.data) =
      m.data :: (unreadBy B (pre ++ m.MarkRead B :: post)).map (fun x => x.data) := by
  have h1 := unreadBy_all_read B pre hpre
  have h2 := ByteMessage.HasRead_MarkRead_self m hB
  simp only [unreadBy] at h1 ⊢
  simp [List.filter_append, List.filter_cons, h1, h2, hm]

theorem pending_mark_other (B p : Player) (hB : B < 32) (hne : p ≠ B) (pre : List ByteMessage)
    (m : ByteMessage) (post : List ByteMessage) :
    (unreadBy B (pre ++ m.MarkRead p :: post)).map (fun x => x.data) =
      (unreadBy B (pre ++ m :: post)).map (fun x => x.data) := by
  have h2 := ByteMessage.HasRead_MarkRead_ne m hB hne
  simp only [unreadBy]
  by_cases hm : m.HasRead B = true <;>
    simp [List.filter_append, List.filter_cons, h2, hm]

theorem sentByOthers_cons (B : Player) (op : Op) (r : Ret) (ops : List Op) (rets : List Ret) :
    sentByOthers B (op :: ops) (r :: rets) = sentByOthers B [op] [r] ++ sentByOthers B ops rets := by
  cases op <;> cases r <;> try rfl
  rename_i p d b
  cases b
  · rfl
  · by_cases hp : p = B <;> simp [sentByOthers, hp]

theorem receivedBy_cons (B : Player) (op : Op) (r : Ret) (ops : List Op) (rets : List Ret) :
    receivedBy B (op :: ops) (r :: rets) = receivedBy B [op] [r] ++ receivedBy B ops rets := by
  cases op <;> cases r <;> try rfl
  rename_i p b
  by_cases hp : p = B <;> simp [receivedBy, hp]

theorem sentByOthers_single_of_not_send (B : Player) (op : Op) (r : Ret)
    (h : ∀ p d, op ≠ Op.Send p d) : sentByOthers B [op] [r] = [] := by
  cases op <;> cases r <;> try rfl
  rename_i p d b
  exact absurd rfl (h p d)

theorem receivedBy_single_of_not_recv (B : Player) (op : Op) (r : Ret)
    (h : ∀ p, op ≠ Op.Recv p) : receivedBy B [op] [r] = [] := by
  cases op <;> cases r <;> try rfl
  rename_i p b
  exact absurd rfl (h p)

theorem unreadBy_append_singleton (B : Player) (l : List ByteMessage) (msg : ByteMessage) :
    unreadBy B (l ++ [msg]) = unreadBy B l ++ (if msg.HasRead B = true then [] else [msg]) := by
  cases h : msg.HasRead B <;> simp [unreadBy, List.filter_append, List.filter_cons, h]

theorem pendingFor_append_new (B : Player) (hB : B < 32) (s : ComLynx) (p : Player) (d : UBYTE)
    (par : Bool) :
    pendingFor B { s with buffer_ := s.buffer_ ++ [ByteMessage.new p d par] } =
      pendingFor B s ++ sentByOthers B [Op.Send p d] [Ret.bool true] := by
  have hnew := ByteMessage.HasRead_new p d par hB
  have hdata : (ByteMessage.new p d par).data = d := rfl
  simp only [pendingFor, unreadBy_append_singleton, hnew, decide_eq_true_eq, sentByOthers]
  by_cases hp : p = B
  · simp [hp]
  · simp [hp, hdata]

/-- One call: what was pending for `B` plus what others sent equals what `B`
received plus what is pending afterwards. -/
theorem step_pending (B : Player) (hB : B < 32) (s : ComLynx)
    (hmask : s.s_read_receipt_complete.testBit B = true) (op : Op) (r : Ret) (s1 : ComLynx)
    (h : step s op = some (r, s1)) :
    pendingFor B s ++ sentByOthers B [op] [r] = receivedBy B [op] [r] ++ pendingFor B s1 := by
  by_cases hsend : ∃ p d, op = Op.Send p d
  · obtain ⟨p, d, rfl⟩ := hsend
    simp only [step, Option.map_eq_some'] at h
    obtain ⟨r2, h2, h3⟩ := h
    simp only [Prod.mk.injEq] at h3
    obtain ⟨hr, hs⟩ := h3
    subst hr hs
    unfold ComLynx.Send ComLynx.IsTxReady at h2
    split at h2
    · exact Option.noConfusion h2
    · simp only at h2
      have hnew : pendingFor B { s with
            buffer_ := s.buffer_ ++ [ByteMessage.new p d (s.ParityFor d)] } =
          pendingFor B s ++ sentByOthers B [Op.Send p d] [Ret.bool true] :=
        pendingFor_append_new B hB s p d (s.ParityFor d)
      split_ifs at h2 <;> simp only [Option.some.injEq] at h2 <;> rw [← h2]
      · simp [receivedBy, hnew]
      · simp [sentByOthers, receivedBy, pendingFor]
      · simp [receivedBy, hnew]
  · by_cases hrecv : ∃ p, op = Op.Recv p
    · obtain ⟨p, rfl⟩ := hrecv
      simp only [step, Option.map_eq_some'] at h
      obtain ⟨r2, h2, h3⟩ := h
      simp only [Prod.mk.injEq] at h3
      obtain ⟨hr, hs⟩ := h3
      subst hr hs
      have hc : s.configured_ = true := by
        by_contra hc
        simp [ComLynx.Recv, hc] at h2
      cases hf : ComLynx.firstUnread p s.buffer_ with
      | none =>
        rw [(Recv_eq_none_iff s p hc).mpr ((firstUnread_eq_none_iff p _).mp hf)] at h2
        exact Option.noConfusion h2
      | some i =>
        obtain ⟨pre, m, post, hb, _, hpre, hm⟩ := firstUnread_split p _ i hf
        rw [Recv_of_split s p pre m post hc hb hpre hm] at h2
        simp only [Option.some.injEq] at h2
        rw [← h2]
        simp only [pendingFor, sentByOthers, List.append_nil]
        rw [unreadBy_popFrontIfComplete B hB _ hmask, hb]
        by_cases hp : p = B
        · subst hp
          rw [pending_mark_self p hB pre m post hpre hm]
          simp [receivedBy]
        · rw [pending_mark_other B p hB hp pre m post]
          simp [receivedBy, hp]
    · have hs : ∀ p d, op ≠ Op.Send p d := fun p d he => hsend ⟨p, d, he⟩
      have hr : ∀ p, op ≠ Op.Recv p := fun p he => hrecv ⟨p, he⟩
      have hbuf := (step_static s op r s1 h).2.2 hs hr
      rw [sentByOthers_single_of_not_send B op r hs, receivedBy_single_of_not_recv B op r hr]
      simp [pendingFor, hbuf]

theorem run_cons_eq_some (s : ComLynx) (op : Op) (ops : List Op) (rets : List Ret)
    (s1 : ComLynx) (h : run s (op :: ops) = some (rets, s1)) :
    ∃ r s2 rs, step s op = some (r, s2) ∧ run s2 ops = some (rs, s1) ∧ rets = r :: rs := by
  simp only [run] at h
  split at h
  · exact Option.noConfusion h
  · rename_i r s2 hstep
    split at h
    · exact Option.noConfusion h
    · rename_i rs s3 hrun
      simp only [Option.some.injEq, Prod.mk.injEq] at h
      obtain ⟨h1, h2⟩ := h
      subst h1 h2
      exact ⟨r, s2, rs, hstep, hrun, rfl⟩

theorem run_length (s : ComLynx) (ops : List Op) (rets : List Ret) (s1 : ComLynx)
    (h : run s ops = some (rets, s1)) : rets.length = ops.length := by
  induction ops generalizing s rets with
  | nil =>
    simp only [run, Option.some.injEq, Prod.mk.injEq] at h
    simp [← h.1]
  | cons op ops ih =>
    obtain ⟨r, s2, rs, _, hrun, rfl⟩ := run_cons_eq_some s op ops rets s1 h
    simp [ih s2 rs hrun]

theorem run_static (s : ComLynx) (ops : List Op) (rets : List Ret) (s1 : ComLynx)
    (h : run s ops = some (rets, s1)) :
    s1.s_read_receipt_complete = s.s_read_receipt_complete ∧ s1.n_players_ = s.n_players_ := by
  induction ops generalizing s rets with
  | nil =>
    simp only [run, Option.some.injEq, Prod.mk.injEq] at h
    simp [← h.2]
  | cons op ops ih =>
    obtain ⟨r, s2, rs, hstep, hrun, rfl⟩ := run_cons_eq_some s op ops rets s1 h
    have h1 := step_static s op r s2 hstep
    have h2 := ih s2 rs hrun
    exact ⟨h2.1.trans h1.1, h2.2.trans h1.2.1⟩

/-- A whole run: pending before plus sent by others equals received plus pending
after. -/
theorem run_pending (B : Player) (hB : B < 32) (s : ComLynx)
    (hmask : s.s_read_receipt_complete.testBit B = true) (ops : List Op) (rets : List Ret)
    (s1 : ComLynx) (h : run s ops = some (rets, s1)) :
    pendingFor B s ++ sentByOthers B ops rets = receivedBy B ops rets ++ pendingFor B s1 := by
  induction ops generalizing s rets with
  | nil =>
    simp only [run, Option.some.injEq, Prod.mk.injEq] at h
    simp [← h.1, ← h.2, sentByOthers, receivedBy]
  | cons op ops ih =>
    obtain ⟨r, s2, rs, hstep, hrun, rfl⟩ := run_cons_eq_some s op ops rets s1 h
    have hm2 : s2.s_read_receipt_complete.testBit B = true := by
      rw [(step_static s op r s2 hstep).1]
      exact hmask
    have e1 := step_pending B hB s hmask op r s2 hstep
    have e2 := ih s2 hm2 rs hrun
    rw [sentByOthers_cons, receivedBy_cons, ← List.append_assoc, e1, List.append_assoc, e2,
      List.append_assoc]

theorem IsRxReady_false_all_read (s : ComLynx) (p : Player) (s1 : ComLynx)
    (h : s.IsRxReady p = some (false, s1)) : ∀ m ∈ s.buffer_, m.HasRead p = true := by
  have hc := (IsRxReady_cases s p false s1 h).1
  cases hf : ComLynx.firstUnread p s.buffer_ with
  | none => exact (firstUnread_eq_none_iff p _).mp hf
  | some i =>
    obtain ⟨pre, m, post, hb, _, hpre, hm⟩ := firstUnread_split p _ i hf
    rw [IsRxReady_of_split s p pre m post hc hb hpre hm] at h
    simp at h

theorem sentByOthers_of_only_sender (A : Player) (ops : List Op)
    (honly : ∀ p d, Op.Send p d ∈ ops → p = A) (rets : List Ret) :
    sentByOthers A ops rets = [] ∧
      ∀ B, A ≠ B → sentByOthers B ops rets = sentAccepted ops rets := by
  induction ops generalizing rets with
  | nil => exact ⟨by cases rets <;> rfl, fun B _ => by cases rets <;> rfl⟩
  | cons op ops ih =>
    have hrest : ∀ p d, Op.Send p d ∈ ops → p = A :=
      fun p d hm => honly p d (List.mem_cons_of_mem _ hm)
    cases rets with
    | nil => exact ⟨by cases op <;> rfl, fun B _ => by cases op <;> rfl⟩
    | cons r rets =>
      have ih1 := ih hrest rets
      by_cases hsend : ∃ p d, op = Op.Send p d
      · obtain ⟨p, d, rfl⟩ := hsend
        have hp : p = A := honly p d (List.mem_cons_self _ _)
        subst hp
        cases r with
        | bool b =>
          cases b with
          | true =>
            refine ⟨by simp [sentByOthers, ih1.1], fun B hne => ?_⟩
            simp [sentByOthers, sentAccepted, hne, ih1.2 B hne]
          | false => exact ⟨by simp [sentByOthers, ih1.1], fun B hne => by
              simp [sentByOthers, sentAccepted, ih1.2 B hne]⟩
        | void => exact ⟨by simp [sentByOthers, ih1.1], fun B hne => by
            simp [sentByOthers, sentAccepted, ih1.2 B hne]⟩
        | byte v => exact ⟨by simp [sentByOthers, ih1.1], fun B hne => by
            simp [sentByOthers, sentAccepted, ih1.2 B hne]⟩
        | ready v w => exact ⟨by simp [sentByOthers, ih1.1], fun B hne => by
            simp [sentByOthers, sentAccepted, ih1.2 B hne]⟩
      · have hs : ∀ p d, op ≠ Op.Send p d := fun p d he => hsend ⟨p, d, he⟩
        have e1 : ∀ C, sentByOthers C (op :: ops) (r :: rets) = sentByOthers C ops rets := by
          intro C
          rw [sentByOthers_cons, sentByOthers_single_of_not_send C op r hs]
          rfl
        have e2 : sentAccepted (op :: ops) (r :: rets) = sentAccepted ops rets := by
          cases op <;> first | rfl | exact absurd rfl (hs _ _)
        exact ⟨by rw [e1, ih1.1], fun B hne => by rw [e1, e2, ih1.2 B hne]⟩

/-- C1 (global FIFO, per-recipient exclusion). On a bus constructed for `n ≤ 31`
players and configured, after any sequence of calls that ran to completion:
the bytes player `B < n` got from `Recv`, followed by the payloads still pending
for `B`, are exactly the payloads of the accepted `Send` calls of the other
players in call order, so the received bytes are an initial segment of them;
they are all of them once `IsRxReady(B)` returns false; and when a single player
`A` is the only sender, every other player is offered exactly the accepted
payloads and `A` never receives a byte. -/
theorem C1_global_fifo (n B : Nat) (hn : n ≤ 31) (hB : B < n)
    (enable_parity even_parity : Bool) (ops : List Op) (rets : List Ret) (s1 : ComLynx)
    (hrun : run ((ComLynx.new n).Configure enable_parity even_parity) ops = some (rets, s1)) :
    receivedBy B ops rets ++ pendingFor B s1 = sentByOthers B ops rets ∧
    receivedBy B ops rets <+: sentByOthers B ops rets ∧
    (∀ s2, s1.IsRxReady B = some (false, s2) →
      receivedBy B ops rets = sentByOthers B ops rets) ∧
    (∀ A, A < n → (∀ p d, Op.Send p d ∈ ops → p = A) →
      receivedBy A ops rets = [] ∧
      (A ≠ B → sentByOthers B ops rets = sentAccepted ops rets)) := by
  have key : ∀ C, C < n →
      receivedBy C ops rets ++ pendingFor C s1 = sentByOthers C ops rets := by
    intro C hC
    have hC32 : C < 32 := by omega
    have hmask : ((ComLynx.new n).Configure enable_parity even_parity).s_read_receipt_complete.testBit C
        = true := by
      show (ComLynx.new n).s_read_receipt_complete.testBit C = true
      rw [ComLynx.new_complete hn, Nat.testBit_two_pow_sub_one]
      exact decide_eq_true hC
    have := run_pending C hC32 _ hmask ops rets s1 hrun
    simpa [pendingFor, unreadBy, ComLynx.Configure, ComLynx.new] using this.symm
  have hB1 := key B hB
  refine ⟨hB1, ⟨pendingFor B s1, hB1⟩, ?_, ?_⟩
  · intro s2 hrx
    have hall := IsRxReady_false_all_read s1 B s2 hrx
    have : pendingFor B s1 = [] := by
      simp [pendingFor, unreadBy_all_read B _ hall]
    rw [← hB1, this, List.append_nil]
  · intro A hA honly
    have hs := sentByOthers_of_only_sender A ops honly rets
    have hA1 := key A hA
    rw [hs.1] at hA1
    exact ⟨(List.append_eq_nil.mp hA1).1, fun hne => hs.2 B hne⟩

/-- C1 at a concrete run with two players: player 0 sends `65`, player 1 sends
`66`, player 1 receives `65` and then finds nothing more to read. -/
theorem C1_global_fifo_witness :
    (2 ≤ 31 ∧ 1 < 2 ∧
      run ((ComLynx.new 2).Configure true false)
          [Op.Send 0 65, Op.Send 1 66, Op.Recv 1, Op.IsRxReady 1] =
        some ([Ret.bool true, Ret.bool true, Ret.byte 65, Ret.bool false],
          { n_players_ := 2, s_read_receipt_complete := 3, configured_ := true,
            enable_parity_ := true, even_parity_ := false,
            buffer_ := [{ sender := 1, data := 66, parity := true, read_receipt := 2 }],
            errors_ := [{}, {}], breaks_ := [false, false],
            rx_int_en_ := [false, false], tx_int_en_ := [false, false] })) ∧
    receivedBy 1 [Op.Send 0 65, Op.Send 1 66, Op.Recv 1, Op.IsRxReady 1]
        [Ret.bool true, Ret.bool true, Ret.byte 65, Ret.bool false] ++
      pendingFor 1
        { n_players_ := 2, s_read_receipt_complete := 3, configured_ := true,
          enable_parity_ := true, even_parity_ := false,
          buffer_ := [{ sender := 1, data := 66, parity := true, read_receipt := 2 }],
          errors_ := [{}, {}], breaks_ := [false, false],
          rx_int_en_ := [false, false], tx_int_en_ := [false, false] } =
      sentByOthers 1 [Op.Send 0 65, Op.Send 1 66, Op.Recv 1, Op.IsRxReady 1]
        [Ret.bool true, Ret.bool true, Ret.byte 65, Ret.bool false] :=
  ⟨⟨by decide, by decide, rfl⟩,
    (C1_global_fifo 2 1 (by decide) (by decide) true false
      [Op.Send 0 65, Op.Send 1 66, Op.Recv 1, Op.IsRxReady 1]
      [Ret.bool true, Ret.bool true, Ret.byte 65, Ret.bool false]
      { n_players_ := 2, s_read_receipt_complete := 3, configured_ := true,
        enable_parity_ := true, even_parity_ := false,
        buffer_ := [{ sender := 1, data := 66, parity := true, read_receipt := 2 }],
        errors_ := [{}, {}], breaks_ := [false, false],
        rx_int_en_ := [false, false], tx_int_en_ := [false, false] } rfl).1⟩

/-- C2, counterexample. Two players: player 0 sends `65`, player 1 sends `66`,
player 0 receives `66`. All three calls have returned, and the buffer holds the
message `66` whose receipt equals the complete mask `3`, behind the message `65`
that player 1 has not read. -/
theorem C2_complete_message_stays_buffered :
    run ((ComLynx.new 2).Configure true false) [Op.Send 0 65, Op.Send 1 66, Op.Recv 0] =
      some ([Ret.bool true, Ret.bool true, Ret.byte 66],
        { n_players_ := 2, s_read_receipt_complete := 3, configured_ := true,
          enable_parity_ := true, even_parity_ := false,
          buffer_ := [{ sender := 0, data := 65, parity := true, read_receipt := 1 },
                      { sender := 1, data := 66, parity := true, read_receipt := 3 }],
          errors_ := [{}, {}], breaks_ := [false, false],
          rx_int_en_ := [false, false], tx_int_en_ := [false, false] }) ∧
    ByteMessage.AllHaveRead { sender := 1, data := 66, parity := true, read_receipt := 3 } 3
      = true :=
  ⟨rfl, rfl⟩

/-- C2, amended. In every state reachable from a bus constructed for `n ≤ 31`
players and configured, a further call changes the buffer in one of three ways
only: not at all; by appending the new message (`Send`); or (`Recv`) by adding
the caller's bit to one message and then possibly dropping the front message.
The front message is dropped only when its receipt equals the complete mask, in
which case every player below `n` has read it; so no message some player has not
read is ever dropped, and messages leave from the front, one per call at most. -/
theorem C2_eviction_front_complete_only (n : Nat) (hn : n ≤ 31)
    (enable_parity even_parity : Bool) (ops : List Op) (rets : List Ret) (s : ComLynx)
    (hrun : run ((ComLynx.new n).Configure enable_parity even_parity) ops = some (rets, s))
    (op : Op) (r : Ret) (s1 : ComLynx) (h : step s op = some (r, s1)) :
    s1.buffer_ = s.buffer_ ∨
    (∃ p d, op = Op.Send p d ∧
      s1.buffer_ = s.buffer_ ++ [ByteMessage.new p d (s.ParityFor d)]) ∨
    (∃ p pre m post, op = Op.Recv p ∧ s.buffer_ = pre ++ m :: post ∧
      m.HasRead p = false ∧
      (s1.buffer_ = pre ++ m.MarkRead p :: post ∨
        ∃ front, pre ++ m.MarkRead p :: post = front :: s1.buffer_ ∧
          front.read_receipt = s.s_read_receipt_complete ∧
          ∀ q, q < n → front.HasRead q = true)) := by
  have hmask : s.s_read_receipt_complete = 2 ^ n - 1 := by
    rw [(run_static _ ops rets s hrun).1]
    exact ComLynx.new_complete hn
  by_cases hsend : ∃ p d, op = Op.Send p d
  · obtain ⟨p, d, rfl⟩ := hsend
    simp only [step, Option.map_eq_some'] at h
    obtain ⟨r2, h2, h3⟩ := h
    simp only [Prod.mk.injEq] at h3
    obtain ⟨hr, hs⟩ := h3
    subst hr hs
    unfold ComLynx.Send ComLynx.IsTxReady at h2
    split at h2
    · exact Option.noConfusion h2
    · simp only at h2
      split_ifs at h2 <;> simp only [Option.some.injEq] at h2 <;> rw [← h2]
      · exact Or.inr (Or.inl ⟨p, d, rfl, rfl⟩)
      · exact Or.inl rfl
      · exact Or.inr (Or.inl ⟨p, d, rfl, rfl⟩)
  · by_cases hrecv : ∃ p, op = Op.Recv p
    · obtain ⟨p, rfl⟩ := hrecv
      simp only [step, Option.map_eq_some'] at h
      obtain ⟨r2, h2, h3⟩ := h
      simp only [Prod.mk.injEq] at h3
      obtain ⟨hr, hs⟩ := h3
      subst hr hs
      have hc : s.configured_ = true := by
        by_contra hc
        simp [ComLynx.Recv, hc] at h2
      cases hf : ComLynx.firstUnread p s.buffer_ with
      | none =>
        rw [(Recv_eq_none_iff s p hc).mpr ((firstUnread_eq_none_iff p _).mp hf)] at h2
        exact Option.noConfusion h2
      | some i =>
        obtain ⟨pre, m, post, hb, _, hpre, hm⟩ := firstUnread_split p _ i hf
        rw [Recv_of_split s p pre m post hc hb hpre hm] at h2
        simp only [Option.some.injEq] at h2
        rw [← h2]
        refine Or.inr (Or.inr ⟨p, pre, m, post, rfl, hb, hm, ?_⟩)
        show ComLynx.popFrontIfComplete s.s_read_receipt_complete (pre ++ m.MarkRead p :: post)
            = pre ++ m.MarkRead p :: post ∨ _
        cases hmk : pre ++ m.MarkRead p :: post with
        | nil => cases pre <;> simp at hmk
        | cons f rest =>
          simp only [ComLynx.popFrontIfComplete]
          split
          · rename_i hfull
            right
            simp only [ByteMessage.AllHaveRead, beq_iff_eq] at hfull
            refine ⟨f, rfl, hfull, fun q hq => ?_⟩
            rw [ByteMessage.HasRead_eq_testBit f (show q < 32 by omega), hfull, hmask,
              Nat.testBit_two_pow_sub_one]
            exact decide_eq_true hq
          · exact Or.inl rfl
    · have hs : ∀ p d, op ≠ Op.Send p d := fun p d he => hsend ⟨p, d, he⟩
      have hr : ∀ p, op ≠ Op.Recv p := fun p he => hrecv ⟨p, he⟩
      exact Or.inl ((step_static s op r s1 h).2.2 hs hr)

/-- C2 amended, at a concrete step: after player 0 has sent `65` on a two-player
bus, `Recv(1)` marks the message and drops it from the front. -/
theorem C2_eviction_front_complete_only_witness :
    (2 ≤ 31 ∧
      run ((ComLynx.new 2).Configure true false) [Op.Send 0 65] =
        some ([Ret.bool true], twoPlayerBus [⟨0, 65, true, 1⟩]) ∧
      step (twoPlayerBus [⟨0, 65, true, 1⟩]) (Op.Recv 1) =
        some (Ret.byte 65, twoPlayerBus [])) ∧
    ((twoPlayerBus []).buffer_ = (twoPlayerBus [⟨0, 65, true, 1⟩]).buffer_ ∨
    (∃ p d, Op.Recv 1 = Op.Send p d ∧
      (twoPlayerBus []).buffer_ = (twoPlayerBus [⟨0, 65, true, 1⟩]).buffer_ ++
        [ByteMessage.new p d ((twoPlayerBus [⟨0, 65, true, 1⟩]).ParityFor d)]) ∨
    (∃ p pre m post, Op.Recv 1 = Op.Recv p ∧
      (twoPlayerBus [⟨0, 65, true, 1⟩]).buffer_ = pre ++ m :: post ∧
      m.HasRead p = false ∧
      ((twoPlayerBus []).buffer_ = pre ++ m.MarkRead p :: post ∨
        ∃ front, pre ++ m.MarkRead p :: post = front :: (twoPlayerBus []).buffer_ ∧
          front.read_receipt = (twoPlayerBus [⟨0, 65, true, 1⟩]).s_read_receipt_complete ∧
          ∀ q, q < 2 → front.HasRead q = true))) :=
  ⟨⟨by decide, rfl, rfl⟩,
    C2_eviction_front_complete_only 2 (by decide) true false [Op.Send 0 65] [Ret.bool true]
      (twoPlayerBus [⟨0, 65, true, 1⟩]) rfl (Op.Recv 1) (Ret.byte 65) (twoPlayerBus []) rfl⟩

/-- C3 (`Recv`). On a configured bus where some buffered message is unread by
`node`, split the buffer at the first such message `m`. Then `Recv(node)`
returns the payload of `m`; the receipt of `m` gains exactly the bit of `node`
and no other message changes; afterwards the front message of the buffer is
removed if and only if its receipt equals the complete mask, and nothing but the
buffer changes. -/
theorem C3_Recv_first_unread (s : ComLynx) (node : Player) (hc : s.configured_ = true)
    (hnode : node < 32) (h : ∃ m ∈ s.buffer_, m.HasRead node = false) :
    ∃ pre m post,
      s.buffer_ = pre ++ m :: post ∧
      (∀ x ∈ pre, x.HasRead node = true) ∧ m.HasRead node = false ∧
      ∃ front rest,
        pre ++ { m with read_receipt := m.read_receipt ||| 2 ^ node } :: post = front :: rest ∧
        (∀ k, (m.read_receipt ||| 2 ^ node).testBit k
          = (m.read_receipt.testBit k || decide (k = node))) ∧
        s.Recv node = some (m.data, { s with
          buffer_ := if front.read_receipt = s.s_read_receipt_complete then rest
            else front :: rest }) := by
  obtain ⟨pre, m, post, hb, hpre, hm⟩ := exists_unread_split node s.buffer_ h
  have hmark : m.MarkRead node = { m with read_receipt := m.read_receipt ||| 2 ^ node } := by
    simp [ByteMessage.MarkRead, PlayerBit_eq_two_pow hnode]
  have hrecv := Recv_of_split s node pre m post hc hb hpre hm
  rw [hmark] at hrecv
  refine ⟨pre, m, post, hb, hpre, hm, ?_⟩
  cases hmk : pre ++ { m with read_receipt := m.read_receipt ||| 2 ^ node } :: post with
  | nil => cases pre <;> simp at hmk
  | cons f rest =>
    refine ⟨f, rest, rfl, ?_, ?_⟩
    · intro k
      rw [Nat.testBit_or, Nat.testBit_two_pow]
      congr 1
      exact decide_eq_decide.mpr ⟨fun e => e.symm, fun e => e.symm⟩
    · rw [hrecv, hmk]
      simp only [ComLynx.popFrontIfComplete, ByteMessage.AllHaveRead, beq_iff_eq]

/-- C3 at a concrete state: two players, `65` from player 0 unread by player 1;
`Recv(1)` returns `65` and the completed front message is removed. -/
theorem C3_Recv_first_unread_witness :
    ((twoPlayerBus [⟨0, 65, true, 1⟩]).configured_ = true ∧ 1 < 32 ∧
      ∃ m ∈ (twoPlayerBus [⟨0, 65, true, 1⟩]).buffer_, m.HasRead 1 = false) ∧
    ∃ pre m post,
      (twoPlayerBus [⟨0, 65, true, 1⟩]).buffer_ = pre ++ m :: post ∧
      (∀ x ∈ pre, x.HasRead 1 = true) ∧ m.HasRead 1 = false ∧
      ∃ front rest,
        pre ++ { m with read_receipt := m.read_receipt ||| 2 ^ 1 } :: post = front :: rest ∧
        (∀ k, (m.read_receipt ||| 2 ^ 1).testBit k
          = (m.read_receipt.testBit k || decide (k = 1))) ∧
        (twoPlayerBus [⟨0, 65, true, 1⟩]).Recv 1 = some (m.data,
          { twoPlayerBus [⟨0, 65, true, 1⟩] with
            buffer_ := if front.read_receipt
                = (twoPlayerBus [⟨0, 65, true, 1⟩]).s_read_receipt_complete then rest
              else front :: rest }) :=
  ⟨⟨rfl, by decide, ⟨0, 65, true, 1⟩, List.mem_singleton.mpr rfl, rfl⟩,
    C3_Recv_first_unread (twoPlayerBus [⟨0, 65, true, 1⟩]) 1 rfl (by decide)
      ⟨⟨0, 65, true, 1⟩, List.mem_singleton.mpr rfl, rfl⟩⟩

/-- C4 (`Send`, accepted). On a configured bus holding fewer than 32 messages,
`Send(node, byte)` returns true and appends exactly one message: sender `node`,
payload `byte`, receipt with only the bit of `node`, and expected parity equal
to the even parity of the byte (parity enabled, even polarity), its odd parity
(enabled, odd polarity), or the polarity value itself (parity disabled).
Nothing but the buffer changes. -/
theorem C4_Send_appends (s : ComLynx) (node : Player) (byte : UBYTE)
    (hc : s.configured_ = true) (hlen : s.buffer_.length < 32) (hnode : node < 32) :
    s.Send node byte = some (true, { s with
      buffer_ := s.buffer_ ++ [{
        sender := node
        data := byte
        read_receipt := 2 ^ node
        parity :=
          if s.enable_parity_ then
            (if s.even_parity_ then CalculateEvenParity byte else CalculateOddParity byte)
          else s.even_parity_ }] }) ∧
    ∀ k, (2 ^ node).testBit k = decide (k = node) := by
  constructor
  · have hnew : ByteMessage.new node byte (s.ParityFor byte) =
        { sender := node, data := byte, read_receipt := 2 ^ node,
          parity :=
            if s.enable_parity_ then
              (if s.even_parity_ then CalculateEvenParity byte else CalculateOddParity byte)
            else s.even_parity_ } := by
      simp [ByteMessage.new, ByteMessage.MarkRead, PlayerBit_eq_two_pow hnode,
        ComLynx.ParityFor, CalculateParity]
    rw [← hnew]
    unfold ComLynx.Send ComLynx.IsTxReady
    simp only [hc, Bool.not_true, Bool.false_eq_true, if_false]
    split_ifs
    · rfl
    · omega
    · rfl
  · intro k
    rw [Nat.testBit_two_pow]
    exact decide_eq_decide.mpr ⟨fun e => e.symm, fun e => e.symm⟩

/-- C4 at a concrete state: player 0 sends `65` on an idle two-player bus in
Odd mode. -/
theorem C4_Send_appends_witness :
    ((twoPlayerBus []).configured_ = true ∧ (twoPlayerBus []).buffer_.length < 32 ∧ 0 < 32) ∧
    (twoPlayerBus []).Send 0 65 = some (true, twoPlayerBus [⟨0, 65, true, 1⟩]) :=
  ⟨⟨rfl, by decide, by decide⟩,
    (C4_Send_appends (twoPlayerBus []) 0 65 rfl (by decide) (by decide)).1⟩

/-! ## `Send` and the overrun boundary -/

theorem Send_accept (s : ComLynx) (p : Player) (d : UBYTE) (hc : s.configured_ = true)
    (hlen : s.buffer_.length < 32) :
    s.Send p d = some (true, { s with
      buffer_ := s.buffer_ ++ [ByteMessage.new p d (s.ParityFor d)] }) := by
  unfold ComLynx.Send ComLynx.IsTxReady
  simp only [hc, Bool.not_true, Bool.false_eq_true, if_false]
  split_ifs
  · rfl
  · omega
  · rfl

theorem Send_reject (s : ComLynx) (p : Player) (d : UBYTE) (hc : s.configured_ = true)
    (hlen : 32 ≤ s.buffer_.length) :
    s.Send p d = some (false, { s with
      errors_ := s.errors_.set p { (s.errors_.getD p default) with overrun := true } }) := by
  unfold ComLynx.Send ComLynx.IsTxReady
  simp only [hc, Bool.not_true, Bool.false_eq_true, if_false]
  split_ifs
  · omega
  · rfl

theorem Send_configured (s : ComLynx) (p : Player) (d : UBYTE) (b : Bool) (s1 : ComLynx)
    (h : s.Send p d = some (b, s1)) : s.configured_ = true := by
  by_contra hc
  simp [ComLynx.Send, hc] at h

theorem Send_result (s : ComLynx) (p : Player) (d : UBYTE) (b : Bool) (s1 : ComLynx)
    (h : s.Send p d = some (b, s1)) :
    b = decide (s.buffer_.length < 32) ∧
    s1.buffer_.length = s.buffer_.length + (if b = true then 1 else 0) ∧
    s1.configured_ = true := by
  have hc := Send_configured s p d b s1 h
  by_cases hlen : s.buffer_.length < 32
  · rw [Send_accept s p d hc hlen] at h
    simp only [Option.some.injEq, Prod.mk.injEq] at h
    obtain ⟨hb, hs⟩ := h
    subst hb hs
    simp [hlen, hc]
  · rw [Send_reject s p d hc (by omega)] at h
    simp only [Option.some.injEq, Prod.mk.injEq] at h
    obtain ⟨hb, hs⟩ := h
    subst hb hs
    simp [hlen, hc]

theorem sendResults_cons_of_not_send (op : Op) (r : Ret) (ops : List Op) (rets : List Ret)
    (h : ∀ p d, op ≠ Op.Send p d) :
    sendResults (op :: ops) (r :: rets) = sendResults ops rets := by
  cases op <;> first | rfl | exact absurd rfl (h _ _)

/-- Without a `Recv`, the `i`-th `Send` of a run is accepted exactly when the
buffer length at the start plus `i` is below 32. -/
theorem sendResults_without_recv (ops : List Op) (hno : ∀ p, Op.Recv p ∉ ops) (s : ComLynx)
    (rets : List Ret) (s1 : ComLynx) (hrun : run s ops = some (rets, s1)) (i : Nat) (b : Bool)
    (hi : (sendResults ops rets)[i]? = some b) :
    b = decide (s.buffer_.length + i < 32) := by
  induction ops generalizing s rets i with
  | nil =>
    simp only [run, Option.some.injEq, Prod.mk.injEq] at hrun
    rw [← hrun.1] at hi
    simp [sendResults] at hi
  | cons op ops ih =>
    obtain ⟨r, s2, rs, hstep, hrun2, rfl⟩ := run_cons_eq_some s op ops rets s1 hrun
    have hno2 : ∀ p, Op.Recv p ∉ ops := fun p hm => hno p (List.mem_cons_of_mem _ hm)
    by_cases hsend : ∃ p d, op = Op.Send p d
    · obtain ⟨p, d, rfl⟩ := hsend
      simp only [step, Option.map_eq_some'] at hstep
      obtain ⟨r2, h2, h3⟩ := hstep
      simp only [Prod.mk.injEq] at h3
      obtain ⟨hr, hs⟩ := h3
      subst hr hs
      have hres := Send_result s p d r2.1 r2.2 h2
      cases i with
      | zero =>
        simp only [sendResults, List.getElem?_cons_zero, Option.some.injEq] at hi
        rw [← hi, hres.1]
        simp
      | succ j =>
        simp only [sendResults, List.getElem?_cons_succ] at hi
        have := ih hno2 r2.2 rs hrun2 j hi
        rw [this, hres.2.1]
        by_cases hlen : s.buffer_.length < 32
        · have hb : r2.1 = true := by rw [hres.1]; exact decide_eq_true hlen
          simp only [hb, if_true]
          exact decide_eq_decide.mpr (by omega)
        · have hb : r2.1 = false := by rw [hres.1]; exact decide_eq_false hlen
          simp only [hb, Bool.false_eq_true, if_false]
          exact decide_eq_decide.mpr (by omega)
    · have hs : ∀ p d, op ≠ Op.Send p d := fun p d he => hsend ⟨p, d, he⟩
      have hr : ∀ p, op ≠ Op.Recv p := fun p he => hno p (he ▸ List.mem_cons_self _ _)
      have hbuf := (step_static s op r s2 hstep).2.2 hs hr
      rw [sendResults_cons_of_not_send op r ops rs hs] at hi
      rw [← hbuf]
      exact ih hno2 s2 rs hrun2 i hi

/-- A run of `Send` calls alone on a configured bus never aborts and its `i`-th
call returns whether the starting length plus `i` is below 32. -/
theorem run_sends (sends : List (Player × UBYTE)) (s : ComLynx) (hc : s.configured_ = true) :
    ∃ s1, run s (sends.map (fun x => Op.Send x.1 x.2)) =
      some ((List.range sends.length).map
        (fun i => Ret.bool (decide (s.buffer_.length + i < 32))), s1) := by
  induction sends generalizing s with
  | nil => exact ⟨s, rfl⟩
  | cons x sends ih =>
    cases hsend : s.Send x.1 x.2 with
    | none =>
      by_cases hlen : s.buffer_.length < 32
      · rw [Send_accept s x.1 x.2 hc hlen] at hsend
        exact Option.noConfusion hsend
      · rw [Send_reject s x.1 x.2 hc (by omega)] at hsend
        exact Option.noConfusion hsend
    | some r2 =>
      have hres := Send_result s x.1 x.2 r2.1 r2.2 hsend
      obtain ⟨s1, h1⟩ := ih r2.2 hres.2.2
      refine ⟨s1, ?_⟩
      simp only [List.map_cons, run, step, hsend, Option.map_some', h1, List.length_cons,
        List.range_succ_eq_map, List.map_map]
      congr 2
      rw [hres.1]
      simp only [decide_eq_decide, List.cons.injEq, Ret.bool.injEq, Nat.add_zero, true_and,
        List.map_inj_left, Function.comp]
      intro i _
      rw [hres.2.1]
      by_cases hlen : s.buffer_.length < 32
      · have hb : r2.1 = true := by rw [hres.1]; exact decide_eq_true hlen
        simp only [hb, if_true]
        omega
      · have hb : r2.1 = false := by rw [hres.1]; exact decide_eq_false hlen
        simp only [hb, Bool.false_eq_true, if_false]
        omega

theorem getD_set_self {α : Type} (l : List α) (i : Nat) (a d : α) (h : i < l.length) :
    (l.set i a).getD i d = a := by
  simp [List.getD_eq_getElem?_getD, List.getElem?_set_self h]

theorem getD_set_ne {α : Type} (l : List α) (i j : Nat) (a d : α) (h : j ≠ i) :
    (l.set i a).getD j d = l.getD j d := by
  simp [List.getD_eq_getElem?_getD, List.getElem?_set_ne (Ne.symm h)]

/-- C5 (`Send`, overrun). On a configured bus `Send(node, byte)` always returns,
and returns false exactly when the buffer already holds 32 or more messages. In
that case the only change is the overrun flag of `node`, which is set: its
parity and frame flags and the entries of all other players stay as they were.
Consequently, from an empty buffer, 33 `Send` calls in a row return true 32
times and then false; and in any run without `Recv` the `Send` calls numbered
1 to 32 return true and every later one false. -/
theorem C5_Send_overrun (s : ComLynx) (node : Player) (byte : UBYTE)
    (hc : s.configured_ = true) :
    (∃ s1, s.Send node byte = some (decide (s.buffer_.length < 32), s1)) ∧
    (32 ≤ s.buffer_.length →
      s.Send node byte = some (false, { s with
        errors_ := s.errors_.set node { (s.errors_.getD node default) with overrun := true } }) ∧
      (node < s.errors_.length →
        (s.errors_.set node { (s.errors_.getD node default) with overrun := true }).getD node
            default
          = { overrun := true, parity := (s.errors_.getD node default).parity,
              frame := (s.errors_.getD node default).frame } ∧
        ∀ q, q ≠ node →
          (s.errors_.set node { (s.errors_.getD node default) with overrun := true }).getD q
              default
            = s.errors_.getD q default)) ∧
    (s.buffer_ = [] →
      (∀ sends : List (Player × UBYTE), sends.length = 33 →
        ∃ s1, run s (sends.map (fun x => Op.Send x.1 x.2)) =
          some (List.replicate 32 (Ret.bool true) ++ [Ret.bool false], s1)) ∧
      (∀ ops rets s1, (∀ p, Op.Recv p ∉ ops) → run s ops = some (rets, s1) →
        ∀ i b, (sendResults ops rets)[i]? = some b → b = decide (i < 32))) := by
  refine ⟨?_, ?_, ?_⟩
  · by_cases hlen : s.buffer_.length < 32
    · exact ⟨_, by rw [Send_accept s node byte hc hlen, decide_eq_true hlen]⟩
    · exact ⟨_, by rw [Send_reject s node byte hc (by omega), decide_eq_false hlen]⟩
  · intro hlen
    refine ⟨Send_reject s node byte hc hlen, fun hn => ⟨?_, fun q hq => ?_⟩⟩
    · exact getD_set_self _ _ _ _ hn
    · exact getD_set_ne _ _ _ _ _ hq
  · intro hempty
    constructor
    · intro sends hlen
      obtain ⟨s1, h1⟩ := run_sends sends s hc
      refine ⟨s1, ?_⟩
      rw [h1, hlen, hempty]
      rfl
    · intro ops rets s1 hno hrun i b hi
      have := sendResults_without_recv ops hno s rets s1 hrun i b hi
      simpa [hempty] using this

/-- C5 at a concrete state: a two-player bus in Odd mode whose buffer holds 32
messages; the 33rd `Send` is rejected and sets the overrun flag of the sender. -/
theorem C5_Send_overrun_witness :
    ((twoPlayerBus (List.replicate 32 ⟨0, 65, true, 1⟩)).configured_ = true ∧
      32 ≤ (twoPlayerBus (List.replicate 32 ⟨0, 65, true, 1⟩)).buffer_.length) ∧
    (twoPlayerBus (List.replicate 32 ⟨0, 65, true, 1⟩)).Send 0 66 =
      some (false, { twoPlayerBus (List.replicate 32 ⟨0, 65, true, 1⟩) with
        errors_ := [{ overrun := true }, {}] }) :=
  ⟨⟨rfl, by decide⟩,
    ((C5_Send_overrun (twoPlayerBus (List.replicate 32 ⟨0, 65, true, 1⟩)) 0 66 rfl).2.1
      (by decide)).1⟩

/-- C6 (`IsRxReady`). On a configured bus `IsRxReady(node)` always returns; the
result is true exactly when some buffered message lacks the bit of `node`; the
buffer, the receipts, the configuration, the break flags and the interrupt
enables are untouched. When nothing is unread the bus is unchanged. When `m` is
the first unread message, the parity flag of `node` is set exactly if the
parity recorded in `m` differs from the even (even polarity) or odd (odd
polarity) parity of its payload under the current polarity, and that is the only
change: the overrun and frame flags of `node` and every flag of every other
player stay as they were. -/
theorem C6_IsRxReady (s : ComLynx) (node : Player) (hc : s.configured_ = true) :
    (∃ b s1, s.IsRxReady node = some (b, s1) ∧
      (b = true ↔ ∃ m ∈ s.buffer_, m.HasRead node = false) ∧
      s1.buffer_ = s.buffer_ ∧ s1.s_read_receipt_complete = s.s_read_receipt_complete ∧
      s1.n_players_ = s.n_players_ ∧ s1.configured_ = s.configured_ ∧
      s1.enable_parity_ = s.enable_parity_ ∧ s1.even_parity_ = s.even_parity_ ∧
      s1.breaks_ = s.breaks_ ∧ s1.rx_int_en_ = s.rx_int_en_ ∧ s1.tx_int_en_ = s.tx_int_en_) ∧
    ((∀ m ∈ s.buffer_, m.HasRead node = true) → s.IsRxReady node = some (false, s)) ∧
    (∀ pre m post, s.buffer_ = pre ++ m :: post → (∀ x ∈ pre, x.HasRead node = true) →
      m.HasRead node = false →
      s.IsRxReady node = some (true,
        if m.parity ≠
            (if s.even_parity_ then CalculateEvenParity m.data else CalculateOddParity m.data)
        then { s with
          errors_ := s.errors_.set node { (s.errors_.getD node default) with parity := true } }
        else s)) ∧
    (node < s.errors_.length →
      (s.errors_.set node { (s.errors_.getD node default) with parity := true }).getD node
          default
        = { overrun := (s.errors_.getD node default).overrun, parity := true,
            frame := (s.errors_.getD node default).frame } ∧
      ∀ q, q ≠ node →
        (s.errors_.set node { (s.errors_.getD node default) with parity := true }).getD q
            default
          = s.errors_.getD q default) := by
  have hall := IsRxReady_of_all_read s node hc
  have hsplit : ∀ pre m post, s.buffer_ = pre ++ m :: post →
      (∀ x ∈ pre, x.HasRead node = true) → m.HasRead node = false →
      s.IsRxReady node = some (true,
        if m.parity ≠
            (if s.even_parity_ then CalculateEvenParity m.data else CalculateOddParity m.data)
        then { s with
          errors_ := s.errors_.set node { (s.errors_.getD node default) with parity := true } }
        else s) := by
    intro pre m post hb hpre hm
    rw [IsRxReady_of_split s node pre m post hc hb hpre hm]
    simp only [CalculateParity, bne_iff_ne, ne_eq]
  refine ⟨?_, hall, hsplit, fun hn => ⟨getD_set_self _ _ _ _ hn, fun q hq => getD_set_ne _ _ _ _ _ hq⟩⟩
  by_cases hex : ∃ m ∈ s.buffer_, m.HasRead node = false
  · obtain ⟨pre, m, post, hb, hpre, hm⟩ := exists_unread_split node s.buffer_ hex
    have h1 := IsRxReady_of_split s node pre m post hc hb hpre hm
    have h2 := IsRxReady_buffer s node _ _ h1
    exact ⟨true, _, h1, by simp [hex], h2⟩
  · have hr : ∀ m ∈ s.buffer_, m.HasRead node = true := by
      intro m hm
      by_contra hne
      exact hex ⟨m, hm, by simpa using hne⟩
    refine ⟨false, s, hall hr, by simp [hex], ?_⟩
    simp

/-- C6 at a concrete state: on a two-player bus in Odd mode holding `65` from
player 0 with a wrong recorded parity, `IsRxReady(1)` returns true and sets the
parity flag of player 1 only. -/
theorem C6_IsRxReady_witness :
    (twoPlayerBus [⟨0, 65, false, 1⟩]).configured_ = true ∧
    (twoPlayerBus [⟨0, 65, false, 1⟩]).IsRxReady 1 =
      some (true, { twoPlayerBus [⟨0, 65, false, 1⟩] with
        errors_ := [{}, { parity := true }] }) :=
  ⟨rfl, (C6_IsRxReady (twoPlayerBus [⟨0, 65, false, 1⟩]) 1 rfl).2.2.1
    [] ⟨0, 65, false, 1⟩ [] rfl (fun _ h => absurd h (List.not_mem_nil _)) rfl⟩

/-- C8 (`Recv` with nothing pending). On a configured bus `Recv(node)` aborts if
and only if every buffered message has the bit of `node` set, which is exactly
when `IsRxReady(node)` returns false. A message that `node` sent itself counts
as read by it, so a non-empty buffer of own or already read messages aborts
too. -/
theorem C8_Recv_aborts_iff_nothing_unread (s : ComLynx) (node : Player)
    (hc : s.configured_ = true) :
    (s.Recv node = none ↔ ∀ m ∈ s.buffer_, m.HasRead node = true) ∧
    (s.Recv node = none ↔ ∃ s1, s.IsRxReady node = some (false, s1)) ∧
    (node < 32 → ∀ data parity, (ByteMessage.new node data parity).HasRead node = true) := by
  refine ⟨Recv_eq_none_iff s node hc, ?_, ?_⟩
  · rw [Recv_eq_none_iff s node hc]
    constructor
    · intro h
      exact ⟨s, IsRxReady_of_all_read s node hc h⟩
    · rintro ⟨s1, h1⟩
      exact IsRxReady_false_all_read s node s1 h1
  · intro hn data parity
    rw [ByteMessage.HasRead_new node data parity hn]
    exact decide_eq_true rfl

/-- C8 at a concrete state: a two-player bus whose only message was sent by
player 0; `Recv(0)` aborts. -/
theorem C8_Recv_aborts_iff_nothing_unread_witness :
    (twoPlayerBus [⟨0, 65, true, 1⟩]).configured_ = true ∧
    (twoPlayerBus [⟨0, 65, true, 1⟩]).Recv 0 = none :=
  ⟨rfl, (C8_Recv_aborts_iff_nothing_unread (twoPlayerBus [⟨0, 65, true, 1⟩]) 0 rfl).1.mpr
    (by decide)⟩

/-- C9, evaluated on the code. On a bus that was constructed and never
configured, `IsIRQ` returns false and leaves the bus as it is, for every node
count and player, while each of the fifteen other operations aborts. -/
theorem C9_unconfigured_IsIRQ_returns_false (n : Nat) (player : Player) (value : Bool)
    (data : UBYTE) (reason : TxNotReadyReason) :
    (ComLynx.new n).IsIRQ player = some (false, ComLynx.new n) ∧
    (ComLynx.new n).EnableRxIRQ player value = none ∧
    (ComLynx.new n).EnableTxIRQ player value = none ∧
    (ComLynx.new n).Send player data = none ∧
    (ComLynx.new n).Recv player = none ∧
    (ComLynx.new n).SendBreak = none ∧
    (ComLynx.new n).IsRxReady player = none ∧
    (ComLynx.new n).IsTxReady player reason = none ∧
    (ComLynx.new n).IsTxEmpty player = none ∧
    (ComLynx.new n).IsRxBrk player = none ∧
    (ComLynx.new n).HasFrameError player = none ∧
    (ComLynx.new n).HasOverrunError player = none ∧
    (ComLynx.new n).HasParityError player = none ∧
    (ComLynx.new n).HasAnyError player = none ∧
    (ComLynx.new n).ResetErrors player = none ∧
    (ComLynx.new n).GetSERCTL player = none := by
  have hrx : (ComLynx.new n).rx_int_en_.getD player false = false := by
    simp [ComLynx.new, List.getD_eq_getElem?_getD, List.getElem?_replicate]
    split <;> rfl
  have htx : (ComLynx.new n).tx_int_en_.getD player false = false := by
    simp [ComLynx.new, List.getD_eq_getElem?_getD, List.getElem?_replicate]
    split <;> rfl
  refine ⟨?_, rfl, rfl, rfl, rfl, rfl, rfl, rfl, rfl, rfl, rfl, rfl, rfl, rfl, rfl, rfl⟩
  unfold ComLynx.IsIRQ
  simp only [hrx, htx, Bool.false_eq_true, if_false]

/-! ## The status byte -/

theorem peekNext_of_all_read (p : Player) (byte : UBYTE) (l : List ByteMessage)
    (h : ∀ m ∈ l, m.HasRead p = true) : ComLynx.peekNext p byte l = (false, byte) := by
  induction l with
  | nil => rfl
  | cons a l ih =>
    have ha : a.HasRead p = true := h a (List.mem_cons_self _ _)
    simp only [ComLynx.peekNext, ha, Bool.not_true, Bool.false_eq_true, if_false]
    exact ih (fun m hm => h m (List.mem_cons_of_mem _ hm))

theorem peekNext_of_split (p : Player) (byte : UBYTE) (pre : List ByteMessage) (m : ByteMessage)
    (post : List ByteMessage) (hpre : ∀ x ∈ pre, x.HasRead p = true)
    (hm : m.HasRead p = false) :
    ComLynx.peekNext p byte (pre ++ m :: post) = (true, m.data) := by
  induction pre with
  | nil => simp [ComLynx.peekNext, hm]
  | cons a pre ih =>
    have ha : a.HasRead p = true := hpre a (List.mem_cons_self _ _)
    simp only [List.cons_append, ComLynx.peekNext, ha, Bool.not_true, Bool.false_eq_true,
      if_false]
    exact ih (fun x hx => hpre x (List.mem_cons_of_mem _ hx))

theorem PackSERCTL_bits (tx_ready rx_ready tx_empty parity_err overrun_err frame_err rx_break
    parity_bit : Bool) :
    ComLynx.PackSERCTL tx_ready rx_ready tx_empty parity_err overrun_err frame_err rx_break
        parity_bit < 256 ∧
    (ComLynx.PackSERCTL tx_ready rx_ready tx_empty parity_err overrun_err frame_err rx_break
        parity_bit).testBit 7 = tx_ready ∧
    (ComLynx.PackSERCTL tx_ready rx_ready tx_empty parity_err overrun_err frame_err rx_break
        parity_bit).testBit 6 = rx_ready ∧
    (ComLynx.PackSERCTL tx_ready rx_ready tx_empty parity_err overrun_err frame_err rx_break
        parity_bit).testBit 5 = tx_empty ∧
    (ComLynx.PackSERCTL tx_ready rx_ready tx_empty parity_err overrun_err frame_err rx_break
        parity_bit).testBit 4 = parity_err ∧
    (ComLynx.PackSERCTL tx_ready rx_ready tx_empty parity_err overrun_err frame_err rx_break
        parity_bit).testBit 3 = overrun_err ∧
    (ComLynx.PackSERCTL tx_ready rx_ready tx_empty parity_err overrun_err frame_err rx_break
        parity_bit).testBit 2 = frame_err ∧
    (ComLynx.PackSERCTL tx_ready rx_ready tx_empty parity_err overrun_err frame_err rx_break
        parity_bit).testBit 1 = rx_break ∧
    (ComLynx.PackSERCTL tx_ready rx_ready tx_empty parity_err overrun_err frame_err rx_break
        parity_bit).testBit 0 = parity_bit := by
  cases tx_ready <;> cases rx_ready <;> cases tx_empty <;> cases parity_err <;>
    cases overrun_err <;> cases frame_err <;> cases rx_break <;> cases parity_bit <;> decide

theorem IsTxReady_eq (s : ComLynx) (p : Player) (reason : TxNotReadyReason)
    (hc : s.configured_ = true) :
    s.IsTxReady p reason = some (decide (s.buffer_.length < 32),
      if s.buffer_.length < 32 then reason else TxNotReadyReason.kOverrun) := by
  unfold ComLynx.IsTxReady
  simp only [hc, Bool.not_true, Bool.false_eq_true, if_false]
  by_cases hlen : s.buffer_.length < 32
  · simp only [hlen, decide_True, if_true]
    split_ifs
    · rfl
    · omega
    · rfl
  · simp only [hlen, decide_False, if_false]
    split_ifs
    · omega
    · rfl
    · omega

/-- Closed form of `GetSERCTL` in terms of the readiness poll it performs. -/
theorem GetSERCTL_eq (s : ComLynx) (p : Player) (rx : Bool) (s1 : ComLynx)
    (hc : s.configured_ = true) (hrx : s.IsRxReady p = some (rx, s1)) :
    s.GetSERCTL p = some (ComLynx.PackSERCTL (decide (s.buffer_.length < 32)) rx
      (s.buffer_.all (fun msg => msg.sender != p))
      (s1.errors_.getD p default).parity (s1.errors_.getD p default).overrun
      (s1.errors_.getD p default).frame (s.breaks_.getD p false)
      (s1.GetParityOfNextByte p), s1) := by
  have hb := IsRxReady_buffer s p rx s1 hrx
  have hc1 : s1.configured_ = true := by rw [hb.2.2.2.1, hc]
  unfold ComLynx.GetSERCTL
  simp only [hc, Bool.not_true, Bool.false_eq_true, if_false, IsTxReady_eq s p _ hc, hrx,
    ComLynx.IsTxEmpty, hc1, hb.1, hb.2.2.2.2.2.2.1]

theorem GetParityOfNextByte_of_all_read (s : ComLynx) (p : Player)
    (h : ∀ m ∈ s.buffer_, m.HasRead p = true) : s.GetParityOfNextByte p = false := by
  simp [ComLynx.GetParityOfNextByte, ComLynx.PeekNextByte, peekNext_of_all_read p 0 _ h]

theorem GetParityOfNextByte_of_split (s : ComLynx) (p : Player) (pre : List ByteMessage)
    (m : ByteMessage) (post : List ByteMessage) (hb : s.buffer_ = pre ++ m :: post)
    (hpre : ∀ x ∈ pre, x.HasRead p = true) (hm : m.HasRead p = false) :
    s.GetParityOfNextByte p = s.ParityFor m.data := by
  simp [ComLynx.GetParityOfNextByte, ComLynx.PeekNextByte, hb,
    peekNext_of_split p 0 pre m post hpre hm]

theorem IsRxReady_total (s : ComLynx) (node : Player) (hc : s.configured_ = true) :
    ∃ b s1, s.IsRxReady node = some (b, s1) ∧
      (b = true ↔ ∃ m ∈ s.buffer_, m.HasRead node = false) ∧
      s1.buffer_ = s.buffer_ ∧ s1.s_read_receipt_complete = s.s_read_receipt_complete ∧
      s1.n_players_ = s.n_players_ ∧ s1.configured_ = s.configured_ ∧
      s1.enable_parity_ = s.enable_parity_ ∧ s1.even_parity_ = s.even_parity_ ∧
      s1.breaks_ = s.breaks_ ∧ s1.rx_int_en_ = s.rx_int_en_ ∧ s1.tx_int_en_ = s.tx_int_en_ := by
  by_cases hex : ∃ m ∈ s.buffer_, m.HasRead node = false
  · obtain ⟨pre, m, post, hb, hpre, hm⟩ := exists_unread_split node s.buffer_ hex
    have h1 := IsRxReady_of_split s node pre m post hc hb hpre hm
    have h2 := IsRxReady_buffer s node _ _ h1
    exact ⟨true, _, h1, by simp [hex], h2⟩
  · have hr : ∀ m ∈ s.buffer_, m.HasRead node = true := by
      intro m hm
      by_contra hne
      exact hex ⟨m, hm, by simpa using hne⟩
    refine ⟨false, s, IsRxReady_of_all_read s node hc hr, by simp [hex], ?_⟩
    simp

/-- C10 (`GetSERCTL`). On a configured bus `GetSERCTL(node)` returns a byte and
the bus left by the readiness poll it performs. In that byte: bit 7 says the
buffer holds fewer than 32 messages; bit 6 that some message is unread by
`node`; bit 5 that no buffered message was sent by `node`; bits 4, 3 and 2 are
the parity, overrun and frame flags of `node` after the poll; bit 1 is the break
flag of `node`; bit 0 is 0 when nothing is unread and otherwise the parity bit,
under the current mode, of the payload of the first unread message. With two
players in Odd mode the byte is `0b10100000` on an idle bus and `0b11100001` for
player 1 once player 0 has sent `'A'`. -/
theorem C10_GetSERCTL_bits (s : ComLynx) (node : Player) (hc : s.configured_ = true) :
    (∃ rx s1 byte, s.IsRxReady node = some (rx, s1) ∧ s.GetSERCTL node = some (byte, s1) ∧
      byte < 256 ∧
      byte.testBit 7 = decide (s.buffer_.length < 32) ∧
      (byte.testBit 6 = true ↔ ∃ m ∈ s.buffer_, m.HasRead node = false) ∧
      (byte.testBit 5 = true ↔ ∀ m ∈ s.buffer_, m.sender ≠ node) ∧
      byte.testBit 4 = (s1.errors_.getD node default).parity ∧
      byte.testBit 3 = (s1.errors_.getD node default).overrun ∧
      byte.testBit 2 = (s1.errors_.getD node default).frame ∧
      byte.testBit 1 = s.breaks_.getD node false ∧
      ((∀ m ∈ s.buffer_, m.HasRead node = true) → byte.testBit 0 = false) ∧
      (∀ pre m post, s.buffer_ = pre ++ m :: post → (∀ x ∈ pre, x.HasRead node = true) →
        m.HasRead node = false →
        byte.testBit 0 =
          if s.enable_parity_ then
            (if s.even_parity_ then CalculateEvenParity m.data else CalculateOddParity m.data)
          else s.even_parity_)) ∧
    ((ComLynx.new 2).ConfigureParityConfig ParityConfig.kOdd).GetSERCTL 0 =
      some (0b10100000, (ComLynx.new 2).ConfigureParityConfig ParityConfig.kOdd) ∧
    (run ((ComLynx.new 2).ConfigureParityConfig ParityConfig.kOdd)
        [Op.Send 0 65, Op.GetSERCTL 1]).map (fun x => x.1) =
      some [Ret.bool true, Ret.byte 0b11100001] := by
  refine ⟨?_, rfl, rfl⟩
  obtain ⟨rx, s1, hrx, hiff, hbuf, _, _, _, hep, hev, _, _, _⟩ := (IsRxReady_total s node hc)
  have hget := GetSERCTL_eq s node rx s1 hc hrx
  have hbits := PackSERCTL_bits (decide (s.buffer_.length < 32)) rx
      (s.buffer_.all (fun msg => msg.sender != node))
      (s1.errors_.getD node default).parity (s1.errors_.getD node default).overrun
      (s1.errors_.getD node default).frame (s.breaks_.getD node false)
      (s1.GetParityOfNextByte node)
  refine ⟨rx, s1, _, hrx, hget, hbits.1, hbits.2.1, ?_, ?_, hbits.2.2.2.2.1,
    hbits.2.2.2.2.2.1, hbits.2.2.2.2.2.2.1, hbits.2.2.2.2.2.2.2.1, ?_, ?_⟩
  · rw [hbits.2.2.1]
    exact hiff
  · rw [hbits.2.2.2.1]
    simp
  · intro hall
    rw [hbits.2.2.2.2.2.2.2.2]
    exact GetParityOfNextByte_of_all_read s1 node (by rw [hbuf]; exact hall)
  · intro pre m post hb hpre hm
    rw [hbits.2.2.2.2.2.2.2.2,
      GetParityOfNextByte_of_split s1 node pre m post (by rw [hbuf]; exact hb) hpre hm]
    simp only [ComLynx.ParityFor, CalculateParity, hep, hev]

/-- C10 at a concrete state: a two-player bus in Odd mode holding `'A'` from
player 0, polled by player 1. -/
theorem C10_GetSERCTL_bits_witness :
    (twoPlayerBus [⟨0, 65, true, 1⟩]).configured_ = true ∧
    ∃ rx s1 byte,
      (twoPlayerBus [⟨0, 65, true, 1⟩]).IsRxReady 1 = some (rx, s1) ∧
      (twoPlayerBus [⟨0, 65, true, 1⟩]).GetSERCTL 1 = some (byte, s1) ∧
      byte < 256 ∧
      byte.testBit 7 = decide ((twoPlayerBus [⟨0, 65, true, 1⟩]).buffer_.length < 32) ∧
      (byte.testBit 6 = true ↔
        ∃ m ∈ (twoPlayerBus [⟨0, 65, true, 1⟩]).buffer_, m.HasRead 1 = false) ∧
      (byte.testBit 5 = true ↔
        ∀ m ∈ (twoPlayerBus [⟨0, 65, true, 1⟩]).buffer_, m.sender ≠ 1) ∧
      byte.testBit 4 = (s1.errors_.getD 1 default).parity ∧
      byte.testBit 3 = (s1.errors_.getD 1 default).overrun ∧
      byte.testBit 2 = (s1.errors_.getD 1 default).frame ∧
      byte.testBit 1 = (twoPlayerBus [⟨0, 65, true, 1⟩]).breaks_.getD 1 false ∧
      ((∀ m ∈ (twoPlayerBus [⟨0, 65, true, 1⟩]).buffer_, m.HasRead 1 = true) →
        byte.testBit 0 = false) ∧
      (∀ pre m post, (twoPlayerBus [⟨0, 65, true, 1⟩]).buffer_ = pre ++ m :: post →
        (∀ x ∈ pre, x.HasRead 1 = true) → m.HasRead 1 = false →
        byte.testBit 0 =
          if (twoPlayerBus [⟨0, 65, true, 1⟩]).enable_parity_ then
            (if (twoPlayerBus [⟨0, 65, true, 1⟩]).even_parity_ then CalculateEvenParity m.data
              else CalculateOddParity m.data)
          else (twoPlayerBus [⟨0, 65, true, 1⟩]).even_parity_) :=
  ⟨rfl, (C10_GetSERCTL_bits (twoPlayerBus [⟨0, 65, true, 1⟩]) 1 rfl).1⟩

/-! ## Error flags across calls -/

theorem Recv_errors (s : ComLynx) (p : Player) (b : UBYTE) (s1 : ComLynx)
    (h : s.Recv p = some (b, s1)) : s1.errors_ = s.errors_ := by
  have hc : s.configured_ = true := by
    by_contra hc
    simp [ComLynx.Recv, hc] at h
  cases hf : ComLynx.firstUnread p s.buffer_ with
  | none =>
    rw [(Recv_eq_none_iff s p hc).mpr ((firstUnread_eq_none_iff p _).mp hf)] at h
    exact Option.noConfusion h
  | some i =>
    obtain ⟨pre, m, post, hb, _, hpre, hm⟩ := firstUnread_split p _ i hf
    rw [Recv_of_split s p pre m post hc hb hpre hm] at h
    simp only [Option.some.injEq, Prod.mk.injEq] at h
    rw [← h.2]

/-- What one call can do to the vector of error flags: nothing, set the overrun
flag of one player, set the parity flag of one player, or (`ResetErrors`) clear
the three flags of one player. -/
theorem step_errors (s : ComLynx) (op : Op) (r : Ret) (s1 : ComLynx)
    (h : step s op = some (r, s1)) :
    s1.errors_ = s.errors_ ∨
    (∃ p, s1.errors_ =
      s.errors_.set p { (s.errors_.getD p default) with overrun := true }) ∨
    (∃ p, s1.errors_ =
      s.errors_.set p { (s.errors_.getD p default) with parity := true }) ∨
    (∃ p, op = Op.ResetErrors p ∧
      s1.errors_ = s.errors_.set p (s.errors_.getD p default).Reset) := by
  have hrx : ∀ p b s2, s.IsRxReady p = some (b, s2) →
      s2.errors_ = s.errors_ ∨
      (∃ p, s2.errors_ =
        s.errors_.set p { (s.errors_.getD p default) with overrun := true }) ∨
      (∃ p, s2.errors_ =
        s.errors_.set p { (s.errors_.getD p default) with parity := true }) ∨
      (∃ p, op = Op.ResetErrors p ∧
        s2.errors_ = s.errors_.set p (s.errors_.getD p default).Reset) := by
    intro p b s2 h2
    rcases (IsRxReady_cases s p b s2 h2).2 with h3 | h3
    · exact Or.inl (by rw [h3])
    · exact Or.inr (Or.inr (Or.inl ⟨p, by rw [h3]⟩))
  cases op with
  | Configure ep ev =>
    simp only [step, Option.some.injEq, Prod.mk.injEq] at h
    exact Or.inl (by rw [← h.2]; rfl)
  | ConfigureParityConfig c =>
    simp only [step, Option.some.injEq, Prod.mk.injEq] at h
    exact Or.inl (by rw [← h.2]; cases c <;> rfl)
  | EnableRxIRQ p v =>
    simp only [step, ComLynx.EnableRxIRQ, Option.map_eq_some'] at h
    obtain ⟨s2, h2, h3⟩ := h
    split at h2
    · exact Option.noConfusion h2
    · simp only [Option.some.injEq, Prod.mk.injEq] at h2 h3
      exact Or.inl (by rw [← h3.2, ← h2])
  | EnableTxIRQ p v =>
    simp only [step, ComLynx.EnableTxIRQ, Option.map_eq_some'] at h
    obtain ⟨s2, h2, h3⟩ := h
    split at h2
    · exact Option.noConfusion h2
    · simp only [Option.some.injEq, Prod.mk.injEq] at h2 h3
      exact Or.inl (by rw [← h3.2, ← h2])
  | Send p d =>
    simp only [step, Option.map_eq_some'] at h
    obtain ⟨r2, h2, h3⟩ := h
    simp only [Prod.mk.injEq] at h3
    rw [← h3.2]
    have hc := Send_configured s p d r2.1 r2.2 h2
    by_cases hlen : s.buffer_.length < 32
    · rw [Send_accept s p d hc hlen] at h2
      simp only [Option.some.injEq] at h2
      exact Or.inl (by rw [← h2])
    · rw [Send_reject s p d hc (by omega)] at h2
      simp only [Option.some.injEq] at h2
      exact Or.inr (Or.inl ⟨p, by rw [← h2]⟩)
  | Recv p =>
    simp only [step, Option.map_eq_some'] at h
    obtain ⟨r2, h2, h3⟩ := h
    simp only [Prod.mk.injEq] at h3
    rw [← h3.2]
    exact Or.inl (Recv_errors s p r2.1 r2.2 h2)
  | SendBreak =>
    simp only [step, ComLynx.SendBreak, Option.map_eq_some'] at h
    obtain ⟨s2, h2, h3⟩ := h
    split at h2
    · exact Option.noConfusion h2
    · simp only [Option.some.injEq, Prod.mk.injEq] at h2 h3
      exact Or.inl (by rw [← h3.2, ← h2])
  | IsRxReady p =>
    simp only [step, Option.map_eq_some'] at h
    obtain ⟨r2, h2, h3⟩ := h
    simp only [Prod.mk.injEq] at h3
    rw [← h3.2]
    exact hrx p r2.1 r2.2 h2
  | IsTxReady p reason =>
    simp only [step, Option.map_eq_some'] at h
    obtain ⟨r2, _, h3⟩ := h
    simp only [Prod.mk.injEq] at h3
    exact Or.inl (by rw [← h3.2])
  | IsTxEmpty p =>
    simp only [step, Option.map_eq_some'] at h
    obtain ⟨r2, _, h3⟩ := h
    simp only [Prod.mk.injEq] at h3
    exact Or.inl (by rw [← h3.2])
  | IsRxBrk p =>
    simp only [step, ComLynx.IsRxBrk, Option.map_eq_some'] at h
    obtain ⟨r2, h2, h3⟩ := h
    simp only [Prod.mk.injEq] at h3
    rw [← h3.2]
    split_ifs at h2 <;> simp only [Option.some.injEq] at h2 <;> rw [← h2] <;> exact Or.inl rfl
  | IsIRQ p =>
    simp only [step, Option.map_eq_some'] at h
    obtain ⟨r2, h2, h3⟩ := h
    simp only [Prod.mk.injEq] at h3
    rw [← h3.2]
    rcases IsIRQ_cases s p r2.1 r2.2 h2 with h4 | ⟨b1, h4⟩
    · exact Or.inl (by rw [h4])
    · exact hrx p b1 r2.2 h4
  | HasFrameError p =>
    simp only [step, Option.map_eq_some'] at h
    obtain ⟨r2, _, h3⟩ := h
    simp only [Prod.mk.injEq] at h3
    exact Or.inl (by rw [← h3.2])
  | HasOverrunError p =>
    simp only [step, Option.map_eq_some'] at h
    obtain ⟨r2, _, h3⟩ := h
    simp only [Prod.mk.injEq] at h3
    exact Or.inl (by rw [← h3.2])
  | HasParityError p =>
    simp only [step, Option.map_eq_some'] at h
    obtain ⟨r2, _, h3⟩ := h
    simp only [Prod.mk.injEq] at h3
    exact Or.inl (by rw [← h3.2])
  | HasAnyError p =>
    simp only [step, Option.map_eq_some'] at h
    obtain ⟨r2, _, h3⟩ := h
    simp only [Prod.mk.injEq] at h3
    exact Or.inl (by rw [← h3.2])
  | ResetErrors p =>
    simp only [step, ComLynx.ResetErrors, Option.map_eq_some'] at h
    obtain ⟨s2, h2, h3⟩ := h
    split at h2
    · exact Option.noConfusion h2
    · simp only [Option.some.injEq, Prod.mk.injEq] at h2 h3
      exact Or.inr (Or.inr (Or.inr ⟨p, rfl, by rw [← h3.2, ← h2]⟩))
  | GetSERCTL p =>
    simp only [step, Option.map_eq_some'] at h
    obtain ⟨r2, h2, h3⟩ := h
    simp only [Prod.mk.injEq] at h3
    rw [← h3.2]
    obtain ⟨b1, h4⟩ := GetSERCTL_cases s p r2.1 r2.2 h2
    exact hrx p b1 r2.2 h4

theorem getD_set_parity (l : List Error) (p B : Nat) (e : Error)
    (he : p = B → e.parity = true) (h : (l.getD B default).parity = true) :
    ((l.set p e).getD B default).parity = true := by
  by_cases hp : p = B
  · subst hp
    by_cases hr : p < l.length
    · rw [getD_set_self l p e default hr]
      exact he rfl
    · rw [List.set_eq_of_length_le (by omega)]
      exact h
  · rw [getD_set_ne l p B e default (Ne.symm hp)]
    exact h

/-- The parity flag of player `B`, once set, survives every call except
`ResetErrors(B)`. -/
theorem step_parity_sticky (s : ComLynx) (op : Op) (r : Ret) (s1 : ComLynx) (B : Player)
    (h : step s op = some (r, s1)) (hne : op ≠ Op.ResetErrors B)
    (hflag : (s.errors_.getD B default).parity = true) :
    (s1.errors_.getD B default).parity = true := by
  rcases step_errors s op r s1 h with h1 | ⟨p, h1⟩ | ⟨p, h1⟩ | ⟨p, hop, h1⟩
  · rw [h1]
    exact hflag
  · rw [h1]
    exact getD_set_parity _ p B _ (fun hp => by subst hp; exact hflag) hflag
  · rw [h1]
    exact getD_set_parity _ p B _ (fun _ => rfl) hflag
  · rw [h1]
    have hp : p ≠ B := fun hp => hne (by rw [hop, hp])
    exact getD_set_parity _ p B _ (fun e => absurd e hp) hflag

theorem CalculateParity_not (e : Bool) (byte : UBYTE) :
    CalculateParity (!e) byte = !CalculateParity e byte := by
  cases e <;> simp [CalculateParity, CalculateOddParity]

/-- C7, counterexample. Two players, `A = 0`, `B = 1`: in Even mode player 0
sends `65`; the bus is set to Odd mode and player 0 sends `66`; the bus is set
back to Even mode before player 1 has read anything. The next `IsRxReady(1)`
returns true, yet it examines the older message `65`, whose recorded parity
agrees with Even mode, and the parity flag of player 1 stays clear. -/
theorem C7_older_message_hides_mismatch :
    (run (ComLynx.new 2)
      [Op.ConfigureParityConfig ParityConfig.kEven, Op.Send 0 65,
       Op.ConfigureParityConfig ParityConfig.kOdd, Op.Send 0 66,
       Op.ConfigureParityConfig ParityConfig.kEven, Op.IsRxReady 1,
       Op.HasParityError 1]).map (fun x => x.1) =
      some [Ret.void, Ret.bool true, Ret.void, Ret.bool true, Ret.void, Ret.bool true,
        Ret.bool false] :=
  rfl

theorem IsRxReady_mismatch (t : ComLynx) (B : Player) (pre : List ByteMessage)
    (m : ByteMessage) (post : List ByteMessage) (hc : t.configured_ = true)
    (hb : t.buffer_ = pre ++ m :: post) (hpre : ∀ x ∈ pre, x.HasRead B = true)
    (hm : m.HasRead B = false)
    (hmis : (m.parity != CalculateParity t.even_parity_ m.data) = true)
    (hBn : B < t.errors_.length) :
    ∃ t1, t.IsRxReady B = some (true, t1) ∧ (t1.errors_.getD B default).parity = true ∧
      t1.configured_ = true ∧ B < t1.errors_.length := by
  have hrx := IsRxReady_of_split t B pre m post hc hb hpre hm
  rw [if_pos hmis] at hrx
  refine ⟨_, hrx, ?_, hc, ?_⟩
  · show ((t.errors_.set B _).getD B default).parity = true
    rw [getD_set_self t.errors_ B _ default hBn]
  · show B < (t.errors_.set B _).length
    rw [List.length_set]
    exact hBn

theorem ResetErrors_clears (t : ComLynx) (B : Player) (hc : t.configured_ = true)
    (hBn : B < t.errors_.length) :
    ∃ t1, t.ResetErrors B = some t1 ∧ (t1.errors_.getD B default).parity = false := by
  have h : t.ResetErrors B = some { t with
      errors_ := t.errors_.set B (t.errors_.getD B default).Reset } := by
    unfold ComLynx.ResetErrors
    simp only [hc, Bool.not_true, Bool.false_eq_true, if_false]
  refine ⟨_, h, ?_⟩
  show ((t.errors_.set B _).getD B default).parity = false
  rw [getD_set_self t.errors_ B _ default hBn]
  rfl

/-- C7, amended. On a configured bus with parity enabled, fewer than 32 buffered
messages and nothing unread by `B`: `A ≠ B` sends a byte, which is accepted;
the bus is reconfigured with parity enabled and the opposite polarity; then
`IsRxReady(B)` returns true and the parity flag of `B` is set, and `GetSERCTL(B)`
returns a byte with bits 6 and 4 set and the flag set likewise. The flag, once
set, survives every call other than `ResetErrors(B)`, which clears it. -/
theorem C7_polarity_flip_sets_parity_error (s : ComLynx) (A B : Player) (byte : UBYTE)
    (hc : s.configured_ = true) (hep : s.enable_parity_ = true) (hAB : A ≠ B)
    (hB : B < 32) (hBn : B < s.errors_.length) (hlen : s.buffer_.length < 32)
    (hnone : ∀ m ∈ s.buffer_, m.HasRead B = true) :
    ∃ s1, s.Send A byte = some (true, s1) ∧
      (∃ s2, (s1.Configure true (!s.even_parity_)).IsRxReady B = some (true, s2) ∧
        (s2.errors_.getD B default).parity = true ∧
        ∃ s3, s2.ResetErrors B = some s3 ∧ (s3.errors_.getD B default).parity = false) ∧
      (∃ status s2, (s1.Configure true (!s.even_parity_)).GetSERCTL B = some (status, s2) ∧
        status.testBit 6 = true ∧ status.testBit 4 = true ∧
        (s2.errors_.getD B default).parity = true) ∧
      (∀ t op r t1, (t.errors_.getD B default).parity = true → op ≠ Op.ResetErrors B →
        step t op = some (r, t1) → (t1.errors_.getD B default).parity = true) := by
  refine ⟨_, Send_accept s A byte hc hlen, ?_⟩
  have hm : (ByteMessage.new A byte (s.ParityFor byte)).HasRead B = false := by
    rw [ByteMessage.HasRead_new A byte _ hB]
    exact decide_eq_false hAB
  have hmis : ((ByteMessage.new A byte (s.ParityFor byte)).parity
      != CalculateParity (!s.even_parity_) (ByteMessage.new A byte (s.ParityFor byte)).data)
      = true := by
    have h1 : (ByteMessage.new A byte (s.ParityFor byte)).parity
        = CalculateParity s.even_parity_ byte := by
      simp [ByteMessage.new, ByteMessage.MarkRead, ComLynx.ParityFor, hep]
    have h2 : (ByteMessage.new A byte (s.ParityFor byte)).data = byte := rfl
    rw [h1, h2, CalculateParity_not]
    cases CalculateParity s.even_parity_ byte <;> rfl
  obtain ⟨t1, hrx, hflag, hc1, hBn1⟩ := IsRxReady_mismatch
    (ComLynx.Configure { s with
      buffer_ := s.buffer_ ++ [ByteMessage.new A byte (s.ParityFor byte)] } true
      (!s.even_parity_))
    B s.buffer_ (ByteMessage.new A byte (s.ParityFor byte)) [] rfl rfl hnone hm hmis hBn
  refine ⟨⟨t1, hrx, hflag, ResetErrors_clears t1 B hc1 hBn1⟩, ?_, ?_⟩
  · have hget := GetSERCTL_eq _ B true t1 rfl hrx
    refine ⟨_, t1, hget, ?_, ?_, hflag⟩
    · rw [(PackSERCTL_bits _ _ _ _ _ _ _ _).2.2.1]
    · rw [(PackSERCTL_bits _ _ _ _ _ _ _ _).2.2.2.2.1]
      exact hflag
  · intro t op r t2 hf hop hstep
    exact step_parity_sticky t op r t2 B hstep hop hf

/-- C7 amended, at a concrete state: an idle two-player bus in Odd mode, player 0
sends `65`, the bus is switched to Even mode, player 1 polls. -/
theorem C7_polarity_flip_sets_parity_error_witness :
    ((twoPlayerBus []).configured_ = true ∧ (twoPlayerBus []).enable_parity_ = true ∧
      (0 : Player) ≠ 1 ∧ 1 < 32 ∧ 1 < (twoPlayerBus []).errors_.length ∧
      (twoPlayerBus []).buffer_.length < 32 ∧
      ∀ m ∈ (twoPlayerBus []).buffer_, m.HasRead 1 = true) ∧
    ∃ s1, (twoPlayerBus []).Send 0 65 = some (true, s1) ∧
      (∃ s2, (s1.Configure true (!(twoPlayerBus []).even_parity_)).IsRxReady 1
          = some (true, s2) ∧
        (s2.errors_.getD 1 default).parity = true ∧
        ∃ s3, s2.ResetErrors 1 = some s3 ∧ (s3.errors_.getD 1 default).parity = false) ∧
      (∃ status s2, (s1.Configure true (!(twoPlayerBus []).even_parity_)).GetSERCTL 1
          = some (status, s2) ∧
        status.testBit 6 = true ∧ status.testBit 4 = true ∧
        (s2.errors_.getD 1 default).parity = true) ∧
      (∀ t op r t1, (t.errors_.getD 1 default).parity = true → op ≠ Op.ResetErrors 1 →
        step t op = some (r, t1) → (t1.errors_.getD 1 default).parity = true) :=
  ⟨⟨rfl, rfl, by decide, by decide, by decide, by decide,
      fun _ h => absurd h (List.not_mem_nil _)⟩,
    C7_polarity_flip_sets_parity_error (twoPlayerBus []) 0 1 65 rfl rfl (by decide)
      (by decide) (by decide) (by decide) (fun _ h => absurd h (List.not_mem_nil _))⟩

/-! ## Interrupt request, transmit readiness and transmit-empty -/

/-- Closed form of `IsIRQ` in terms of the readiness poll it may perform. -/
theorem IsIRQ_eq (s : ComLynx) (node : Player) (rx : Bool) (s1 : ComLynx)
    (hc : s.configured_ = true) (hrx : s.IsRxReady node = some (rx, s1)) :
    s.IsIRQ node = some (
      (s.rx_int_en_.getD node false && rx) ||
        (s.tx_int_en_.getD node false && decide (s.buffer_.length < 32)),
      if s.rx_int_en_.getD node false = true then s1 else s) := by
  have hb := IsRxReady_buffer s node rx s1 hrx
  have hc1 : s1.configured_ = true := by rw [hb.2.2.2.1, hc]
  have htr := IsTxReady_eq s node TxNotReadyReason.kNone hc
  have htr1 := IsTxReady_eq s1 node TxNotReadyReason.kNone hc1
  rw [hb.1] at htr1
  unfold ComLynx.IsIRQ
  generalize hd : decide (s.buffer_.length < 32) = d at htr htr1 ⊢
  generalize ha : s.rx_int_en_.getD node false = a
  cases a with
  | false =>
    simp only [Bool.false_eq_true, if_false, htr, Option.map_some']
    generalize s.tx_int_en_.getD node false = t
    cases t <;> cases d <;> rfl
  | true =>
    simp only [if_true, hrx]
    cases rx with
    | true => simp
    | false =>
      simp only [hb.2.2.2.2.2.2.2.2, htr1, Option.map_some']
      generalize s.tx_int_en_.getD node false = t
      cases t <;> cases d <;> rfl

/-- C11 (`IsIRQ`). On a configured bus `IsIRQ(node)` always returns, and returns
true exactly when the rx interrupt of `node` is enabled and some buffered
message is unread by `node`, or its tx interrupt is enabled and the buffer holds
fewer than 32 messages. So it is false with both interrupts disabled, and true
with the tx interrupt enabled whenever the buffer is not saturated. -/
theorem C11_IsIRQ_iff (s : ComLynx) (node : Player) (hc : s.configured_ = true) :
    ∃ b s1, s.IsIRQ node = some (b, s1) ∧
      (b = true ↔
        (s.rx_int_en_.getD node false = true ∧ ∃ m ∈ s.buffer_, m.HasRead node = false) ∨
        (s.tx_int_en_.getD node false = true ∧ s.buffer_.length < 32)) ∧
      (s.rx_int_en_.getD node false = false → s.tx_int_en_.getD node false = false →
        b = false) ∧
      (s.tx_int_en_.getD node false = true → s.buffer_.length < 32 → b = true) := by
  obtain ⟨rx, s1, hrx, hiff, _⟩ := IsRxReady_total s node hc
  refine ⟨_, _, IsIRQ_eq s node rx s1 hc hrx, ?_, ?_, ?_⟩
  · rw [Bool.or_eq_true, Bool.and_eq_true, Bool.and_eq_true, decide_eq_true_iff, hiff]
  · intro hr ht
    rw [hr, ht]
    rfl
  · intro ht hlen
    rw [ht, decide_eq_true hlen]
    cases (s.rx_int_en_.getD node false && rx) <;> rfl

/-- C11 at a concrete state: an idle two-player bus whose player 0 has the tx
interrupt enabled, polled by player 0. -/
theorem C11_IsIRQ_iff_witness :
    ({ twoPlayerBus [] with tx_int_en_ := [true, false] } : ComLynx).configured_ = true ∧
    ∃ b s1, ({ twoPlayerBus [] with tx_int_en_ := [true, false] } : ComLynx).IsIRQ 0
        = some (b, s1) ∧
      (b = true ↔
        (({ twoPlayerBus [] with tx_int_en_ := [true, false] } : ComLynx).rx_int_en_.getD 0
            false = true ∧
          ∃ m ∈ ({ twoPlayerBus [] with tx_int_en_ := [true, false] } : ComLynx).buffer_,
            m.HasRead 0 = false) ∨
        (({ twoPlayerBus [] with tx_int_en_ := [true, false] } : ComLynx).tx_int_en_.getD 0
            false = true ∧
          ({ twoPlayerBus [] with tx_int_en_ := [true, false] } : ComLynx).buffer_.length
            < 32)) ∧
      (({ twoPlayerBus [] with tx_int_en_ := [true, false] } : ComLynx).rx_int_en_.getD 0
          false = false →
        ({ twoPlayerBus [] with tx_int_en_ := [true, false] } : ComLynx).tx_int_en_.getD 0
          false = false → b = false) ∧
      (({ twoPlayerBus [] with tx_int_en_ := [true, false] } : ComLynx).tx_int_en_.getD 0
          false = true →
        ({ twoPlayerBus [] with tx_int_en_ := [true, false] } : ComLynx).buffer_.length < 32 →
        b = true) :=
  ⟨rfl, C11_IsIRQ_iff { twoPlayerBus [] with tx_int_en_ := [true, false] } 0 rfl⟩

/-- C15 (`IsTxReady`). On a configured bus `IsTxReady(node)` always returns, and
returns true exactly when the buffer holds fewer than 32 messages. When it
returns false the reason is `kOverrun`; when it returns true the reason is the
value the caller passed in. The answer is the same for every node, and the call
performed as an operation leaves the bus as it is. -/
theorem C15_IsTxReady (s : ComLynx) (node : Player) (reason : TxNotReadyReason)
    (hc : s.configured_ = true) :
    s.IsTxReady node reason = some (decide (s.buffer_.length < 32),
      if s.buffer_.length < 32 then reason else TxNotReadyReason.kOverrun) ∧
    (∀ other, s.IsTxReady other reason = s.IsTxReady node reason) ∧
    (∃ r, step s (Op.IsTxReady node reason) = some (r, s)) :=
  ⟨IsTxReady_eq s node reason hc,
    fun other => by rw [IsTxReady_eq s other reason hc, IsTxReady_eq s node reason hc],
    ⟨Ret.ready (decide (s.buffer_.length < 32))
        (if s.buffer_.length < 32 then reason else TxNotReadyReason.kOverrun),
      by simp only [step, IsTxReady_eq s node reason hc, Option.map_some']⟩⟩

/-- C15 at a concrete state: a two-player bus holding 32 messages; `IsTxReady`
returns false and replaces the reason `kNone` by `kOverrun`. -/
theorem C15_IsTxReady_witness :
    (twoPlayerBus (List.replicate 32 ⟨0, 65, true, 1⟩)).configured_ = true ∧
    (twoPlayerBus (List.replicate 32 ⟨0, 65, true, 1⟩)).IsTxReady 1 TxNotReadyReason.kNone =
      some (false, TxNotReadyReason.kOverrun) :=
  ⟨rfl, (C15_IsTxReady (twoPlayerBus (List.replicate 32 ⟨0, 65, true, 1⟩)) 1
    TxNotReadyReason.kNone rfl).1⟩

/-- C17 (`IsTxEmpty`). On a configured bus `IsTxEmpty(node)` always returns, and
returns true exactly when no buffered message has `node` as its sender; the call
performed as an operation leaves the bus as it is. -/
theorem C17_IsTxEmpty (s : ComLynx) (node : Player) (hc : s.configured_ = true) :
    ∃ b, s.IsTxEmpty node = some b ∧
      (b = true ↔ ∀ m ∈ s.buffer_, m.sender ≠ node) ∧
      step s (Op.IsTxEmpty node) = some (Ret.bool b, s) := by
  have h : s.IsTxEmpty node = some (s.buffer_.all (fun msg => msg.sender != node)) := by
    unfold ComLynx.IsTxEmpty
    simp only [hc, Bool.not_true, Bool.false_eq_true, if_false]
  refine ⟨_, h, ?_, by simp only [step, h, Option.map_some']⟩
  simp only [List.all_eq_true, bne_iff_ne, ne_eq]

/-- C17 at a concrete state: a two-player bus holding one message of player 0;
`IsTxEmpty(0)` is false. -/
theorem C17_IsTxEmpty_witness :
    (twoPlayerBus [⟨0, 65, true, 1⟩]).configured_ = true ∧
    ∃ b, (twoPlayerBus [⟨0, 65, true, 1⟩]).IsTxEmpty 0 = some b ∧
      (b = true ↔ ∀ m ∈ (twoPlayerBus [⟨0, 65, true, 1⟩]).buffer_, m.sender ≠ 0) ∧
      step (twoPlayerBus [⟨0, 65, true, 1⟩]) (Op.IsTxEmpty 0) =
        some (Ret.bool b, twoPlayerBus [⟨0, 65, true, 1⟩]) :=
  ⟨rfl, C17_IsTxEmpty (twoPlayerBus [⟨0, 65, true, 1⟩]) 0 rfl⟩

/-- C20 (`Configure` by named mode). For each of the four modes the named form
yields the same bus as the two-boolean form with Odd to (true, false), Even to
(true, true), Space to (false, false), Mark to (false, true); and the
two-boolean form sets the parity enable, the polarity and the configured mark
and changes nothing else. -/
theorem C20_Configure_named (s : ComLynx) (enable_parity even_parity : Bool) :
    s.ConfigureParityConfig ParityConfig.kOdd = s.Configure true false ∧
    s.ConfigureParityConfig ParityConfig.kEven = s.Configure true true ∧
    s.ConfigureParityConfig ParityConfig.kSpace = s.Configure false false ∧
    s.ConfigureParityConfig ParityConfig.kMark = s.Configure false true ∧
    s.Configure enable_parity even_parity =
      { n_players_ := s.n_players_
        s_read_receipt_complete := s.s_read_receipt_complete
        configured_ := true
        enable_parity_ := enable_parity
        even_parity_ := even_parity
        buffer_ := s.buffer_
        errors_ := s.errors_
        breaks_ := s.breaks_
        rx_int_en_ := s.rx_int_en_
        tx_int_en_ := s.tx_int_en_ } :=
  ⟨rfl, rfl, rfl, rfl, rfl⟩

/-! ## Checksum and parity -/

theorem checksum_foldl (bytes : List Nat) (acc : Nat) :
    bytes.foldl (fun sum byte => (sum + byte) % 256) acc
      = if bytes = [] then acc else (acc + bytes.sum) % 256 := by
  induction bytes generalizing acc with
  | nil => rfl
  | cons b bytes ih =>
    simp only [List.foldl_cons, ih, List.sum_cons, reduceCtorEq, if_false]
    split
    · rename_i h
      subst h
      simp
    · rw [Nat.mod_add_mod, Nat.add_assoc]

theorem checksum_eq (bytes : List Nat) :
    (ComLynxCommonChecksum bytes : Nat) = 255 - bytes.sum % 256 := by
  unfold ComLynxCommonChecksum
  simp only [checksum_foldl, Nat.zero_add]
  split
  · rename_i he
    subst he
    rfl
  · exact Nat.mod_eq_of_lt (Nat.lt_of_le_of_lt (Nat.sub_le _ _) (by decide))

theorem checksum_add_sum (bytes : List Nat) :
    (bytes.sum + ComLynxCommonChecksum bytes : Nat) % 256 = 255 := by
  rw [checksum_eq]
  generalize bytes.sum = x
  omega

/-- C19 (checksum). For every list of bytes, empty or not and whatever its sum,
`ComLynxCommonChecksum` is 255 minus the sum of the bytes modulo 256, so the sum
plus the checksum is 255 modulo 256; the four reference vectors evaluate to
`0xF4`, `0xF1`, `0xF8` and `0xF5`. -/
theorem C19_checksum (bytes : List UBYTE) :
    (ComLynxCommonChecksum bytes : Nat) = 255 - bytes.sum % 256 ∧
    (bytes.sum + ComLynxCommonChecksum bytes : Nat) % 256 = 255 ∧
    ComLynxCommonChecksum [] = 255 ∧
    ComLynxCommonChecksum [0x05, 0x00, 0x00, 0x01, 0x05, 0x00] = 0xF4 ∧
    ComLynxCommonChecksum [0x05, 0x00, 0x01, 0x03, 0x05, 0x00] = 0xF1 ∧
    ComLynxCommonChecksum [5, 0, 0, 1, 1, 0] = 0xF8 ∧
    ComLynxCommonChecksum [5, 0, 1, 3, 1, 0] = 0xF5 := by
  exact ⟨checksum_eq bytes, checksum_add_sum bytes, rfl, rfl, rfl, rfl, rfl⟩

set_option maxRecDepth 100000 in
theorem CalculateEvenParity_eq_odd_ones :
    ∀ b, b < 256 → CalculateEvenParity b = decide (onesCount b % 2 = 1) := by
  decide

/-- C18 (parity functions). For every byte `b`: `CalculateEvenParity(b)` is true
exactly when `b` has an odd number of 1 bits, so that the ones of `b` together
with the parity bit are even in number; `CalculateOddParity(b)` is its
negation; `CalculateParity(even, b)` is the even parity when `even` is true and
the odd parity otherwise. `0b10101011` has even parity 1 and odd parity 0, and
`0` has even parity 0 and odd parity 1. -/
theorem C18_parity (b : UBYTE) (hb : b < 256) (even : Bool) :
    (CalculateEvenParity b = true ↔ onesCount b % 2 = 1) ∧
    (onesCount b + (if CalculateEvenParity b = true then 1 else 0)) % 2 = 0 ∧
    CalculateOddParity b = (!CalculateEvenParity b) ∧
    CalculateParity even b =
      (if even = true then CalculateEvenParity b else CalculateOddParity b) ∧
    CalculateEvenParity 0b10101011 = true ∧ CalculateOddParity 0b10101011 = false ∧
    CalculateEvenParity 0 = false ∧ CalculateOddParity 0 = true := by
  have h := CalculateEvenParity_eq_odd_ones b hb
  refine ⟨?_, ?_, rfl, rfl, rfl, rfl, rfl, rfl⟩
  · rw [h, decide_eq_true_iff]
  · rw [h]
    by_cases hodd : onesCount b % 2 = 1
    · rw [decide_eq_true hodd, if_pos rfl]
      omega
    · rw [decide_eq_false hodd, if_neg (by decide)]
      omega

/-- C18 at the byte `0b10101011`, which has five 1 bits. -/
theorem C18_parity_witness :
    (0b10101011 : Nat) < 256 ∧
    (CalculateEvenParity 0b10101011 = true ↔ onesCount 0b10101011 % 2 = 1) :=
  ⟨by decide, (C18_parity 0b10101011 (by decide) true).1⟩

/-! ## Sticky error flags and the frame flag -/

theorem getD_set_flag (f : Error → Bool) (l : List Error) (p B : Nat) (e : Error)
    (he : p = B → f e = true) (h : f (l.getD B default) = true) :
    f ((l.set p e).getD B default) = true := by
  by_cases hp : p = B
  · subst hp
    by_cases hr : p < l.length
    · rw [getD_set_self l p e default hr]
      exact he rfl
    · rw [List.set_eq_of_length_le (by omega)]
      exact h
  · rw [getD_set_ne l p B e default (Ne.symm hp)]
    exact h

/-- A flag that every flag-setting update keeps, once set for player `B`,
survives every call except `ResetErrors(B)`. -/
theorem step_flag_sticky (f : Error → Bool)
    (hover : ∀ e : Error, f e = true → f { e with overrun := true } = true)
    (hpar : ∀ e : Error, f e = true → f { e with parity := true } = true)
    (s : ComLynx) (op : Op) (r : Ret) (s1 : ComLynx) (B : Player)
    (h : step s op = some (r, s1)) (hne : op ≠ Op.ResetErrors B)
    (hflag : f (s.errors_.getD B default) = true) :
    f (s1.errors_.getD B default) = true := by
  rcases step_errors s op r s1 h with h1 | ⟨p, h1⟩ | ⟨p, h1⟩ | ⟨p, hop, h1⟩
  · rw [h1]
    exact hflag
  · rw [h1]
    exact getD_set_flag f _ p B _ (fun hp => by subst hp; exact hover _ hflag) hflag
  · rw [h1]
    exact getD_set_flag f _ p B _ (fun hp => by subst hp; exact hpar _ hflag) hflag
  · rw [h1]
    have hp : p ≠ B := fun hp => hne (by rw [hop, hp])
    exact getD_set_flag f _ p B _ (fun e => absurd e hp) hflag

theorem ResetErrors_eq (s : ComLynx) (p : Player) (hc : s.configured_ = true) :
    s.ResetErrors p = some { s with
      errors_ := s.errors_.set p { overrun := false, parity := false, frame := false } } := by
  unfold ComLynx.ResetErrors
  simp only [hc, Bool.not_true, Bool.false_eq_true, if_false]
  rfl

/-- C13 (sticky error flags). For every call that returns and every player `p`:
unless the call is `ResetErrors(p)`, each of the overrun, parity and frame flags
of `p` that was set before is set afterwards. `ResetErrors(p)` returns on every
configured bus; it changes nothing but the vector of error flags, where the
three flags of `p` become false and the entry of every other player is kept. -/
theorem C13_error_flags_sticky (s : ComLynx) (op : Op) (r : Ret) (s1 : ComLynx) (p : Player)
    (h : step s op = some (r, s1)) :
    (op ≠ Op.ResetErrors p →
      ((s.errors_.getD p default).overrun = true →
        (s1.errors_.getD p default).overrun = true) ∧
      ((s.errors_.getD p default).parity = true →
        (s1.errors_.getD p default).parity = true) ∧
      ((s.errors_.getD p default).frame = true →
        (s1.errors_.getD p default).frame = true)) ∧
    (op = Op.ResetErrors p →
      s1 = { s with
        errors_ := s.errors_.set p { overrun := false, parity := false, frame := false } } ∧
      (p < s.errors_.length →
        s1.errors_.getD p default = { overrun := false, parity := false, frame := false }) ∧
      (∀ q, q ≠ p → s1.errors_.getD q default = s.errors_.getD q default)) ∧
    (∀ t : ComLynx, t.configured_ = true → ∃ t1, t.ResetErrors p = some t1) := by
  refine ⟨fun hne => ⟨?_, ?_, ?_⟩, ?_, fun t ht => ⟨_, ResetErrors_eq t p ht⟩⟩
  · exact step_flag_sticky (fun e => e.overrun) (fun _ _ => rfl) (fun _ he => he)
      s op r s1 p h hne
  · exact step_flag_sticky (fun e => e.parity) (fun _ he => he) (fun _ _ => rfl)
      s op r s1 p h hne
  · exact step_flag_sticky (fun e => e.frame) (fun _ he => he) (fun _ he => he)
      s op r s1 p h hne
  · intro hop
    subst hop
    simp only [step, Option.map_eq_some'] at h
    obtain ⟨s2, h2, h3⟩ := h
    simp only [Prod.mk.injEq] at h3
    have hc : s.configured_ = true := by
      by_contra hc
      simp [ComLynx.ResetErrors, hc] at h2
    rw [ResetErrors_eq s p hc] at h2
    simp only [Option.some.injEq] at h2
    rw [← h3.2, ← h2]
    exact ⟨rfl, fun hp => getD_set_self _ _ _ _ hp, fun q hq => getD_set_ne _ _ _ _ _ hq⟩

/-- C13 at a concrete step: player 1 of a two-player bus has its parity flag
set and polls `IsRxReady`; the flag is still set. -/
theorem C13_error_flags_sticky_witness :
    step ({ twoPlayerBus [] with errors_ := [{}, { parity := true }] } : ComLynx)
        (Op.IsRxReady 1) =
      some (Ret.bool false, { twoPlayerBus [] with errors_ := [{}, { parity := true }] }) ∧
    (Op.IsRxReady 1 ≠ Op.ResetErrors 1 →
      ((({ twoPlayerBus [] with errors_ := [{}, { parity := true }] } :
          ComLynx).errors_.getD 1 default).overrun = true →
        (({ twoPlayerBus [] with errors_ := [{}, { parity := true }] } :
          ComLynx).errors_.getD 1 default).overrun = true) ∧
      ((({ twoPlayerBus [] with errors_ := [{}, { parity := true }] } :
          ComLynx).errors_.getD 1 default).parity = true →
        (({ twoPlayerBus [] with errors_ := [{}, { parity := true }] } :
          ComLynx).errors_.getD 1 default).parity = true) ∧
      ((({ twoPlayerBus [] with errors_ := [{}, { parity := true }] } :
          ComLynx).errors_.getD 1 default).frame = true →
        (({ twoPlayerBus [] with errors_ := [{}, { parity := true }] } :
          ComLynx).errors_.getD 1 default).frame = true)) :=
  ⟨rfl, (C13_error_flags_sticky { twoPlayerBus [] with errors_ := [{}, { parity := true }] }
    (Op.IsRxReady 1) (Ret.bool false)
    { twoPlayerBus [] with errors_ := [{}, { parity := true }] } 1 rfl).1⟩

theorem getD_frame_of_all (l : List Error) (hl : ∀ e ∈ l, e.frame = false) (p : Nat) :
    (l.getD p default).frame = false := by
  rw [List.getD_eq_getElem?_getD]
  cases hp : l[p]? with
  | none => rfl
  | some e => exact hl e (List.getElem?_mem hp)

theorem set_frame_of_all (l : List Error) (hl : ∀ e ∈ l, e.frame = false) (p : Nat)
    (e1 : Error) (h1 : e1.frame = false) : ∀ e ∈ l.set p e1, e.frame = false := by
  intro e he
  rcases List.mem_or_eq_of_mem_set he with h | h
  · exact hl e h
  · rw [h]
    exact h1

/-- One call keeps the frame flag of every entry clear. -/
theorem step_frame_clear (s : ComLynx) (op : Op) (r : Ret) (s1 : ComLynx)
    (h : step s op = some (r, s1)) (hl : ∀ e ∈ s.errors_, e.frame = false) :
    ∀ e ∈ s1.errors_, e.frame = false := by
  have hg := getD_frame_of_all s.errors_ hl
  rcases step_errors s op r s1 h with h1 | ⟨p, h1⟩ | ⟨p, h1⟩ | ⟨p, _, h1⟩
  · rw [h1]
    exact hl
  · rw [h1]
    exact set_frame_of_all _ hl p _ (hg p)
  · rw [h1]
    exact set_frame_of_all _ hl p _ (hg p)
  · rw [h1]
    exact set_frame_of_all _ hl p _ rfl

theorem run_frame_clear (s : ComLynx) (ops : List Op) (rets : List Ret) (s1 : ComLynx)
    (h : run s ops = some (rets, s1)) (hl : ∀ e ∈ s.errors_, e.frame = false) :
    ∀ e ∈ s1.errors_, e.frame = false := by
  induction ops generalizing s rets with
  | nil =>
    simp only [run, Option.some.injEq, Prod.mk.injEq] at h
    rw [← h.2]
    exact hl
  | cons op ops ih =>
    obtain ⟨r, s2, rs, hstep, hrun, _⟩ := run_cons_eq_some s op ops rets s1 h
    exact ih s2 rs hrun (step_frame_clear s op r s2 hstep hl)

/-- C14 (no frame error). In every state reached from a freshly constructed bus
by a sequence of public operations, the frame flag of every player is false, so
`HasFrameError` answers false on a configured bus; and `IsTxReady` never writes
the reason `kFrame`: when it returns false the reason is `kOverrun`, and the
reason can only read `kFrame` if the caller passed `kFrame` in and the call
returned true. -/
theorem C14_no_frame_error (n : Nat) (ops : List Op) (rets : List Ret) (s : ComLynx)
    (hrun : run (ComLynx.new n) ops = some (rets, s)) :
    (∀ p, (s.errors_.getD p default).frame = false) ∧
    (∀ p, s.configured_ = true → s.HasFrameError p = some false) ∧
    (∀ p reason b reason1, s.IsTxReady p reason = some (b, reason1) →
      (b = false → reason1 = TxNotReadyReason.kOverrun) ∧
      (reason1 = TxNotReadyReason.kFrame → b = true ∧ reason = TxNotReadyReason.kFrame)) := by
  have hnew : ∀ e ∈ (ComLynx.new n).errors_, e.frame = false := by
    intro e he
    rw [List.eq_of_mem_replicate he]
  have hall := run_frame_clear _ ops rets s hrun hnew
  have hg := getD_frame_of_all s.errors_ hall
  refine ⟨hg, ?_, ?_⟩
  · intro p hc
    unfold ComLynx.HasFrameError
    simp only [hc, Bool.not_true, Bool.false_eq_true, if_false, hg p]
  · intro p reason b reason1 h
    have hc : s.configured_ = true := by
      by_contra hc
      simp [ComLynx.IsTxReady, hc] at h
    rw [IsTxReady_eq s p reason hc] at h
    simp only [Option.some.injEq, Prod.mk.injEq] at h
    obtain ⟨hb, hr⟩ := h
    by_cases hlen : s.buffer_.length < 32
    · rw [if_pos hlen] at hr
      rw [decide_eq_true hlen] at hb
      refine ⟨fun hf => ?_, fun hf => ⟨hb.symm, by rw [hr, hf]⟩⟩
      rw [← hb] at hf
      exact Bool.noConfusion hf
    · rw [if_neg hlen] at hr
      refine ⟨fun _ => hr.symm, fun hf => ?_⟩
      rw [← hr] at hf
      exact TxNotReadyReason.noConfusion hf

/-- C14 at a concrete run: after 33 `Send` calls by player 0 on a two-player bus
the last one was rejected, and the frame flag of player 0 is still clear. -/
theorem C14_no_frame_error_witness :
    run (ComLynx.new 2)
        (Op.ConfigureParityConfig ParityConfig.kOdd :: List.replicate 33 (Op.Send 0 65)) =
      some (Ret.void :: (List.replicate 32 (Ret.bool true) ++ [Ret.bool false]),
        { twoPlayerBus (List.replicate 32 ⟨0, 65, true, 1⟩) with
          errors_ := [{ overrun := true }, {}] }) ∧
    (({ twoPlayerBus (List.replicate 32 ⟨0, 65, true, 1⟩) with
        errors_ := [{ overrun := true }, {}] } : ComLynx).errors_.getD 0 default).frame
      = false :=
  ⟨by decide, (C14_no_frame_error 2
    (Op.ConfigureParityConfig ParityConfig.kOdd :: List.replicate 33 (Op.Send 0 65))
    (Ret.void :: (List.replicate 32 (Ret.bool true) ++ [Ret.bool false]))
    { twoPlayerBus (List.replicate 32 ⟨0, 65, true, 1⟩) with
      errors_ := [{ overrun := true }, {}] } (by decide)).1 0⟩

/-! ## Break flags -/

theorem breaks_foldl (n : Nat) (l : List Bool) :
    ((List.range n).foldl (fun breaks i => breaks.set i true) l).length = l.length ∧
    ∀ i, ((List.range n).foldl (fun breaks i => breaks.set i true) l).getD i false
      = ((decide (i < n) && decide (i < l.length)) || l.getD i false) := by
  induction n with
  | zero => simp
  | succ n ih =>
    rw [List.range_succ, List.foldl_append, List.foldl_cons, List.foldl_nil]
    refine ⟨by rw [List.length_set, ih.1], fun i => ?_⟩
    by_cases hi : i = n
    · subst hi
      by_cases hl : i < l.length
      · rw [getD_set_self _ _ _ _ (by rw [ih.1]; exact hl)]
        simp [hl]
      · rw [List.set_eq_of_length_le (by rw [ih.1]; omega), ih.2]
        simp [hl]
    · rw [getD_set_ne _ _ _ _ _ hi, ih.2]
      congr 2
      exact decide_eq_decide.mpr (by omega)

theorem SendBreak_eq (s : ComLynx) (hc : s.configured_ = true) :
    s.SendBreak = some { s with
      breaks_ := (List.range s.n_players_).foldl (fun breaks i => breaks.set i true) s.breaks_ } := by
  unfold ComLynx.SendBreak
  simp only [hc, Bool.not_true, Bool.false_eq_true, if_false]

theorem IsRxBrk_eq (s : ComLynx) (p : Player) (hc : s.configured_ = true) :
    s.IsRxBrk p = some (s.breaks_.getD p false,
      if s.breaks_.getD p false = true then { s with breaks_ := s.breaks_.set p false }
      else s) := by
  unfold ComLynx.IsRxBrk
  simp only [hc, Bool.not_true, Bool.false_eq_true, if_false]
  split
  · rename_i h
    rw [h]
  · rename_i h
    have h2 : s.breaks_.getD p false = false := by simpa using h
    rw [h2]

theorem Recv_breaks (s : ComLynx) (p : Player) (b : UBYTE) (s1 : ComLynx)
    (h : s.Recv p = some (b, s1)) : s1.breaks_ = s.breaks_ := by
  have hc : s.configured_ = true := by
    by_contra hc
    simp [ComLynx.Recv, hc] at h
  cases hf : ComLynx.firstUnread p s.buffer_ with
  | none =>
    rw [(Recv_eq_none_iff s p hc).mpr ((firstUnread_eq_none_iff p _).mp hf)] at h
    exact Option.noConfusion h
  | some i =>
    obtain ⟨pre, m, post, hb, _, hpre, hm⟩ := firstUnread_split p _ i hf
    rw [Recv_of_split s p pre m post hc hb hpre hm] at h
    simp only [Option.some.injEq, Prod.mk.injEq] at h
    rw [← h.2]

/-- What one call can do to the vector of break flags: nothing, set the flags of
the first `n_players_` positions (`SendBreak`), or clear one flag (`IsRxBrk`). -/
theorem step_breaks (s : ComLynx) (op : Op) (r : Ret) (s1 : ComLynx)
    (h : step s op = some (r, s1)) :
    s1.breaks_ = s.breaks_ ∨
    (op = Op.SendBreak ∧ s1.breaks_ =
      (List.range s.n_players_).foldl (fun breaks i => breaks.set i true) s.breaks_) ∨
    (∃ p, op = Op.IsRxBrk p ∧ s1.breaks_ = s.breaks_.set p false) := by
  have hrx : ∀ p b s2, s.IsRxReady p = some (b, s2) → s2.breaks_ = s.breaks_ :=
    fun p b s2 h2 => (IsRxReady_buffer s p b s2 h2).2.2.2.2.2.2.1
  cases op with
  | Configure ep ev =>
    simp only [step, Option.some.injEq, Prod.mk.injEq] at h
    exact Or.inl (by rw [← h.2]; rfl)
  | ConfigureParityConfig c =>
    simp only [step, Option.some.injEq, Prod.mk.injEq] at h
    exact Or.inl (by rw [← h.2]; cases c <;> rfl)
  | EnableRxIRQ p v =>
    simp only [step, ComLynx.EnableRxIRQ, Option.map_eq_some'] at h
    obtain ⟨s2, h2, h3⟩ := h
    split at h2
    · exact Option.noConfusion h2
    · simp only [Option.some.injEq, Prod.mk.injEq] at h2 h3
      exact Or.inl (by rw [← h3.2, ← h2])
  | EnableTxIRQ p v =>
    simp only [step, ComLynx.EnableTxIRQ, Option.map_eq_some'] at h
    obtain ⟨s2, h2, h3⟩ := h
    split at h2
    · exact Option.noConfusion h2
    · simp only [Option.some.injEq, Prod.mk.injEq] at h2 h3
      exact Or.inl (by rw [← h3.2, ← h2])
  | Send p d =>
    simp only [step, Option.map_eq_some'] at h
    obtain ⟨r2, h2, h3⟩ := h
    simp only [Prod.mk.injEq] at h3
    rw [← h3.2]
    have hc := Send_configured s p d r2.1 r2.2 h2
    by_cases hlen : s.buffer_.length < 32
    · rw [Send_accept s p d hc hlen] at h2
      simp only [Option.some.injEq] at h2
      exact Or.inl (by rw [← h2])
    · rw [Send_reject s p d hc (by omega)] at h2
      simp only [Option.some.injEq] at h2
      exact Or.inl (by rw [← h2])
  | Recv p =>
    simp only [step, Option.map_eq_some'] at h
    obtain ⟨r2, h2, h3⟩ := h
    simp only [Prod.mk.injEq] at h3
    rw [← h3.2]
    exact Or.inl (Recv_breaks s p r2.1 r2.2 h2)
  | SendBreak =>
    simp only [step, Option.map_eq_some'] at h
    obtain ⟨s2, h2, h3⟩ := h
    simp only [Prod.mk.injEq] at h3
    have hc : s.configured_ = true := by
      by_contra hc
      simp [ComLynx.SendBreak, hc] at h2
    rw [SendBreak_eq s hc] at h2
    simp only [Option.some.injEq] at h2
    exact Or.inr (Or.inl ⟨rfl, by rw [← h3.2, ← h2]⟩)
  | IsRxReady p =>
    simp only [step, Option.map_eq_some'] at h
    obtain ⟨r2, h2, h3⟩ := h
    simp only [Prod.mk.injEq] at h3
    rw [← h3.2]
    exact Or.inl (hrx p r2.1 r2.2 h2)
  | IsTxReady p reason =>
    simp only [step, Option.map_eq_some'] at h
    obtain ⟨r2, _, h3⟩ := h
    simp only [Prod.mk.injEq] at h3
    exact Or.inl (by rw [← h3.2])
  | IsTxEmpty p =>
    simp only [step, Option.map_eq_some'] at h
    obtain ⟨r2, _, h3⟩ := h
    simp only [Prod.mk.injEq] at h3
    exact Or.inl (by rw [← h3.2])
  | IsRxBrk p =>
    simp only [step, Option.map_eq_some'] at h
    obtain ⟨r2, h2, h3⟩ := h
    simp only [Prod.mk.injEq] at h3
    rw [← h3.2]
    have hc : s.configured_ = true := by
      by_contra hc
      simp [ComLynx.IsRxBrk, hc] at h2
    rw [IsRxBrk_eq s p hc] at h2
    simp only [Option.some.injEq] at h2
    rw [← h2]
    split
    · exact Or.inr (Or.inr ⟨p, rfl, rfl⟩)
    · exact Or.inl rfl
  | IsIRQ p =>
    simp only [step, Option.map_eq_some'] at h
    obtain ⟨r2, h2, h3⟩ := h
    simp only [Prod.mk.injEq] at h3
    rw [← h3.2]
    rcases IsIRQ_cases s p r2.1 r2.2 h2 with h4 | ⟨b1, h4⟩
    · exact Or.inl (by rw [h4])
    · exact Or.inl (hrx p b1 r2.2 h4)
  | HasFrameError p =>
    simp only [step, Option.map_eq_some'] at h
    obtain ⟨r2, _, h3⟩ := h
    simp only [Prod.mk.injEq] at h3
    exact Or.inl (by rw [← h3.2])
  | HasOverrunError p =>
    simp only [step, Option.map_eq_some'] at h
    obtain ⟨r2, _, h3⟩ := h
    simp only [Prod.mk.injEq] at h3
    exact Or.inl (by rw [← h3.2])
  | HasParityError p =>
    simp only [step, Option.map_eq_some'] at h
    obtain ⟨r2, _, h3⟩ := h
    simp only [Prod.mk.injEq] at h3
    exact Or.inl (by rw [← h3.2])
  | HasAnyError p =>
    simp only [step, Option.map_eq_some'] at h
    obtain ⟨r2, _, h3⟩ := h
    simp only [Prod.mk.injEq] at h3
    exact Or.inl (by rw [← h3.2])
  | ResetErrors p =>
    simp only [step, ComLynx.ResetErrors, Option.map_eq_some'] at h
    obtain ⟨s2, h2, h3⟩ := h
    split at h2
    · exact Option.noConfusion h2
    · simp only [Option.some.injEq, Prod.mk.injEq] at h2 h3
      exact Or.inl (by rw [← h3.2, ← h2])
  | GetSERCTL p =>
    simp only [step, Option.map_eq_some'] at h
    obtain ⟨r2, h2, h3⟩ := h
    simp only [Prod.mk.injEq] at h3
    rw [← h3.2]
    obtain ⟨b1, h4⟩ := GetSERCTL_cases s p r2.1 r2.2 h2
    exact Or.inl (hrx p b1 r2.2 h4)

theorem getD_set_false (l : List Bool) (p i : Nat) (h : l.getD i false = false) :
    (l.set p false).getD i false = false := by
  by_cases hi : i = p
  · subst hi
    by_cases hl : i < l.length
    · exact getD_set_self l i false false hl
    · rw [List.set_eq_of_length_le (by omega)]
      exact h
  · rw [getD_set_ne l p i false false hi]
    exact h

theorem run_breaks (s : ComLynx) (ops : List Op) (rets : List Ret) (s1 : ComLynx)
    (h : run s ops = some (rets, s1)) :
    s1.breaks_.length = s.breaks_.length ∧
    ((∀ op ∈ ops, op ≠ Op.SendBreak) → (∀ i, s.breaks_.getD i false = false) →
      ∀ i, s1.breaks_.getD i false = false) := by
  induction ops generalizing s rets with
  | nil =>
    simp only [run, Option.some.injEq, Prod.mk.injEq] at h
    rw [← h.2]
    exact ⟨rfl, fun _ h0 => h0⟩
  | cons op ops ih =>
    obtain ⟨r, s2, rs, hstep, hrun, _⟩ := run_cons_eq_some s op ops rets s1 h
    have ih2 := ih s2 rs hrun
    rcases step_breaks s op r s2 hstep with h1 | ⟨hop, h1⟩ | ⟨p, _, h1⟩
    · rw [h1] at ih2
      exact ⟨ih2.1, fun hno h0 => ih2.2 (fun o ho => hno o (List.mem_cons_of_mem _ ho)) h0⟩
    · refine ⟨by rw [ih2.1, h1, (breaks_foldl _ _).1], fun hno _ => ?_⟩
      exact absurd hop (hno op (List.mem_cons_self _ _))
    · refine ⟨by rw [ih2.1, h1, List.length_set], fun hno h0 => ?_⟩
      refine ih2.2 (fun o ho => hno o (List.mem_cons_of_mem _ ho)) (fun i => ?_)
      rw [h1]
      exact getD_set_false _ p i (h0 i)

theorem getD_set_false_self (l : List Bool) (p : Nat) :
    (l.set p false).getD p false = false := by
  by_cases hl : p < l.length
  · exact getD_set_self l p false false hl
  · rw [List.set_eq_of_length_le (by omega), List.getD_eq_getElem?_getD,
      List.getElem?_eq_none (by omega)]
    rfl

theorem getD_clear_ne (l : List Bool) (i j : Nat) (hij : i ≠ j) :
    (if l.getD i false = true then l.set i false else l).getD j false = l.getD j false := by
  split
  · exact getD_set_ne l i j false false (Ne.symm hij)
  · rfl

theorem clear_comm (l : List Bool) (i j : Nat) (hij : i ≠ j) :
    (if l.getD j false = true
      then (if l.getD i false = true then l.set i false else l).set j false
      else (if l.getD i false = true then l.set i false else l)) =
    (if l.getD i false = true
      then (if l.getD j false = true then l.set j false else l).set i false
      else (if l.getD j false = true then l.set j false else l)) := by
  by_cases ha : l.getD i false = true <;> by_cases hb : l.getD j false = true
  · simp only [ha, hb, if_true]
    exact List.set_comm false false l hij
  · simp only [ha, hb, if_true, if_false, Bool.false_eq_true]
  · simp only [ha, hb, if_true, if_false, Bool.false_eq_true]
  · simp only [ha, hb, if_false, Bool.false_eq_true]

theorem IsRxBrk_eq2 (t : ComLynx) (p : Player) (ht : t.configured_ = true) :
    t.IsRxBrk p = some (t.breaks_.getD p false, { t with
      breaks_ := if t.breaks_.getD p false = true then t.breaks_.set p false
        else t.breaks_ }) := by
  rw [IsRxBrk_eq t p ht]
  by_cases hb : t.breaks_.getD p false = true
  · simp only [hb, if_true]
  · simp only [hb, if_false, Bool.false_eq_true]

/-- C12 (break). Let the bus be in a configured state reached from a bus
constructed for `n` players. `SendBreak` returns and changes only the break
flags; afterwards, for every player `i < n`, the first `IsRxBrk(i)` returns true
and the next one returns false. On any configured bus `IsRxBrk(i)` returns the
break flag of `i`, clears it and changes nothing else, in particular no flag of
another player; hence two polls by different players give the same answers and
the same final bus in either order. If the run contained no `SendBreak`, every
`IsRxBrk` returns false and leaves the bus as it is. -/
theorem C12_break (n : Nat) (ops : List Op) (rets : List Ret) (s : ComLynx)
    (hrun : run (ComLynx.new n) ops = some (rets, s)) (hc : s.configured_ = true) :
    (∃ s1, s.SendBreak = some s1 ∧ s1 = { s with breaks_ := s1.breaks_ } ∧
      ∀ i, i < n → ∃ s2, s1.IsRxBrk i = some (true, s2) ∧ s2.IsRxBrk i = some (false, s2)) ∧
    (∀ (t : ComLynx) (i : Player), t.configured_ = true →
      ∃ t1, t.IsRxBrk i = some (t.breaks_.getD i false, t1) ∧
        t1 = { t with breaks_ := t1.breaks_ } ∧
        t1.breaks_.getD i false = false ∧
        ∀ j, j ≠ i → t1.breaks_.getD j false = t.breaks_.getD j false) ∧
    (∀ (t : ComLynx) (i j : Player) (bi bj : Bool) (ti tij : ComLynx), i ≠ j →
      t.IsRxBrk i = some (bi, ti) → ti.IsRxBrk j = some (bj, tij) →
      ∃ tj, t.IsRxBrk j = some (bj, tj) ∧ tj.IsRxBrk i = some (bi, tij)) ∧
    ((∀ op ∈ ops, op ≠ Op.SendBreak) → ∀ i, s.IsRxBrk i = some (false, s)) := by
  have hlen : s.breaks_.length = n := by
    rw [(run_breaks _ ops rets s hrun).1]
    simp [ComLynx.new]
  have hn : s.n_players_ = n := (run_static _ ops rets s hrun).2
  refine ⟨?_, ?_, ?_, ?_⟩
  · refine ⟨_, SendBreak_eq s hc, rfl, fun i hi => ?_⟩
    have hset : ((List.range s.n_players_).foldl (fun breaks i => breaks.set i true)
        s.breaks_).getD i false = true := by
      rw [(breaks_foldl _ _).2, hn, hlen, decide_eq_true hi]
      rfl
    have h1 := IsRxBrk_eq ({ s with
      breaks_ := (List.range s.n_players_).foldl (fun breaks i => breaks.set i true)
        s.breaks_ } : ComLynx) i hc
    rw [hset, if_pos rfl] at h1
    refine ⟨_, h1, ?_⟩
    have h2 := IsRxBrk_eq ({ s with
      breaks_ := ((List.range s.n_players_).foldl (fun breaks i => breaks.set i true)
        s.breaks_).set i false } : ComLynx) i hc
    rw [getD_set_false_self, if_neg (by decide)] at h2
    exact h2
  · intro t i ht
    refine ⟨_, IsRxBrk_eq2 t i ht, rfl, ?_, fun j hj => getD_clear_ne _ i j (Ne.symm hj)⟩
    show (if t.breaks_.getD i false = true then t.breaks_.set i false
      else t.breaks_).getD i false = false
    split
    · exact getD_set_false_self _ i
    · rename_i hb
      simpa using hb
  · intro t i j bi bj ti tij hij hi hj
    have ht : t.configured_ = true := by
      by_contra hc0
      simp [ComLynx.IsRxBrk, hc0] at hi
    rw [IsRxBrk_eq2 t i ht] at hi
    simp only [Option.some.injEq, Prod.mk.injEq] at hi
    obtain ⟨hbi, hti⟩ := hi
    have hti_c : ti.configured_ = true := by
      rw [← hti]
      exact ht
    rw [IsRxBrk_eq2 ti j hti_c] at hj
    subst hbi hti
    simp only [Option.some.injEq, Prod.mk.injEq] at hj
    obtain ⟨hbj, htij⟩ := hj
    subst hbj htij
    refine ⟨{ t with
      breaks_ := if t.breaks_.getD j false = true then t.breaks_.set j false
        else t.breaks_ }, ?_, ?_⟩
    · rw [IsRxBrk_eq2 t j ht]
      show some (_, _) = some ((if t.breaks_.getD i false = true then t.breaks_.set i false
        else t.breaks_).getD j false, _)
      rw [getD_clear_ne _ i j hij]
    · rw [IsRxBrk_eq2 ({ t with
        breaks_ := if t.breaks_.getD j false = true then t.breaks_.set j false
          else t.breaks_ } : ComLynx) i ht]
      show some ((if t.breaks_.getD j false = true then t.breaks_.set j false
          else t.breaks_).getD i false,
        { t with breaks_ :=
          if (if t.breaks_.getD j false = true then t.breaks_.set j false
              else t.breaks_).getD i false = true
          then (if t.breaks_.getD j false = true then t.breaks_.set j false
              else t.breaks_).set i false
          else (if t.breaks_.getD j false = true then t.breaks_.set j false
              else t.breaks_) }) =
        some (t.breaks_.getD i false,
        { t with breaks_ :=
          if (if t.breaks_.getD i false = true then t.breaks_.set i false
              else t.breaks_).getD j false = true
          then (if t.breaks_.getD i false = true then t.breaks_.set i false
              else t.breaks_).set j false
          else (if t.breaks_.getD i false = true then t.breaks_.set i false
              else t.breaks_) })
      rw [getD_clear_ne _ j i (Ne.symm hij), getD_clear_ne _ i j hij,
        clear_comm t.breaks_ i j hij]
  · intro hno i
    have h0 := (run_breaks _ ops rets s hrun).2 hno (fun i => by
      simp [ComLynx.new, List.getD_eq_getElem?_getD, List.getElem?_replicate]
      split <;> rfl) i
    rw [IsRxBrk_eq s i hc, h0, if_neg (by decide)]

/-- C12 at a concrete state: a three-player bus just configured in Space mode,
as in the break test of the repository. -/
theorem C12_break_witness :
    (run (ComLynx.new 3) [Op.ConfigureParityConfig ParityConfig.kSpace] =
        some ([Ret.void], (ComLynx.new 3).ConfigureParityConfig ParityConfig.kSpace) ∧
      ((ComLynx.new 3).ConfigureParityConfig ParityConfig.kSpace).configured_ = true) ∧
    ∃ s1, ((ComLynx.new 3).ConfigureParityConfig ParityConfig.kSpace).SendBreak = some s1 ∧
      s1 = { (ComLynx.new 3).ConfigureParityConfig ParityConfig.kSpace with
        breaks_ := s1.breaks_ } ∧
      ∀ i, i < 3 → ∃ s2, s1.IsRxBrk i = some (true, s2) ∧ s2.IsRxBrk i = some (false, s2) :=
  ⟨⟨rfl, rfl⟩, (C12_break 3 [Op.ConfigureParityConfig ParityConfig.kSpace] [Ret.void]
    ((ComLynx.new 3).ConfigureParityConfig ParityConfig.kSpace) rfl rfl).1⟩

/-! ## A single sender: the buffer drains -/

theorem receipt_eq_complete (r n : Nat) (h1 : ∀ i, i < n → r.testBit i = true)
    (h2 : ∀ i, r.testBit i = true → i < n) : r = 2 ^ n - 1 := by
  apply Nat.eq_of_testBit_eq
  intro i
  rw [Nat.testBit_two_pow_sub_one]
  by_cases hi : i < n
  · rw [h1 i hi, decide_eq_true hi]
  · rw [decide_eq_false hi]
    cases hb : r.testBit i with
    | false => rfl
    | true => exact absurd (h2 i hb) hi

theorem new_read_receipt (S : Player) (d : UBYTE) (par : Bool) (hS : S < 32) :
    (ByteMessage.new S d par).read_receipt = 2 ^ S := by
  simp [ByteMessage.new, ByteMessage.MarkRead, PlayerBit_eq_two_pow hS]

theorem MarkRead_testBit (m : ByteMessage) (q : Player) (hq : q < 32) (i : Nat) :
    (m.MarkRead q).read_receipt.testBit i = (m.read_receipt.testBit i || decide (q = i)) := by
  simp [ByteMessage.MarkRead, PlayerBit_eq_two_pow hq, Nat.testBit_two_pow]

theorem SingleSenderInv_nil (n S : Nat) : SingleSenderInv n S [] :=
  ⟨fun _ h => absurd h (List.not_mem_nil _), List.Pairwise.nil⟩

theorem SingleSenderInv_send (n S : Nat) (hn2 : 2 ≤ n) (hS : S < n) (hS32 : S < 32)
    (l : List ByteMessage) (d : UBYTE) (par : Bool) (h : SingleSenderInv n S l) :
    SingleSenderInv n S (l ++ [ByteMessage.new S d par]) := by
  have hr := new_read_receipt S d par hS32
  have hbit : ∀ i, (ByteMessage.new S d par).read_receipt.testBit i = decide (S = i) := by
    intro i
    rw [hr, Nat.testBit_two_pow]
  constructor
  · intro m hm
    rcases List.mem_append.mp hm with hm | hm
    · exact h.1 m hm
    · rw [List.mem_singleton] at hm
      subst hm
      refine ⟨rfl, ?_, ?_, ?_⟩
      · intro hfull
        have hq : ∃ q, q < n ∧ q ≠ S := by
          by_cases h0 : S = 0
          · exact ⟨1, by omega, by omega⟩
          · exact ⟨0, by omega, fun e => h0 e.symm⟩
        obtain ⟨q, hqn, hqS⟩ := hq
        have h1 := hbit q
        rw [hfull, Nat.testBit_two_pow_sub_one, decide_eq_true hqn,
          decide_eq_false (fun e => hqS e.symm)] at h1
        exact Bool.noConfusion h1
      · rw [hbit]
        exact decide_eq_true rfl
      · intro i hi
        rw [hbit] at hi
        have := of_decide_eq_true hi
        omega
  · rw [List.pairwise_append]
    refine ⟨h.2, List.pairwise_singleton _ _, ?_⟩
    intro a ha b hb
    rw [List.mem_singleton] at hb
    subst hb
    intro i hi
    rw [hbit] at hi
    have := of_decide_eq_true hi
    subst this
    exact (h.1 a ha).2.2.1

theorem SingleSenderInv_recv (n S q : Nat) (hn : n ≤ 31) (hq : q < n)
    (pre : List ByteMessage) (m : ByteMessage) (post : List ByteMessage)
    (h : SingleSenderInv n S (pre ++ m :: post))
    (hpre : ∀ x ∈ pre, x.HasRead q = true) :
    SingleSenderInv n S
      (ComLynx.popFrontIfComplete (2 ^ n - 1) (pre ++ m.MarkRead q :: post)) := by
  have hq32 : q < 32 := by omega
  have hm := h.1 m (List.mem_append_right _ (List.mem_cons_self _ _))
  have hpw := h.2
  rw [List.pairwise_append, List.pairwise_cons] at hpw
  obtain ⟨hpp, ⟨hmpost, hpost⟩, hcross⟩ := hpw
  have hbit := MarkRead_testBit m q hq32
  -- the marked message keeps every property except, possibly, being incomplete
  have hm1 : (m.MarkRead q).sender = S ∧ (m.MarkRead q).read_receipt.testBit S = true ∧
      ∀ i, (m.MarkRead q).read_receipt.testBit i = true → i < n := by
    refine ⟨hm.1, ?_, ?_⟩
    · rw [hbit, hm.2.2.1]
      rfl
    · intro i hi
      rw [hbit] at hi
      rcases Bool.or_eq_true _ _ ▸ hi with h1 | h1
      · exact hm.2.2.2 i h1
      · exact (of_decide_eq_true h1) ▸ hq
  have hle_post : ∀ b ∈ post, ReceiptLe (m.MarkRead q) b := by
    intro b hb i hi
    rw [hbit, hmpost b hb i hi]
    rfl
  have hle_pre : ∀ a ∈ pre, ReceiptLe a (m.MarkRead q) := by
    intro a ha i hi
    rw [hbit] at hi
    rcases Bool.or_eq_true _ _ ▸ hi with h1 | h1
    · exact hcross a ha m (List.mem_cons_self _ _) i h1
    · have := of_decide_eq_true h1
      subst this
      rw [← ByteMessage.HasRead_eq_testBit a hq32]
      exact hpre a ha
  cases pre with
  | nil =>
    simp only [List.nil_append, ComLynx.popFrontIfComplete]
    split
    · exact ⟨fun x hx => h.1 x (List.mem_append_right _ (List.mem_cons_of_mem _ hx)), hpost⟩
    · rename_i hnot
      constructor
      · intro x hx
        rcases List.mem_cons.mp hx with hx | hx
        · subst hx
          refine ⟨hm1.1, ?_, hm1.2.1, hm1.2.2⟩
          intro hfull
          exact hnot (by simp [ByteMessage.AllHaveRead, hfull])
        · exact h.1 x (List.mem_append_right _ (List.mem_cons_of_mem _ hx))
      · exact List.pairwise_cons.mpr ⟨hle_post, hpost⟩
  | cons f pre1 =>
    have hf := h.1 f (List.mem_append_left _ (List.mem_cons_self _ _))
    have hfnot : f.AllHaveRead (2 ^ n - 1) = false := by
      simp [ByteMessage.AllHaveRead, hf.2.1]
    simp only [List.cons_append, ComLynx.popFrontIfComplete, hfnot, Bool.false_eq_true,
      if_false]
    constructor
    · intro x hx
      have hx2 : x ∈ (f :: pre1) ++ m.MarkRead q :: post := by simpa using hx
      rcases List.mem_append.mp hx2 with hx3 | hx3
      · exact h.1 x (List.mem_append_left _ hx3)
      · rcases List.mem_cons.mp hx3 with hx4 | hx4
        · subst hx4
          refine ⟨hm1.1, ?_, hm1.2.1, hm1.2.2⟩
          intro hfull
          -- then the front message would be complete as well
          apply hf.2.1
          apply receipt_eq_complete _ _ _ hf.2.2.2
          intro i hi
          apply hle_pre f (List.mem_cons_self _ _) i
          rw [hfull, Nat.testBit_two_pow_sub_one]
          exact decide_eq_true hi
        · exact h.1 x (List.mem_append_right _ (List.mem_cons_of_mem _ hx4))
    · have : (f :: (pre1 ++ m.MarkRead q :: post)).Pairwise ReceiptLe ↔
          ((f :: pre1) ++ m.MarkRead q :: post).Pairwise ReceiptLe := by
        rw [List.cons_append]
      rw [this, List.pairwise_append]
      refine ⟨hpp, List.pairwise_cons.mpr ⟨hle_post, hpost⟩, ?_⟩
      intro a ha b hb
      rcases List.mem_cons.mp hb with hb1 | hb1
      · subst hb1
        exact hle_pre a ha
      · exact hcross a ha b (List.mem_cons_of_mem _ hb1)

theorem SingleSenderInv_drained (n S : Nat) (l : List ByteMessage)
    (h : SingleSenderInv n S l)
    (hall : ∀ q, q < n → q ≠ S → ∀ m ∈ l, m.read_receipt.testBit q = true) : l = [] := by
  cases l with
  | nil => rfl
  | cons m l =>
    have hm := h.1 m (List.mem_cons_self _ _)
    exfalso
    apply hm.2.1
    apply receipt_eq_complete _ _ _ hm.2.2.2
    intro i hi
    by_cases hiS : i = S
    · rw [hiS]
      exact hm.2.2.1
    · exact hall i hi hiS m (List.mem_cons_self _ _)

theorem Recv_config (s : ComLynx) (p : Player) (b : UBYTE) (s1 : ComLynx)
    (h : s.Recv p = some (b, s1)) :
    s1.configured_ = s.configured_ ∧ s1.enable_parity_ = s.enable_parity_ ∧
    s1.even_parity_ = s.even_parity_ := by
  have hc : s.configured_ = true := by
    by_contra hc
    simp [ComLynx.Recv, hc] at h
  cases hf : ComLynx.firstUnread p s.buffer_ with
  | none =>
    rw [(Recv_eq_none_iff s p hc).mpr ((firstUnread_eq_none_iff p _).mp hf)] at h
    exact Option.noConfusion h
  | some i =>
    obtain ⟨pre, m, post, hb, _, hpre, hm⟩ := firstUnread_split p _ i hf
    rw [Recv_of_split s p pre m post hc hb hpre hm] at h
    simp only [Option.some.injEq, Prod.mk.injEq] at h
    rw [← h.2]
    exact ⟨rfl, rfl, rfl⟩

/-- Only the two forms of `Configure` touch the parity mode and the configured
mark, and no call clears the configured mark. -/
theorem step_config (s : ComLynx) (op : Op) (r : Ret) (s1 : ComLynx)
    (h : step s op = some (r, s1)) :
    (s.configured_ = true → s1.configured_ = true) ∧
    ((∀ ep ev, op ≠ Op.Configure ep ev) → (∀ c, op ≠ Op.ConfigureParityConfig c) →
      s1.configured_ = s.configured_ ∧ s1.enable_parity_ = s.enable_parity_ ∧
      s1.even_parity_ = s.even_parity_) := by
  have key : (∀ ep ev, op ≠ Op.Configure ep ev) → (∀ c, op ≠ Op.ConfigureParityConfig c) →
      s1.configured_ = s.configured_ ∧ s1.enable_parity_ = s.enable_parity_ ∧
      s1.even_parity_ = s.even_parity_ := by
    intro h1 h2
    have hrx : ∀ p b s2, s.IsRxReady p = some (b, s2) →
        s2.configured_ = s.configured_ ∧ s2.enable_parity_ = s.enable_parity_ ∧
        s2.even_parity_ = s.even_parity_ := by
      intro p b s2 h3
      have := IsRxReady_buffer s p b s2 h3
      exact ⟨this.2.2.2.1, this.2.2.2.2.1, this.2.2.2.2.2.1⟩
    cases op with
    | Configure ep ev => exact absurd rfl (h1 ep ev)
    | ConfigureParityConfig c => exact absurd rfl (h2 c)
    | EnableRxIRQ p v =>
      simp only [step, ComLynx.EnableRxIRQ, Option.map_eq_some'] at h
      obtain ⟨s2, h2, h3⟩ := h
      split at h2
      · exact Option.noConfusion h2
      · simp only [Option.some.injEq, Prod.mk.injEq] at h2 h3
        rw [← h3.2, ← h2]
        exact ⟨rfl, rfl, rfl⟩
    | EnableTxIRQ p v =>
      simp only [step, ComLynx.EnableTxIRQ, Option.map_eq_some'] at h
      obtain ⟨s2, h2, h3⟩ := h
      split at h2
      · exact Option.noConfusion h2
      · simp only [Option.some.injEq, Prod.mk.injEq] at h2 h3
        rw [← h3.2, ← h2]
        exact ⟨rfl, rfl, rfl⟩
    | Send p d =>
      simp only [step, Option.map_eq_some'] at h
      obtain ⟨r2, h2, h3⟩ := h
      simp only [Prod.mk.injEq] at h3
      rw [← h3.2]
      have hc := Send_configured s p d r2.1 r2.2 h2
      by_cases hlen : s.buffer_.length < 32
      · rw [Send_accept s p d hc hlen] at h2
        simp only [Option.some.injEq] at h2
        rw [← h2]
        exact ⟨rfl, rfl, rfl⟩
      · rw [Send_reject s p d hc (by omega)] at h2
        simp only [Option.some.injEq] at h2
        rw [← h2]
        exact ⟨rfl, rfl, rfl⟩
    | Recv p =>
      simp only [step, Option.map_eq_some'] at h
      obtain ⟨r2, h2, h3⟩ := h
      simp only [Prod.mk.injEq] at h3
      rw [← h3.2]
      exact Recv_config s p r2.1 r2.2 h2
    | SendBreak =>
      simp only [step, ComLynx.SendBreak, Option.map_eq_some'] at h
      obtain ⟨s2, h2, h3⟩ := h
      split at h2
      · exact Option.noConfusion h2
      · simp only [Option.some.injEq, Prod.mk.injEq] at h2 h3
        rw [← h3.2, ← h2]
        exact ⟨rfl, rfl, rfl⟩
    | IsRxReady p =>
      simp only [step, Option.map_eq_some'] at h
      obtain ⟨r2, h2, h3⟩ := h
      simp only [Prod.mk.injEq] at h3
      rw [← h3.2]
      exact hrx p r2.1 r2.2 h2
    | IsTxReady p reason =>
      simp only [step, Option.map_eq_some'] at h
      obtain ⟨r2, _, h3⟩ := h
      simp only [Prod.mk.injEq] at h3
      rw [← h3.2]
      exact ⟨rfl, rfl, rfl⟩
    | IsTxEmpty p =>
      simp only [step, Option.map_eq_some'] at h
      obtain ⟨r2, _, h3⟩ := h
      simp only [Prod.mk.injEq] at h3
      rw [← h3.2]
      exact ⟨rfl, rfl, rfl⟩
    | IsRxBrk p =>
      simp only [step, ComLynx.IsRxBrk, Option.map_eq_some'] at h
      obtain ⟨r2, h2, h3⟩ := h
      simp only [Prod.mk.injEq] at h3
      rw [← h3.2]
      split_ifs at h2 <;> simp only [Option.some.injEq] at h2 <;> rw [← h2] <;>
        exact ⟨rfl, rfl, rfl⟩
    | IsIRQ p =>
      simp only [step, Option.map_eq_some'] at h
      obtain ⟨r2, h2, h3⟩ := h
      simp only [Prod.mk.injEq] at h3
      rw [← h3.2]
      rcases IsIRQ_cases s p r2.1 r2.2 h2 with h4 | ⟨b1, h4⟩
      · rw [h4]
        exact ⟨rfl, rfl, rfl⟩
      · exact hrx p b1 r2.2 h4
    | HasFrameError p =>
      simp only [step, Option.map_eq_some'] at h
      obtain ⟨r2, _, h3⟩ := h
      simp only [Prod.mk.injEq] at h3
      rw [← h3.2]
      exact ⟨rfl, rfl, rfl⟩
    | HasOverrunError p =>
      simp only [step, Option.map_eq_some'] at h
      obtain ⟨r2, _, h3⟩ := h
      simp only [Prod.mk.injEq] at h3
      rw [← h3.2]
      exact ⟨rfl, rfl, rfl⟩
    | HasParityError p =>
      simp only [step, Option.map_eq_some'] at h
      obtain ⟨r2, _, h3⟩ := h
      simp only [Prod.mk.injEq] at h3
      rw [← h3.2]
      exact ⟨rfl, rfl, rfl⟩
    | HasAnyError p =>
      simp only [step, Option.map_eq_some'] at h
      obtain ⟨r2, _, h3⟩ := h
      simp only [Prod.mk.injEq] at h3
      rw [← h3.2]
      exact ⟨rfl, rfl, rfl⟩
    | ResetErrors p =>
      simp only [step, ComLynx.ResetErrors, Option.map_eq_some'] at h
      obtain ⟨s2, h2, h3⟩ := h
      split at h2
      · exact Option.noConfusion h2
      · simp only [Option.some.injEq, Prod.mk.injEq] at h2 h3
        rw [← h3.2, ← h2]
        exact ⟨rfl, rfl, rfl⟩
    | GetSERCTL p =>
      simp only [step, Option.map_eq_some'] at h
      obtain ⟨r2, h2, h3⟩ := h
      simp only [Prod.mk.injEq] at h3
      rw [← h3.2]
      obtain ⟨b1, h4⟩ := GetSERCTL_cases s p r2.1 r2.2 h2
      exact hrx p b1 r2.2 h4
  refine ⟨fun hc => ?_, key⟩
  by_cases hcfg : ∃ ep ev, op = Op.Configure ep ev
  · obtain ⟨ep, ev, rfl⟩ := hcfg
    simp only [step, Option.some.injEq, Prod.mk.injEq] at h
    rw [← h.2]
    rfl
  · by_cases hcfg2 : ∃ c, op = Op.ConfigureParityConfig c
    · obtain ⟨c, rfl⟩ := hcfg2
      simp only [step, Option.some.injEq, Prod.mk.injEq] at h
      rw [← h.2]
      cases c <;> rfl
    · rw [(key (fun ep ev e => hcfg ⟨ep, ev, e⟩) (fun c e => hcfg2 ⟨c, e⟩)).1]
      exact hc

theorem run_configured (s : ComLynx) (ops : List Op) (rets : List Ret) (s1 : ComLynx)
    (h : run s ops = some (rets, s1)) (hc : s.configured_ = true) : s1.configured_ = true := by
  induction ops generalizing s rets with
  | nil =>
    simp only [run, Option.some.injEq, Prod.mk.injEq] at h
    rw [← h.2]
    exact hc
  | cons op ops ih =>
    obtain ⟨r, s2, rs, hstep, hrun, _⟩ := run_cons_eq_some s op ops rets s1 h
    exact ih s2 rs hrun ((step_config s op r s2 hstep).1 hc)

theorem step_single_sender (n S : Nat) (hn2 : 2 ≤ n) (hn : n ≤ 31) (hS : S < n)
    (s : ComLynx) (hmask : s.s_read_receipt_complete = 2 ^ n - 1)
    (hinv : SingleSenderInv n S s.buffer_) (op : Op) (r : Ret) (s1 : ComLynx)
    (h : step s op = some (r, s1)) (hsend : ∀ p d, op = Op.Send p d → p = S)
    (hrecv : ∀ p, op = Op.Recv p → p < n) : SingleSenderInv n S s1.buffer_ := by
  by_cases hs : ∃ p d, op = Op.Send p d
  · obtain ⟨p, d, rfl⟩ := hs
    have hp : p = S := hsend p d rfl
    subst hp
    simp only [step, Option.map_eq_some'] at h
    obtain ⟨r2, h2, h3⟩ := h
    simp only [Prod.mk.injEq] at h3
    rw [← h3.2]
    have hc := Send_configured s p d r2.1 r2.2 h2
    by_cases hlen : s.buffer_.length < 32
    · rw [Send_accept s p d hc hlen] at h2
      simp only [Option.some.injEq] at h2
      rw [← h2]
      exact SingleSenderInv_send n p hn2 hS (by omega) _ d _ hinv
    · rw [Send_reject s p d hc (by omega)] at h2
      simp only [Option.some.injEq] at h2
      rw [← h2]
      exact hinv
  · by_cases hr : ∃ p, op = Op.Recv p
    · obtain ⟨p, rfl⟩ := hr
      have hp : p < n := hrecv p rfl
      simp only [step, Option.map_eq_some'] at h
      obtain ⟨r2, h2, h3⟩ := h
      simp only [Prod.mk.injEq] at h3
      rw [← h3.2]
      have hc : s.configured_ = true := by
        by_contra hc
        simp [ComLynx.Recv, hc] at h2
      cases hf : ComLynx.firstUnread p s.buffer_ with
      | none =>
        rw [(Recv_eq_none_iff s p hc).mpr ((firstUnread_eq_none_iff p _).mp hf)] at h2
        exact Option.noConfusion h2
      | some i =>
        obtain ⟨pre, m, post, hb, _, hpre, hm⟩ := firstUnread_split p _ i hf
        rw [Recv_of_split s p pre m post hc hb hpre hm] at h2
        simp only [Option.some.injEq] at h2
        rw [← h2, hmask]
        rw [hb] at hinv
        exact SingleSenderInv_recv n S p hn hp pre m post hinv hpre
    · rw [(step_static s op r s1 h).2.2 (fun p d e => hs ⟨p, d, e⟩) (fun p e => hr ⟨p, e⟩)]
      exact hinv

theorem run_single_sender (n S : Nat) (hn2 : 2 ≤ n) (hn : n ≤ 31) (hS : S < n)
    (ops : List Op) (hsend : ∀ p d, Op.Send p d ∈ ops → p = S)
    (hrecv : ∀ p, Op.Recv p ∈ ops → p < n) (s : ComLynx)
    (hmask : s.s_read_receipt_complete = 2 ^ n - 1) (hinv : SingleSenderInv n S s.buffer_)
    (rets : List Ret) (s1 : ComLynx) (h : run s ops = some (rets, s1)) :
    SingleSenderInv n S s1.buffer_ := by
  induction ops generalizing s rets with
  | nil =>
    simp only [run, Option.some.injEq, Prod.mk.injEq] at h
    rw [← h.2]
    exact hinv
  | cons op ops ih =>
    obtain ⟨r, s2, rs, hstep, hrun, _⟩ := run_cons_eq_some s op ops rets s1 h
    have h2 := step_single_sender n S hn2 hn hS s hmask hinv op r s2 hstep
      (fun p d e => hsend p d (e ▸ List.mem_cons_self _ _))
      (fun p e => hrecv p (e ▸ List.mem_cons_self _ _))
    exact ih (fun p d hm => hsend p d (List.mem_cons_of_mem _ hm))
      (fun p hm => hrecv p (List.mem_cons_of_mem _ hm)) s2
      (by rw [(step_static s op r s2 hstep).1, hmask]) h2 rs hrun

theorem run_append (s : ComLynx) (xs ys : List Op) (r1 : List Ret) (s1 : ComLynx)
    (r2 : List Ret) (s2 : ComLynx) (h1 : run s xs = some (r1, s1))
    (h2 : run s1 ys = some (r2, s2)) : run s (xs ++ ys) = some (r1 ++ r2, s2) := by
  induction xs generalizing s r1 with
  | nil =>
    simp only [run, Option.some.injEq, Prod.mk.injEq] at h1
    rw [← h1.1, h1.2]
    exact h2
  | cons op xs ih =>
    obtain ⟨r, s3, rs, hstep, hrun, hr⟩ := run_cons_eq_some s op xs r1 s1 h1
    subst hr
    have := ih s3 rs hrun
    show run s (op :: (xs ++ ys)) = some (r :: rs ++ r2, s2)
    simp only [run, hstep, this, List.cons_append]

/-- A run of `Send` calls by `S` that fits below the limit of 32 is accepted
call by call and appends the messages in order. -/
theorem run_sends_accept (S : Player) (bytes : List UBYTE) (s : ComLynx)
    (hc : s.configured_ = true) (hlen : s.buffer_.length + bytes.length ≤ 32) :
    run s (bytes.map (Op.Send S)) = some (List.replicate bytes.length (Ret.bool true),
      { s with
        buffer_ := s.buffer_ ++ bytes.map (fun d => ByteMessage.new S d (s.ParityFor d)) }) := by
  induction bytes generalizing s with
  | nil => simp [run]
  | cons d bytes ih =>
    have hl : s.buffer_.length < 32 := by
      simp only [List.length_cons] at hlen
      omega
    have hstep : step s (Op.Send S d) = some (Ret.bool true, { s with
        buffer_ := s.buffer_ ++ [ByteMessage.new S d (s.ParityFor d)] }) := by
      simp only [step, Send_accept s S d hc hl, Option.map_some']
    have hrest := ih ({ s with
        buffer_ := s.buffer_ ++ [ByteMessage.new S d (s.ParityFor d)] } : ComLynx) hc (by
      simp only [List.length_append, List.length_cons, List.length_nil] at hlen ⊢
      omega)
    simp only [List.map_cons, run, hstep, hrest, List.length_cons, List.replicate_succ]
    simp [ComLynx.ParityFor]

theorem pending_of_new (S q : Player) (hq : q < 32) (hne : S ≠ q) (par : UBYTE → Bool)
    (bytes : List UBYTE) :
    (unreadBy q (bytes.map (fun d => ByteMessage.new S d (par d)))).map (fun m => m.data)
      = bytes := by
  induction bytes with
  | nil => rfl
  | cons d bytes ih =>
    have h1 : (ByteMessage.new S d (par d)).HasRead q = false := by
      rw [ByteMessage.HasRead_new S d _ hq]
      exact decide_eq_false hne
    have h2 : (ByteMessage.new S d (par d)).data = d := rfl
    simp only [unreadBy] at ih ⊢
    simp only [List.map_cons, List.filter_cons, h1, Bool.not_false, if_true, h2, ih]

/-- A run of `Recv` calls never aborts as long as no player asks for more bytes
than are pending for it. -/
theorem run_recvs_total (recvs : List Player) (t : ComLynx) (hc : t.configured_ = true)
    (h : ∀ q ∈ recvs, q < 32 ∧ t.s_read_receipt_complete.testBit q = true ∧
      recvs.count q ≤ (pendingFor q t).length) :
    ∃ rets t1, run t (recvs.map Op.Recv) = some (rets, t1) := by
  induction recvs generalizing t with
  | nil => exact ⟨[], t, rfl⟩
  | cons q rest ih =>
    obtain ⟨hq32, hqbit, hqcount⟩ := h q (List.mem_cons_self _ _)
    have hne : pendingFor q t ≠ [] := by
      intro he
      rw [he, List.count_cons_self] at hqcount
      simp at hqcount
    have hex : ∃ m ∈ t.buffer_, m.HasRead q = false := by
      by_contra hno
      apply hne
      have hall : ∀ m ∈ t.buffer_, m.HasRead q = true := by
        intro m hm
        by_contra hr
        exact hno ⟨m, hm, by simpa using hr⟩
      simp [pendingFor, unreadBy_all_read q _ hall]
    obtain ⟨pre, m, post, hb, hpre, hm⟩ := exists_unread_split q t.buffer_ hex
    have hrecv := Recv_of_split t q pre m post hc hb hpre hm
    have hstep : step t (Op.Recv q) = some (Ret.byte m.data, { t with
        buffer_ := ComLynx.popFrontIfComplete t.s_read_receipt_complete
          (pre ++ m.MarkRead q :: post) }) := by
      simp only [step, hrecv, Option.map_some']
    obtain ⟨rets, t2, hrun⟩ := ih ({ t with
        buffer_ := ComLynx.popFrontIfComplete t.s_read_receipt_complete
          (pre ++ m.MarkRead q :: post) } : ComLynx) hc (by
      intro q1 hq1
      obtain ⟨h32, hbit, hcount⟩ := h q1 (List.mem_cons_of_mem _ hq1)
      refine ⟨h32, hbit, ?_⟩
      have hp := step_pending q1 h32 t hbit (Op.Recv q) (Ret.byte m.data) _ hstep
      have hlen := congrArg List.length hp
      by_cases hqq : q = q1
      · subst hqq
        rw [List.count_cons_self] at hcount
        simp only [sentByOthers, receivedBy, if_true, List.append_nil, List.length_append,
          List.length_cons, List.length_nil] at hlen
        omega
      · rw [List.count_cons_of_ne (Ne.symm hqq)] at hcount
        simp only [sentByOthers, receivedBy, hqq, if_false, List.append_nil,
          List.nil_append] at hlen
        omega)
    exact ⟨Ret.byte m.data :: rets, t2, by simp only [List.map_cons, run, hstep, hrun]⟩

theorem run_sends_then (S : Player) (bytes : List UBYTE) (s : ComLynx)
    (hc : s.configured_ = true) (hb : s.buffer_ = []) (hlen : bytes.length ≤ 32) :
    ∃ t, run s (bytes.map (Op.Send S)) =
        some (List.replicate bytes.length (Ret.bool true), t) ∧
      t.configured_ = true ∧ t.s_read_receipt_complete = s.s_read_receipt_complete ∧
      ∀ q, q < 32 → q ≠ S → (pendingFor q t).length = bytes.length := by
  refine ⟨_, run_sends_accept S bytes s hc (by rw [hb]; simpa using hlen), hc, rfl, ?_⟩
  intro q hq hqS
  have hp := pending_of_new S q hq (Ne.symm hqS) (fun d => s.ParityFor d) bytes
  show ((unreadBy q (s.buffer_ ++ bytes.map _)).map _).length = bytes.length
  rw [hb, List.nil_append, hp]

/-- C16 (single sender, the buffer drains). On a bus constructed for `n` players
(`2 ≤ n ≤ 31`) and configured, consider any run that returned, in which every
`Send` is by `S` and every `Recv` is by a player below `n`. If every player
other than `S` has received all accepted bytes, the buffer is empty,
`IsTxEmpty(S)` is true and `IsRxReady` is false for every player. If some player
other than `S` has not yet received all accepted bytes, `IsTxEmpty(S)` is false.
And the scenario itself never aborts: at most 32 `Send` calls by `S` followed by
`Recv` calls of the other players in any order, none asking for more bytes than
were sent, run to completion with every `Send` accepted. -/
theorem C16_single_sender_drains (n S : Nat) (hn2 : 2 ≤ n) (hn : n ≤ 31) (hS : S < n)
    (enable_parity even_parity : Bool) (ops : List Op) (rets : List Ret) (s1 : ComLynx)
    (hrun : run ((ComLynx.new n).Configure enable_parity even_parity) ops = some (rets, s1))
    (hsend : ∀ p d, Op.Send p d ∈ ops → p = S) (hrecv : ∀ p, Op.Recv p ∈ ops → p < n) :
    ((∀ q, q < n → q ≠ S → receivedBy q ops rets = sentAccepted ops rets) →
      s1.buffer_ = [] ∧ s1.IsTxEmpty S = some true ∧
      ∀ p, s1.IsRxReady p = some (false, s1)) ∧
    ((∃ q, q < n ∧ q ≠ S ∧ receivedBy q ops rets ≠ sentAccepted ops rets) →
      s1.IsTxEmpty S = some false) ∧
    (∀ (bytes : List UBYTE) (recvs : List Player), bytes.length ≤ 32 →
      (∀ q ∈ recvs, q < n ∧ q ≠ S) → (∀ q, recvs.count q ≤ bytes.length) →
      ∃ rets2 s2, run ((ComLynx.new n).Configure enable_parity even_parity)
          (bytes.map (Op.Send S) ++ recvs.map Op.Recv) =
        some (List.replicate bytes.length (Ret.bool true) ++ rets2, s2)) := by
  have hmask0 : ((ComLynx.new n).Configure enable_parity even_parity).s_read_receipt_complete
      = 2 ^ n - 1 := ComLynx.new_complete hn
  have hbit : ∀ q, q < n → (2 ^ n - 1).testBit q = true := by
    intro q hq
    rw [Nat.testBit_two_pow_sub_one]
    exact decide_eq_true hq
  have hinv := run_single_sender n S hn2 hn hS ops hsend hrecv _ hmask0
    (SingleSenderInv_nil n S) rets s1 hrun
  have hc1 : s1.configured_ = true := run_configured _ ops rets s1 hrun rfl
  have hpend : ∀ q, q < n → q ≠ S →
      receivedBy q ops rets ++ pendingFor q s1 = sentAccepted ops rets := by
    intro q hq hqS
    have h1 := run_pending q (show q < 32 by omega) _ (by rw [hmask0]; exact hbit q hq)
      ops rets s1 hrun
    rw [(sentByOthers_of_only_sender S ops hsend rets).2 q (Ne.symm hqS)] at h1
    rw [← h1]
    rfl
  have hempty : s1.IsTxEmpty S = some (s1.buffer_.all (fun msg => msg.sender != S)) := by
    unfold ComLynx.IsTxEmpty
    simp only [hc1, Bool.not_true, Bool.false_eq_true, if_false]
  refine ⟨?_, ?_, ?_⟩
  · intro hall
    have hbuf : s1.buffer_ = [] := by
      apply SingleSenderInv_drained n S _ hinv
      intro q hq hqS m hm
      have h1 := hpend q hq hqS
      rw [hall q hq hqS] at h1
      have h2 : pendingFor q s1 = [] := List.append_right_eq_self.mp h1
      have h3 : unreadBy q s1.buffer_ = [] := List.map_eq_nil_iff.mp h2
      rw [← ByteMessage.HasRead_eq_testBit m (show q < 32 by omega)]
      have h4 := List.filter_eq_nil_iff.mp h3 m hm
      simpa using h4
    refine ⟨hbuf, ?_, fun p => ?_⟩
    · rw [hempty, hbuf]
      rfl
    · exact IsRxReady_of_all_read s1 p hc1 (by
        rw [hbuf]
        exact fun _ h => absurd h (List.not_mem_nil _))
  · rintro ⟨q, hq, hqS, hne⟩
    have h1 := hpend q hq hqS
    have h2 : pendingFor q s1 ≠ [] := by
      intro he
      rw [he, List.append_nil] at h1
      exact hne h1
    have h3 : unreadBy q s1.buffer_ ≠ [] := fun he => h2 (by rw [pendingFor, he]; rfl)
    obtain ⟨m, hm⟩ := List.exists_mem_of_ne_nil _ h3
    have hmb : m ∈ s1.buffer_ := (List.mem_filter.mp hm).1
    have hms := (hinv.1 m hmb).1
    rw [hempty]
    exact congrArg some (List.all_eq_false.mpr ⟨m, hmb, by simp [hms]⟩)
  · intro bytes recvs hlen hrecvs hcount
    obtain ⟨t, hsends, htc, htmask, htpend⟩ := run_sends_then S bytes
      ((ComLynx.new n).Configure enable_parity even_parity) rfl rfl hlen
    obtain ⟨rets2, s2, h2⟩ := run_recvs_total recvs t htc (by
      intro q hq
      obtain ⟨hqn, hqS⟩ := hrecvs q hq
      have hq32 : q < 32 := Nat.lt_of_lt_of_le hqn (Nat.le_succ_of_le hn)
      refine ⟨hq32, by rw [htmask, hmask0]; exact hbit q hqn, ?_⟩
      rw [htpend q hq32 hqS]
      exact hcount q)
    exact ⟨rets2, s2, run_append _ _ _ _ _ _ _ hsends h2⟩

/-- C16 at a concrete run, the round of the three-player test: player 0 sends
`'A'` and `'B'`, players 1 and 2 each receive both; the bus is back in its
initial configured state. -/
theorem C16_single_sender_drains_witness :
    (2 ≤ 3 ∧ 3 ≤ 31 ∧ 0 < 3 ∧
      run ((ComLynx.new 3).Configure true false)
          [Op.Send 0 65, Op.Send 0 66, Op.Recv 1, Op.Recv 2, Op.Recv 1, Op.Recv 2] =
        some ([Ret.bool true, Ret.bool true, Ret.byte 65, Ret.byte 65, Ret.byte 66,
          Ret.byte 66], (ComLynx.new 3).Configure true false)) ∧
    ((ComLynx.new 3).Configure true false).buffer_ = [] ∧
    ((ComLynx.new 3).Configure true false).IsTxEmpty 0 = some true ∧
    ∀ p, ((ComLynx.new 3).Configure true false).IsRxReady p =
      some (false, (ComLynx.new 3).Configure true false) :=
  ⟨⟨by decide, by decide, by decide, rfl⟩,
    (C16_single_sender_drains 3 0 (by decide) (by decide) (by decide) true false
      [Op.Send 0 65, Op.Send 0 66, Op.Recv 1, Op.Recv 2, Op.Recv 1, Op.Recv 2]
      [Ret.bool true, Ret.bool true, Ret.byte 65, Ret.byte 65, Ret.byte 66, Ret.byte 66]
      ((ComLynx.new 3).Configure true false) rfl
      (fun p d h => by
        simp only [List.mem_cons, Op.Send.injEq, reduceCtorEq, List.mem_singleton,
          or_false, List.not_mem_nil] at h
        rcases h with h | h <;> exact h.1)
      (fun p h => by
        simp only [List.mem_cons, Op.Recv.injEq, reduceCtorEq, List.mem_singleton,
          false_or, List.not_mem_nil, or_false] at h
        rcases h with h | h | h | h <;> rw [h] <;> decide)).1
      (fun q hq hq0 => by
        interval_cases q
        · exact absurd rfl hq0
        · rfl
        · rfl)⟩

/-! ## What one call does to the buffer -/

/-- One call leaves the buffer as it is, or appends the new message of an
accepted `Send`, or is a `Recv` that marks the first unread message and then
possibly pops the front. -/
theorem step_buffer (s : ComLynx) (op : Op) (r : Ret) (s1 : ComLynx)
    (h : step s op = some (r, s1)) :
    s1.buffer_ = s.buffer_ ∨
    (∃ p d, op = Op.Send p d ∧ s.buffer_.length < 32 ∧
      s1.buffer_ = s.buffer_ ++ [ByteMessage.new p d (s.ParityFor d)]) ∨
    (∃ p pre m post, op = Op.Recv p ∧ s.buffer_ = pre ++ m :: post ∧
      (∀ x ∈ pre, x.HasRead p = true) ∧ m.HasRead p = false ∧
      s1.buffer_ = ComLynx.popFrontIfComplete s.s_read_receipt_complete
        (pre ++ m.MarkRead p :: post)) := by
  by_cases hs : ∃ p d, op = Op.Send p d
  · obtain ⟨p, d, rfl⟩ := hs
    simp only [step, Option.map_eq_some'] at h
    obtain ⟨r2, h2, h3⟩ := h
    simp only [Prod.mk.injEq] at h3
    rw [← h3.2]
    have hc := Send_configured s p d r2.1 r2.2 h2
    by_cases hlen : s.buffer_.length < 32
    · rw [Send_accept s p d hc hlen] at h2
      simp only [Option.some.injEq] at h2
      rw [← h2]
      exact Or.inr (Or.inl ⟨p, d, rfl, hlen, rfl⟩)
    · rw [Send_reject s p d hc (by omega)] at h2
      simp only [Option.some.injEq] at h2
      rw [← h2]
      exact Or.inl rfl
  · by_cases hr : ∃ p, op = Op.Recv p
    · obtain ⟨p, rfl⟩ := hr
      simp only [step, Option.map_eq_some'] at h
      obtain ⟨r2, h2, h3⟩ := h
      simp only [Prod.mk.injEq] at h3
      rw [← h3.2]
      have hc : s.configured_ = true := by
        by_contra hc
        simp [ComLynx.Recv, hc] at h2
      cases hf : ComLynx.firstUnread p s.buffer_ with
      | none =>
        rw [(Recv_eq_none_iff s p hc).mpr ((firstUnread_eq_none_iff p _).mp hf)] at h2
        exact Option.noConfusion h2
      | some i =>
        obtain ⟨pre, m, post, hb, _, hpre, hm⟩ := firstUnread_split p _ i hf
        rw [Recv_of_split s p pre m post hc hb hpre hm] at h2
        simp only [Option.some.injEq] at h2
        rw [← h2]
        exact Or.inr (Or.inr ⟨p, pre, m, post, rfl, hb, hpre, hm, rfl⟩)
    · exact Or.inl ((step_static s op r s1 h).2.2 (fun p d e => hs ⟨p, d, e⟩)
        (fun p e => hr ⟨p, e⟩))

theorem popFrontIfComplete_length_le (c : ReadReceipt) (l : List ByteMessage) :
    (ComLynx.popFrontIfComplete c l).length ≤ l.length := by
  cases l with
  | nil => exact Nat.le_refl _
  | cons a l =>
    simp only [ComLynx.popFrontIfComplete]
    split
    · exact Nat.le_succ _
    · exact Nat.le_refl _

theorem mem_of_mem_popFrontIfComplete (c : ReadReceipt) (l : List ByteMessage)
    (x : ByteMessage) (h : x ∈ ComLynx.popFrontIfComplete c l) : x ∈ l := by
  cases l with
  | nil => exact h
  | cons a l =>
    simp only [ComLynx.popFrontIfComplete] at h
    split at h
    · exact List.mem_cons_of_mem _ h
    · exact h

theorem step_length_le (s : ComLynx) (op : Op) (r : Ret) (s1 : ComLynx)
    (h : step s op = some (r, s1)) (hl : s.buffer_.length ≤ 32) :
    s1.buffer_.length ≤ 32 := by
  rcases step_buffer s op r s1 h with h1 | ⟨p, d, _, hlt, h1⟩ | ⟨p, pre, m, post, _, hb, _, _, h1⟩
  · rw [h1]
    exact hl
  · rw [h1, List.length_append]
    exact hlt
  · rw [h1]
    refine Nat.le_trans (popFrontIfComplete_length_le _ _) ?_
    rw [hb] at hl
    simpa using hl

/-- C26 (capacity). In every state reached from a freshly constructed bus by a
sequence of public operations the buffer holds at most 32 messages. -/
theorem C26_buffer_at_most_32 (n : Nat) (ops : List Op) (rets : List Ret) (s : ComLynx)
    (hrun : run (ComLynx.new n) ops = some (rets, s)) : s.buffer_.length ≤ 32 := by
  have key : ∀ (ops : List Op) (t : ComLynx) (rets : List Ret) (t1 : ComLynx),
      run t ops = some (rets, t1) → t.buffer_.length ≤ 32 → t1.buffer_.length ≤ 32 := by
    intro ops
    induction ops with
    | nil =>
      intro t rets t1 h hl
      simp only [run, Option.some.injEq, Prod.mk.injEq] at h
      rw [← h.2]
      exact hl
    | cons op ops ih =>
      intro t rets t1 h hl
      obtain ⟨r, t2, rs, hstep, hrun2, _⟩ := run_cons_eq_some t op ops rets t1 h
      exact ih t2 rs t1 hrun2 (step_length_le t op r t2 hstep hl)
  exact key ops _ rets s hrun (Nat.zero_le _)

/-- C26 at a concrete run: 33 `Send` calls on a two-player bus leave exactly 32
messages in the buffer. -/
theorem C26_buffer_at_most_32_witness :
    run (ComLynx.new 2)
        (Op.ConfigureParityConfig ParityConfig.kOdd :: List.replicate 33 (Op.Send 0 65)) =
      some (Ret.void :: (List.replicate 32 (Ret.bool true) ++ [Ret.bool false]),
        { twoPlayerBus (List.replicate 32 ⟨0, 65, true, 1⟩) with
          errors_ := [{ overrun := true }, {}] }) ∧
    ({ twoPlayerBus (List.replicate 32 ⟨0, 65, true, 1⟩) with
        errors_ := [{ overrun := true }, {}] } : ComLynx).buffer_.length ≤ 32 :=
  ⟨by decide, C26_buffer_at_most_32 2
    (Op.ConfigureParityConfig ParityConfig.kOdd :: List.replicate 33 (Op.Send 0 65))
    (Ret.void :: (List.replicate 32 (Ret.bool true) ++ [Ret.bool false]))
    { twoPlayerBus (List.replicate 32 ⟨0, 65, true, 1⟩) with
      errors_ := [{ overrun := true }, {}] } (by decide)⟩

/-! ## Read receipts only grow -/

theorem ReceiptGrows_refl (a : ByteMessage) : ReceiptGrows a a :=
  ⟨rfl, rfl, rfl, fun _ h => h⟩

theorem ReceiptGrows_MarkRead (a : ByteMessage) (p : Player) : ReceiptGrows a (a.MarkRead p) := by
  refine ⟨rfl, rfl, rfl, fun i h => ?_⟩
  show (a.read_receipt ||| PlayerBit p).testBit i = true
  rw [Nat.testBit_or, h]
  rfl

theorem Forall₂_popFrontIfComplete (c : ReadReceipt) (l l1 : List ByteMessage)
    (h : List.Forall₂ ReceiptGrows l l1) :
    ∃ dropped old, l = dropped ++ old ∧ dropped.length ≤ 1 ∧
      List.Forall₂ ReceiptGrows old (ComLynx.popFrontIfComplete c l1) := by
  cases h with
  | nil => exact ⟨[], [], rfl, Nat.zero_le _, List.Forall₂.nil⟩
  | cons hab hrest =>
    rename_i a b l2 l3
    simp only [ComLynx.popFrontIfComplete]
    split
    · exact ⟨[a], l2, rfl, Nat.le_refl _, hrest⟩
    · exact ⟨[], a :: l2, rfl, Nat.zero_le _, List.Forall₂.cons hab hrest⟩

/-- C24 (read receipts are monotone). One call drops at most one message from
the front of the buffer and appends at most one at the back; every message in
between is in the buffer before and after the call, at the same place, with
the same sender, payload and parity, and every read bit it had before the call
is still set after it. A message is dropped only by `Recv` and appended only
by `Send`. -/
theorem C24_read_receipt_monotone (s : ComLynx) (op : Op) (r : Ret) (s1 : ComLynx)
    (h : step s op = some (r, s1)) :
    ∃ dropped old kept added,
      s.buffer_ = dropped ++ old ∧ s1.buffer_ = kept ++ added ∧
      dropped.length ≤ 1 ∧ added.length ≤ 1 ∧
      List.Forall₂ ReceiptGrows old kept ∧
      (dropped ≠ [] → ∃ p, op = Op.Recv p) ∧
      (added ≠ [] → ∃ p d, op = Op.Send p d) := by
  rcases step_buffer s op r s1 h with h1 | ⟨p, d, hop, _, h1⟩ | ⟨p, pre, m, post, hop, hb, _, _, h1⟩
  · exact ⟨[], s.buffer_, s.buffer_, [], rfl, by rw [h1, List.append_nil], Nat.zero_le _,
      Nat.zero_le _, List.forall₂_same.mpr (fun x _ => ReceiptGrows_refl x),
      fun hd => absurd rfl hd, fun hd => absurd rfl hd⟩
  · exact ⟨[], s.buffer_, s.buffer_, [ByteMessage.new p d (s.ParityFor d)], rfl, h1,
      Nat.zero_le _, Nat.le_refl _, List.forall₂_same.mpr (fun x _ => ReceiptGrows_refl x),
      fun hd => absurd rfl hd, fun _ => ⟨p, d, hop⟩⟩
  · have hall : List.Forall₂ ReceiptGrows (pre ++ m :: post) (pre ++ m.MarkRead p :: post) :=
      List.rel_append (List.forall₂_same.mpr (fun x _ => ReceiptGrows_refl x))
        (List.Forall₂.cons (ReceiptGrows_MarkRead m p)
          (List.forall₂_same.mpr (fun x _ => ReceiptGrows_refl x)))
    obtain ⟨dropped, old, hsplit, hlen, hf⟩ :=
      Forall₂_popFrontIfComplete s.s_read_receipt_complete _ _ hall
    refine ⟨dropped, old, s1.buffer_, [], ?_, (List.append_nil _).symm, hlen, Nat.zero_le _, ?_,
      fun _ => ⟨p, hop⟩, fun hd => absurd rfl hd⟩
    · rw [hb, hsplit]
    · rw [h1]
      exact hf

/-- C24 at a concrete call: player 1 receives on a two-player bus holding two
messages of player 0; the first message becomes complete and is dropped, the
second stays as it was. -/
theorem C24_read_receipt_monotone_witness :
    step (twoPlayerBus [⟨0, 65, true, 1⟩, ⟨0, 66, true, 1⟩]) (Op.Recv 1) =
      some (Ret.byte 65, twoPlayerBus [⟨0, 66, true, 1⟩]) ∧
    ∃ dropped old kept added,
      (twoPlayerBus [⟨0, 65, true, 1⟩, ⟨0, 66, true, 1⟩]).buffer_ = dropped ++ old ∧
      (twoPlayerBus [⟨0, 66, true, 1⟩]).buffer_ = kept ++ added ∧
      dropped.length ≤ 1 ∧ added.length ≤ 1 ∧
      List.Forall₂ ReceiptGrows old kept ∧
      (dropped ≠ [] → ∃ p, Op.Recv 1 = Op.Recv p) ∧
      (added ≠ [] → ∃ p d, Op.Recv 1 = Op.Send p d) :=
  ⟨by decide, C24_read_receipt_monotone (twoPlayerBus [⟨0, 65, true, 1⟩, ⟨0, 66, true, 1⟩])
    (Op.Recv 1) (Ret.byte 65) (twoPlayerBus [⟨0, 66, true, 1⟩]) (by decide)⟩

/-! ## The sender has always read its own message -/

theorem SenderMarked_new (n : Nat) (hn : n ≤ 31) (p : Nat) (d : UBYTE) (par : Bool)
    (hp : p < n) : SenderMarked n (ByteMessage.new p d par) := by
  have hp32 : p < 32 := by omega
  have hr : (ByteMessage.new p d par).read_receipt = 2 ^ p := new_read_receipt p d par hp32
  refine ⟨hp, ?_, ?_⟩
  · rw [hr]
    show (2 ^ p).testBit p = true
    rw [Nat.testBit_two_pow]
    exact decide_eq_true rfl
  · intro i hi
    rw [hr, Nat.testBit_two_pow] at hi
    have : p = i := of_decide_eq_true hi
    omega

theorem SenderMarked_MarkRead (n : Nat) (hn : n ≤ 31) (m : ByteMessage) (p : Nat)
    (hp : p < n) (hm : SenderMarked n m) : SenderMarked n (m.MarkRead p) := by
  have hp32 : p < 32 := by omega
  refine ⟨hm.1, ?_, ?_⟩
  · show (m.MarkRead p).read_receipt.testBit m.sender = true
    rw [MarkRead_testBit m p hp32, hm.2.1]
    rfl
  · intro i hi
    rw [MarkRead_testBit m p hp32] at hi
    rcases Bool.or_eq_true _ _ ▸ hi with h1 | h1
    · exact hm.2.2 i h1
    · have : p = i := of_decide_eq_true h1
      omega

theorem step_sender_marked (n : Nat) (hn : n ≤ 31) (s : ComLynx) (op : Op) (r : Ret)
    (s1 : ComLynx) (h : step s op = some (r, s1))
    (hop : ∀ p, op.player = some p → p < n)
    (hinv : ∀ m ∈ s.buffer_, SenderMarked n m) : ∀ m ∈ s1.buffer_, SenderMarked n m := by
  rcases step_buffer s op r s1 h with h1 | ⟨p, d, hp, _, h1⟩ | ⟨p, pre, m, post, hp, hb, _, _, h1⟩
  · rw [h1]
    exact hinv
  · have hpn : p < n := hop p (by rw [hp]; rfl)
    intro x hx
    rw [h1, List.mem_append, List.mem_singleton] at hx
    rcases hx with hx | hx
    · exact hinv x hx
    · rw [hx]
      exact SenderMarked_new n hn p d _ hpn
  · have hpn : p < n := hop p (by rw [hp]; rfl)
    intro x hx
    rw [h1] at hx
    have hx2 := mem_of_mem_popFrontIfComplete _ _ x hx
    rw [List.mem_append, List.mem_cons] at hx2
    rcases hx2 with hx2 | hx2 | hx2
    · exact hinv x (by rw [hb]; exact List.mem_append_left _ hx2)
    · rw [hx2]
      exact SenderMarked_MarkRead n hn m p hpn
        (hinv m (by rw [hb]; exact List.mem_append_right _ (List.mem_cons_self _ _)))
    · exact hinv x (by rw [hb]; exact List.mem_append_right _ (List.mem_cons_of_mem _ hx2))

theorem run_sender_marked (n : Nat) (hn : n ≤ 31) (ops : List Op) :
    ∀ (s : ComLynx) (rets : List Ret) (s1 : ComLynx), run s ops = some (rets, s1) →
      (∀ op ∈ ops, ∀ p, op.player = some p → p < n) →
      (∀ m ∈ s.buffer_, SenderMarked n m) → ∀ m ∈ s1.buffer_, SenderMarked n m := by
  induction ops with
  | nil =>
    intro s rets s1 h _ hinv
    simp only [run, Option.some.injEq, Prod.mk.injEq] at h
    rw [← h.2]
    exact hinv
  | cons op ops ih =>
    intro s rets s1 h hops hinv
    obtain ⟨r, s2, rs, hstep, hrun2, _⟩ := run_cons_eq_some s op ops rets s1 h
    exact ih s2 rs s1 hrun2 (fun o ho => hops o (List.mem_cons_of_mem _ ho))
      (step_sender_marked n hn s op r s2 hstep (hops op (List.mem_cons_self _ _)) hinv)

/-- A `Send` by `p` does not change what `IsRxReady p` returns. -/
theorem Send_IsRxReady_same (s : ComLynx) (p : Nat) (hp : p < 32) (d : UBYTE) (b : Bool)
    (s1 : ComLynx) (h : s.Send p d = some (b, s1)) :
    (s1.IsRxReady p).map Prod.fst = (s.IsRxReady p).map Prod.fst := by
  have hc := Send_configured s p d b s1 h
  have hc1 := (Send_result s p d b s1 h).2.2
  obtain ⟨b0, t0, h0, hb0, _⟩ := IsRxReady_total s p hc
  obtain ⟨b1, t1, h1, hb1, _⟩ := IsRxReady_total s1 p hc1
  rw [h0, h1]
  show some b1 = some b0
  have hiff : (∃ m ∈ s1.buffer_, m.HasRead p = false) ↔ (∃ m ∈ s.buffer_, m.HasRead p = false) := by
    by_cases hlen : s.buffer_.length < 32
    · rw [Send_accept s p d hc hlen] at h
      simp only [Option.some.injEq, Prod.mk.injEq] at h
      rw [← h.2]
      show (∃ m ∈ s.buffer_ ++ [ByteMessage.new p d (s.ParityFor d)], m.HasRead p = false) ↔ _
      constructor
      · rintro ⟨m, hm, hr⟩
        rw [List.mem_append, List.mem_singleton] at hm
        rcases hm with hm | hm
        · exact ⟨m, hm, hr⟩
        · rw [hm, ByteMessage.HasRead_new p d _ hp] at hr
          exact absurd hr (by simp)
      · rintro ⟨m, hm, hr⟩
        exact ⟨m, List.mem_append_left _ hm, hr⟩
    · rw [Send_reject s p d hc (by omega)] at h
      simp only [Option.some.injEq, Prod.mk.injEq] at h
      rw [← h.2]
  have : b1 = b0 := by
    rw [Bool.eq_iff_iff, hb1, hb0]
    exact hiff
  rw [this]

/-- C27 (the sender has read its own message). In a state reached from a fresh
bus of `n` players, `n ≤ 31`, by calls whose node argument is below `n`,
every buffered message has the bit of its sender set in its receipt and no bit
at position `n` or above, so its receipt is a part of the all-nodes mask
`2 ^ n - 1`; a message that a node has not read was not sent by that node; and
a `Send` by node `p` leaves the value returned by `IsRxReady p` as it was. -/
theorem C27_sender_bit_set (n : Nat) (hn : n ≤ 31) (ops : List Op)
    (rets : List Ret) (s : ComLynx)
    (hops : ∀ op ∈ ops, ∀ p, op.player = some p → p < n)
    (hrun : run (ComLynx.new n) ops = some (rets, s)) :
    s.s_read_receipt_complete = 2 ^ n - 1 ∧
    (∀ m ∈ s.buffer_, m.sender < n ∧ m.read_receipt.testBit m.sender = true ∧
      m.HasRead m.sender = true ∧
      (∀ i, m.read_receipt.testBit i = true → i < n) ∧
      m.read_receipt &&& s.s_read_receipt_complete = m.read_receipt) ∧
    (∀ p, ∀ m ∈ s.buffer_, m.HasRead p = false → m.sender ≠ p) ∧
    (∀ p, p < n → ∀ d b s1, s.Send p d = some (b, s1) →
      (s1.IsRxReady p).map Prod.fst = (s.IsRxReady p).map Prod.fst) := by
  have hinv : ∀ m ∈ s.buffer_, SenderMarked n m :=
    run_sender_marked n hn ops (ComLynx.new n) rets s hrun hops
      (fun m hm => absurd hm (List.not_mem_nil m))
  have hmask : s.s_read_receipt_complete = 2 ^ n - 1 := by
    rw [(run_static _ ops rets s hrun).1]
    exact ComLynx.new_complete hn
  have hown : ∀ m ∈ s.buffer_, m.HasRead m.sender = true := by
    intro m hm
    have h1 := hinv m hm
    have h32 : m.sender < 32 := Nat.lt_of_lt_of_le h1.1 (Nat.le_succ_of_le hn)
    rw [ByteMessage.HasRead_eq_testBit m h32]
    exact h1.2.1
  refine ⟨hmask, ?_, ?_, ?_⟩
  · intro m hm
    have h1 := hinv m hm
    refine ⟨h1.1, h1.2.1, hown m hm, h1.2.2, ?_⟩
    rw [hmask]
    apply Nat.eq_of_testBit_eq
    intro i
    rw [Nat.testBit_and, Nat.testBit_two_pow_sub_one]
    cases hb : m.read_receipt.testBit i with
    | false => rfl
    | true =>
      have := h1.2.2 i hb
      simp [this]
  · intro p m hm hr hsp
    have h2 := hown m hm
    rw [hsp, hr] at h2
    exact Bool.noConfusion h2
  · intro p hp d b s1 hs
    exact Send_IsRxReady_same s p (Nat.lt_of_lt_of_le hp (Nat.le_succ_of_le hn)) d b s1 hs

/-- C27 at a concrete run on a three-player bus. -/
theorem C27_sender_bit_set_witness :
    run (ComLynx.new 3)
        [Op.ConfigureParityConfig ParityConfig.kOdd, Op.Send 0 65, Op.Send 2 66, Op.Recv 1] =
      some ([Ret.void, Ret.bool true, Ret.bool true, Ret.byte 65],
        { (ComLynx.new 3).Configure true false with
          buffer_ := [⟨0, 65, true, 3⟩, ⟨2, 66, true, 4⟩] }) ∧
    ({ (ComLynx.new 3).Configure true false with
        buffer_ := [⟨0, 65, true, 3⟩, ⟨2, 66, true, 4⟩] } : ComLynx).s_read_receipt_complete =
      2 ^ 3 - 1 :=
  ⟨by decide, (C27_sender_bit_set 3 (by decide)
    [Op.ConfigureParityConfig ParityConfig.kOdd, Op.Send 0 65, Op.Send 2 66, Op.Recv 1]
    [Ret.void, Ret.bool true, Ret.bool true, Ret.byte 65]
    { (ComLynx.new 3).Configure true false with
      buffer_ := [⟨0, 65, true, 3⟩, ⟨2, 66, true, 4⟩] }
    (by decide) (by decide)).1⟩

/-! ## Parity of the buffered messages -/

/-- A property of sender, payload and parity that holds for every buffered
message and for the message a `Send` would append holds for every buffered
message after the call. -/
theorem step_buffer_forall (P : Player → UBYTE → Bool → Prop) (s : ComLynx) (op : Op) (r : Ret)
    (s1 : ComLynx) (h : step s op = some (r, s1))
    (hsend : ∀ p d, op = Op.Send p d → P p d (s.ParityFor d))
    (hinv : ∀ m ∈ s.buffer_, P m.sender m.data m.parity) :
    ∀ m ∈ s1.buffer_, P m.sender m.data m.parity := by
  rcases step_buffer s op r s1 h with h1 | ⟨p, d, hp, _, h1⟩ | ⟨p, pre, m, post, hp, hb, _, _, h1⟩
  · rw [h1]
    exact hinv
  · intro x hx
    rw [h1, List.mem_append, List.mem_singleton] at hx
    rcases hx with hx | hx
    · exact hinv x hx
    · rw [hx]
      exact hsend p d hp
  · intro x hx
    rw [h1] at hx
    have hx2 := mem_of_mem_popFrontIfComplete _ _ x hx
    rw [List.mem_append, List.mem_cons] at hx2
    rcases hx2 with hx2 | hx2 | hx2
    · exact hinv x (by rw [hb]; exact List.mem_append_left _ hx2)
    · rw [hx2]
      exact hinv m (by rw [hb]; exact List.mem_append_right _ (List.mem_cons_self _ _))
    · exact hinv x (by rw [hb]; exact List.mem_append_right _ (List.mem_cons_of_mem _ hx2))

/-- A property of the vector of error flags that survives setting an overrun
flag, clearing the flags of one player and every `IsRxReady` survives a call. -/
theorem step_errors_gen (Q : List Error → Prop) (s : ComLynx) (op : Op) (r : Ret)
    (s1 : ComLynx) (h : step s op = some (r, s1)) (hsame : Q s.errors_)
    (hover : ∀ p, Q (s.errors_.set p { (s.errors_.getD p default) with overrun := true }))
    (hreset : ∀ p, Q (s.errors_.set p (s.errors_.getD p default).Reset))
    (hrx : ∀ p b s2, s.IsRxReady p = some (b, s2) → Q s2.errors_) : Q s1.errors_ := by
  cases op with
  | Configure ep ev =>
    simp only [step, Option.some.injEq, Prod.mk.injEq] at h
    rw [← h.2]
    exact hsame
  | ConfigureParityConfig c =>
    simp only [step, Option.some.injEq, Prod.mk.injEq] at h
    rw [← h.2]
    cases c <;> exact hsame
  | EnableRxIRQ p v =>
    simp only [step, ComLynx.EnableRxIRQ, Option.map_eq_some'] at h
    obtain ⟨s2, h2, h3⟩ := h
    split at h2
    · exact Option.noConfusion h2
    · simp only [Option.some.injEq, Prod.mk.injEq] at h2 h3
      rw [← h3.2, ← h2]
      exact hsame
  | EnableTxIRQ p v =>
    simp only [step, ComLynx.EnableTxIRQ, Option.map_eq_some'] at h
    obtain ⟨s2, h2, h3⟩ := h
    split at h2
    · exact Option.noConfusion h2
    · simp only [Option.some.injEq, Prod.mk.injEq] at h2 h3
      rw [← h3.2, ← h2]
      exact hsame
  | Send p d =>
    simp only [step, Option.map_eq_some'] at h
    obtain ⟨r2, h2, h3⟩ := h
    simp only [Prod.mk.injEq] at h3
    rw [← h3.2]
    have hc := Send_configured s p d r2.1 r2.2 h2
    by_cases hlen : s.buffer_.length < 32
    · rw [Send_accept s p d hc hlen] at h2
      simp only [Option.some.injEq] at h2
      rw [← h2]
      exact hsame
    · rw [Send_reject s p d hc (by omega)] at h2
      simp only [Option.some.injEq] at h2
      rw [← h2]
      exact hover p
  | Recv p =>
    simp only [step, Option.map_eq_some'] at h
    obtain ⟨r2, h2, h3⟩ := h
    simp only [Prod.mk.injEq] at h3
    rw [← h3.2, Recv_errors s p r2.1 r2.2 h2]
    exact hsame
  | SendBreak =>
    simp only [step, ComLynx.SendBreak, Option.map_eq_some'] at h
    obtain ⟨s2, h2, h3⟩ := h
    split at h2
    · exact Option.noConfusion h2
    · simp only [Option.some.injEq, Prod.mk.injEq] at h2 h3
      rw [← h3.2, ← h2]
      exact hsame
  | IsRxReady p =>
    simp only [step, Option.map_eq_some'] at h
    obtain ⟨r2, h2, h3⟩ := h
    simp only [Prod.mk.injEq] at h3
    rw [← h3.2]
    exact hrx p r2.1 r2.2 h2
  | IsTxReady p reason =>
    simp only [step, Option.map_eq_some'] at h
    obtain ⟨r2, _, h3⟩ := h
    simp only [Prod.mk.injEq] at h3
    rw [← h3.2]
    exact hsame
  | IsTxEmpty p =>
    simp only [step, Option.map_eq_some'] at h
    obtain ⟨r2, _, h3⟩ := h
    simp only [Prod.mk.injEq] at h3
    rw [← h3.2]
    exact hsame
  | IsRxBrk p =>
    simp only [step, ComLynx.IsRxBrk, Option.map_eq_some'] at h
    obtain ⟨r2, h2, h3⟩ := h
    simp only [Prod.mk.injEq] at h3
    rw [← h3.2]
    split_ifs at h2 <;> simp only [Option.some.injEq] at h2 <;> rw [← h2] <;> exact hsame
  | IsIRQ p =>
    simp only [step, Option.map_eq_some'] at h
    obtain ⟨r2, h2, h3⟩ := h
    simp only [Prod.mk.injEq] at h3
    rw [← h3.2]
    rcases IsIRQ_cases s p r2.1 r2.2 h2 with h4 | ⟨b1, h4⟩
    · rw [h4]
      exact hsame
    · exact hrx p b1 r2.2 h4
  | HasFrameError p =>
    simp only [step, Option.map_eq_some'] at h
    obtain ⟨r2, _, h3⟩ := h
    simp only [Prod.mk.injEq] at h3
    rw [← h3.2]
    exact hsame
  | HasOverrunError p =>
    simp only [step, Option.map_eq_some'] at h
    obtain ⟨r2, _, h3⟩ := h
    simp only [Prod.mk.injEq] at h3
    rw [← h3.2]
    exact hsame
  | HasParityError p =>
    simp only [step, Option.map_eq_some'] at h
    obtain ⟨r2, _, h3⟩ := h
    simp only [Prod.mk.injEq] at h3
    rw [← h3.2]
    exact hsame
  | HasAnyError p =>
    simp only [step, Option.map_eq_some'] at h
    obtain ⟨r2, _, h3⟩ := h
    simp only [Prod.mk.injEq] at h3
    rw [← h3.2]
    exact hsame
  | ResetErrors p =>
    simp only [step, ComLynx.ResetErrors, Option.map_eq_some'] at h
    obtain ⟨s2, h2, h3⟩ := h
    split at h2
    · exact Option.noConfusion h2
    · simp only [Option.some.injEq, Prod.mk.injEq] at h2 h3
      rw [← h3.2, ← h2]
      exact hreset p
  | GetSERCTL p =>
    simp only [step, Option.map_eq_some'] at h
    obtain ⟨r2, h2, h3⟩ := h
    simp only [Prod.mk.injEq] at h3
    rw [← h3.2]
    obtain ⟨b1, h4⟩ := GetSERCTL_cases s p r2.1 r2.2 h2
    exact hrx p b1 r2.2 h4

/-- When every buffered message carries the parity that `IsRxReady` computes,
`IsRxReady` changes nothing. -/
theorem IsRxReady_match (s : ComLynx) (p : Player) (b : Bool) (s1 : ComLynx)
    (h : s.IsRxReady p = some (b, s1))
    (hinv : ∀ m ∈ s.buffer_, m.parity = CalculateParity s.even_parity_ m.data) : s1 = s := by
  have hc := (IsRxReady_cases s p b s1 h).1
  by_cases hex : ∃ m ∈ s.buffer_, m.HasRead p = false
  · obtain ⟨pre, m, post, hb, hpre, hm⟩ := exists_unread_split p _ hex
    rw [IsRxReady_of_split s p pre m post hc hb hpre hm] at h
    have hmem : m ∈ s.buffer_ := by
      rw [hb]
      exact List.mem_append_right _ (List.mem_cons_self _ _)
    have hne : (m.parity != CalculateParity s.even_parity_ m.data) = false := by
      rw [hinv m hmem]
      exact bne_self_eq_false _
    rw [hne] at h
    simp only [Option.some.injEq, Prod.mk.injEq, Bool.false_eq_true, if_false] at h
    exact h.2.symm
  · have hall : ∀ m ∈ s.buffer_, m.HasRead p = true := by
      intro m hm
      by_contra hr
      exact hex ⟨m, hm, by simpa using hr⟩
    rw [IsRxReady_of_all_read s p hc hall] at h
    simp only [Option.some.injEq, Prod.mk.injEq] at h
    exact h.2.symm

theorem getD_parity_set_overrun (l : List Error) (p q : Nat)
    (h : ∀ q, (l.getD q default).parity = false) :
    ((l.set p { (l.getD p default) with overrun := true }).getD q default).parity = false := by
  by_cases hqp : q = p
  · by_cases hlt : p < l.length
    · rw [hqp, getD_set_self l p _ default hlt]
      exact h p
    · rw [List.set_eq_of_length_le (Nat.le_of_not_lt hlt)]
      exact h q
  · rw [getD_set_ne l p q _ default hqp]
    exact h q

theorem getD_parity_set_reset (l : List Error) (p q : Nat)
    (h : ∀ q, (l.getD q default).parity = false) :
    ((l.set p (l.getD p default).Reset).getD q default).parity = false := by
  by_cases hqp : q = p
  · by_cases hlt : p < l.length
    · rw [hqp, getD_set_self l p _ default hlt]
      rfl
    · rw [List.set_eq_of_length_le (Nat.le_of_not_lt hlt)]
      exact h q
  · rw [getD_set_ne l p q _ default hqp]
    exact h q

theorem isConfigure_false (op : Op) (h : op.isConfigure = false) :
    (∀ ep e, op ≠ Op.Configure ep e) ∧ ∀ c, op ≠ Op.ConfigureParityConfig c := by
  constructor
  · intro ep e he
    rw [he] at h
    exact Bool.noConfusion h
  · intro c he
    rw [he] at h
    exact Bool.noConfusion h

/-- With parity enabled and no reconfiguration, a run keeps the configuration,
the agreement of every buffered message with its computed parity, and every
parity error flag clear. -/
theorem run_parity_enabled (ev : Bool) (ops : List Op) :
    ∀ (s : ComLynx) (rets : List Ret) (s1 : ComLynx), run s ops = some (rets, s1) →
      (∀ op ∈ ops, (∀ ep e, op ≠ Op.Configure ep e) ∧ ∀ c, op ≠ Op.ConfigureParityConfig c) →
      s.enable_parity_ = true → s.even_parity_ = ev →
      (∀ m ∈ s.buffer_, m.parity = CalculateParity ev m.data) →
      (∀ q, (s.errors_.getD q default).parity = false) →
      s1.enable_parity_ = true ∧ s1.even_parity_ = ev ∧
      (∀ m ∈ s1.buffer_, m.parity = CalculateParity ev m.data) ∧
      (∀ q, (s1.errors_.getD q default).parity = false) := by
  induction ops with
  | nil =>
    intro s rets s1 h _ hep hev hinv herr
    simp only [run, Option.some.injEq, Prod.mk.injEq] at h
    rw [← h.2]
    exact ⟨hep, hev, hinv, herr⟩
  | cons op ops ih =>
    intro s rets s1 h hops hep hev hinv herr
    obtain ⟨r, s2, rs, hstep, hrun2, _⟩ := run_cons_eq_some s op ops rets s1 h
    have hop := hops op (List.mem_cons_self _ _)
    have hcfg := (step_config s op r s2 hstep).2 hop.1 hop.2
    have hinv2 : ∀ m ∈ s2.buffer_, m.parity = CalculateParity ev m.data :=
      step_buffer_forall (fun _ d par => par = CalculateParity ev d) s op r s2 hstep
        (fun p d _ => by
          show s.ParityFor d = CalculateParity ev d
          simp only [ComLynx.ParityFor, hep, hev, if_true])
        hinv
    have herr2 : ∀ q, (s2.errors_.getD q default).parity = false :=
      step_errors_gen (fun l => ∀ q, (l.getD q default).parity = false) s op r s2 hstep herr
        (fun p q => getD_parity_set_overrun _ p q herr)
        (fun p q => getD_parity_set_reset _ p q herr)
        (fun p b t ht => by
          rw [IsRxReady_match s p b t ht (by rw [hev]; exact hinv)]
          exact herr)
    exact ih s2 rs s1 hrun2 (fun o ho => hops o (List.mem_cons_of_mem _ ho))
      (by rw [hcfg.2.1]; exact hep) (by rw [hcfg.2.2]; exact hev) hinv2 herr2

/-- C22 (no parity error with parity enabled). A bus of any size configured
once with parity enabled, Odd (`ev = false`) or Even (`ev = true`), and then
driven by any calls other than the two `Configure` members: in the state
reached every node has its parity error flag clear, `HasParityError` returns
false for every node, every buffered message carries the parity the receiver
computes, and a further `IsRxReady`, `IsIRQ` or `GetSERCTL` of any node that
returns leaves the flags as they are. -/
theorem C22_parity_enabled_no_parity_error (n : Nat) (ev : Bool) (ops : List Op)
    (rets : List Ret) (s : ComLynx)
    (hops : ∀ op ∈ ops, op.isConfigure = false)
    (hrun : run ((ComLynx.new n).Configure true ev) ops = some (rets, s)) :
    (∀ p, (s.errors_.getD p default).parity = false) ∧
    (∀ p, s.HasParityError p = some false) ∧
    (∀ m ∈ s.buffer_, m.parity = CalculateParity s.even_parity_ m.data) ∧
    (∀ p b s1, s.IsRxReady p = some (b, s1) → s1 = s) ∧
    (∀ p b s1, s.IsIRQ p = some (b, s1) → s1 = s) ∧
    (∀ p b s1, s.GetSERCTL p = some (b, s1) → s1 = s) := by
  have hnew : ∀ q, (((ComLynx.new n).Configure true ev).errors_.getD q default).parity = false := by
    intro q
    show ((List.replicate n ({} : Error)).getD q default).parity = false
    by_cases hq : q < n
    · rw [List.getD_eq_getElem _ _ (by rw [List.length_replicate]; exact hq)]
      simp
    · rw [List.getD_eq_default _ _ (by rw [List.length_replicate]; omega)]
      rfl
  obtain ⟨_, hev, hinv, herr⟩ := run_parity_enabled ev ops _ rets s hrun
    (fun op hop => isConfigure_false op (hops op hop)) rfl rfl
    (fun m hm => absurd hm (List.not_mem_nil m)) hnew
  have hc : s.configured_ = true := run_configured _ ops rets s hrun rfl
  have hinv2 : ∀ m ∈ s.buffer_, m.parity = CalculateParity s.even_parity_ m.data := by
    rw [hev]
    exact hinv
  refine ⟨herr, ?_, hinv2, ?_, ?_, ?_⟩
  · intro p
    simp only [ComLynx.HasParityError, hc, Bool.not_true, Bool.false_eq_true, if_false, herr p]
  · intro p b s1 h
    exact IsRxReady_match s p b s1 h hinv2
  · intro p b s1 h
    rcases IsIRQ_cases s p b s1 h with h1 | ⟨b1, h1⟩
    · exact h1
    · exact IsRxReady_match s p b1 s1 h1 hinv2
  · intro p b s1 h
    obtain ⟨b1, h1⟩ := GetSERCTL_cases s p b s1 h
    exact IsRxReady_match s p b1 s1 h1 hinv2

/-- C22 at a concrete run: the scenario of the Even-parity test of the
repository, with the receiver polling three times. -/
theorem C22_parity_enabled_no_parity_error_witness :
    run ((ComLynx.new 2).Configure true true)
        [Op.Send 0 0xAB, Op.IsRxReady 1, Op.IsIRQ 1, Op.GetSERCTL 1, Op.HasParityError 0,
          Op.HasParityError 1] =
      some ([Ret.bool true, Ret.bool true, Ret.bool false, Ret.byte 0xE1, Ret.bool false,
          Ret.bool false],
        { (ComLynx.new 2).Configure true true with buffer_ := [⟨0, 0xAB, true, 1⟩] }) ∧
    ∀ p, (({ (ComLynx.new 2).Configure true true with
      buffer_ := [⟨0, 0xAB, true, 1⟩] } : ComLynx).errors_.getD p default).parity = false :=
  ⟨by decide, (C22_parity_enabled_no_parity_error 2 true
    [Op.Send 0 0xAB, Op.IsRxReady 1, Op.IsIRQ 1, Op.GetSERCTL 1, Op.HasParityError 0,
      Op.HasParityError 1]
    [Ret.bool true, Ret.bool true, Ret.bool false, Ret.byte 0xE1, Ret.bool false,
      Ret.bool false]
    { (ComLynx.new 2).Configure true true with buffer_ := [⟨0, 0xAB, true, 1⟩] }
    (by decide) (by decide)).1⟩

/-! ## Parity disabled: Space and Mark -/

/-- Without reconfiguration a run keeps the parity configuration and every
property of sender, payload and parity that the appended messages have. -/
theorem run_buffer_forall (ep ev : Bool) (P : Player → UBYTE → Bool → Prop) (ops : List Op) :
    ∀ (s : ComLynx) (rets : List Ret) (s1 : ComLynx), run s ops = some (rets, s1) →
      (∀ op ∈ ops, op.isConfigure = false) →
      s.enable_parity_ = ep → s.even_parity_ = ev →
      (∀ p d, Op.Send p d ∈ ops → P p d (if ep = true then CalculateParity ev d else ev)) →
      (∀ m ∈ s.buffer_, P m.sender m.data m.parity) →
      s1.enable_parity_ = ep ∧ s1.even_parity_ = ev ∧
      ∀ m ∈ s1.buffer_, P m.sender m.data m.parity := by
  induction ops with
  | nil =>
    intro s rets s1 h _ hep hev _ hinv
    simp only [run, Option.some.injEq, Prod.mk.injEq] at h
    rw [← h.2]
    exact ⟨hep, hev, hinv⟩
  | cons op ops ih =>
    intro s rets s1 h hops hep hev hsend hinv
    obtain ⟨r, s2, rs, hstep, hrun2, _⟩ := run_cons_eq_some s op ops rets s1 h
    have hop := isConfigure_false op (hops op (List.mem_cons_self _ _))
    have hcfg := (step_config s op r s2 hstep).2 hop.1 hop.2
    have hinv2 : ∀ m ∈ s2.buffer_, P m.sender m.data m.parity :=
      step_buffer_forall P s op r s2 hstep
        (fun p d hpd => by
          have h1 := hsend p d (by rw [hpd]; exact List.mem_cons_self _ _)
          simp only [ComLynx.ParityFor, hep, hev]
          exact h1)
        hinv
    exact ih s2 rs s1 hrun2 (fun o ho => hops o (List.mem_cons_of_mem _ ho))
      (by rw [hcfg.2.1]; exact hep) (by rw [hcfg.2.2]; exact hev)
      (fun p d hpd => hsend p d (List.mem_cons_of_mem _ hpd)) hinv2

theorem step_errors_length (s : ComLynx) (op : Op) (r : Ret) (s1 : ComLynx)
    (h : step s op = some (r, s1)) : s1.errors_.length = s.errors_.length :=
  step_errors_gen (fun l => l.length = s.errors_.length) s op r s1 h rfl
    (fun _ => List.length_set _ _ _) (fun _ => List.length_set _ _ _)
    (fun p b s2 h2 => by
      rcases (IsRxReady_cases s p b s2 h2).2 with h3 | h3
      · rw [h3]
      · rw [h3]
        exact List.length_set _ _ _)

theorem run_errors_length (ops : List Op) :
    ∀ (s : ComLynx) (rets : List Ret) (s1 : ComLynx), run s ops = some (rets, s1) →
      s1.errors_.length = s.errors_.length := by
  induction ops with
  | nil =>
    intro s rets s1 h
    simp only [run, Option.some.injEq, Prod.mk.injEq] at h
    rw [← h.2]
  | cons op ops ih =>
    intro s rets s1 h
    obtain ⟨r, s2, rs, hstep, hrun2, _⟩ := run_cons_eq_some s op ops rets s1 h
    rw [ih s2 rs s1 hrun2, step_errors_length s op r s2 hstep]

/-- With parity disabled the fixed parity bit of a message differs from the
parity the receiver computes exactly when the byte has an even number of ones. -/
theorem fixed_parity_mismatch (ev : Bool) (d : Nat) (hd : d < 256) :
    (ev != CalculateParity ev d) = decide (onesCount d % 2 = 0) := by
  have h := CalculateEvenParity_eq_odd_ones d hd
  have h2 : onesCount d % 2 = 0 ∨ onesCount d % 2 = 1 := by omega
  cases ev
  · simp only [CalculateParity, CalculateOddParity, h, Bool.false_eq_true, if_false]
    rcases h2 with h2 | h2 <;> simp [h2]
  · simp only [CalculateParity, h, if_true]
    rcases h2 with h2 | h2 <;> simp [h2]

/-- C21 (parity disabled). A bus of `n` nodes configured once with parity
disabled, Space (`ev = false`) or Mark (`ev = true`), then driven by any calls
other than the two `Configure` members, with bytes below 256. Let `m` be the
message that a poll of node `B` examines, the first one `B` has not read, and
let the parity error flag of `B` be clear. Then `IsRxReady B` returns true and
sets the parity error flag of `B` exactly when the payload of `m` has an even
number of 1 bits, whatever `ev` is; it leaves the other two flags of `B` and
the flags of every other node, the sender included, as they are; and an
accepted `Send` changes no error flag. In both modes the calls of the two
tests of the repository return what the tests expect: no error for
`0b10101011`, a parity error at the receiver only for `0b10101010`. -/
theorem C21_parity_disabled (n : Nat) (ev : Bool) (ops : List Op) (rets : List Ret)
    (s : ComLynx) (B : Player) (pre : List ByteMessage) (m : ByteMessage)
    (post : List ByteMessage)
    (hops : ∀ op ∈ ops, op.isConfigure = false)
    (hdata : ∀ p d, Op.Send p d ∈ ops → d < 256)
    (hrun : run ((ComLynx.new n).Configure false ev) ops = some (rets, s))
    (hB : B < n) (hb : s.buffer_ = pre ++ m :: post)
    (hpre : ∀ x ∈ pre, x.HasRead B = true) (hm : m.HasRead B = false)
    (hclear : (s.errors_.getD B default).parity = false) :
    (∃ s1, s.IsRxReady B = some (true, s1) ∧
      ((s1.errors_.getD B default).parity = true ↔ onesCount m.data % 2 = 0) ∧
      (s1.errors_.getD B default).overrun = (s.errors_.getD B default).overrun ∧
      (s1.errors_.getD B default).frame = (s.errors_.getD B default).frame ∧
      (∀ q, q ≠ B → s1.errors_.getD q default = s.errors_.getD q default)) ∧
    (∀ A d s2, s.Send A d = some (true, s2) → s2.errors_ = s.errors_) ∧
    (∀ e, (run ((ComLynx.new 2).Configure false e) parityTestOps).map Prod.fst =
      some [Ret.bool true, Ret.bool false, Ret.bool true, Ret.bool false, Ret.byte 0b10101011,
        Ret.bool true, Ret.bool false, Ret.bool true, Ret.bool true, Ret.bool true, Ret.void,
        Ret.byte 0b10101010]) := by
  obtain ⟨_, hev, hinv⟩ := run_buffer_forall false ev (fun _ d par => par = ev ∧ d < 256) ops
    _ rets s hrun hops rfl rfl
    (fun p d hpd => ⟨by simp, hdata p d hpd⟩)
    (fun x hx => absurd hx (List.not_mem_nil x))
  have hc : s.configured_ = true := run_configured _ ops rets s hrun rfl
  have hlen : s.errors_.length = n := by
    rw [run_errors_length ops _ rets s hrun]
    show (List.replicate n ({} : Error)).length = n
    exact List.length_replicate _ _
  have hBlen : B < s.errors_.length := by
    rw [hlen]
    exact hB
  have hmem : m ∈ s.buffer_ := by
    rw [hb]
    exact List.mem_append_right _ (List.mem_cons_self _ _)
  have hmis : (m.parity != CalculateParity s.even_parity_ m.data) =
      decide (onesCount m.data % 2 = 0) := by
    rw [hev, (hinv m hmem).1]
    exact fixed_parity_mismatch ev m.data (hinv m hmem).2
  refine ⟨?_, ?_, ?_⟩
  · rw [IsRxReady_of_split s B pre m post hc hb hpre hm, hmis]
    by_cases hones : onesCount m.data % 2 = 0
    · refine ⟨_, rfl, ?_, ?_, ?_, ?_⟩
      · simp only [hones, decide_True, if_true]
        rw [getD_set_self _ B _ default hBlen]
        exact ⟨fun _ => trivial, fun _ => rfl⟩
      · simp only [hones, decide_True, if_true]
        rw [getD_set_self _ B _ default hBlen]
      · simp only [hones, decide_True, if_true]
        rw [getD_set_self _ B _ default hBlen]
      · intro q hq
        simp only [hones, decide_True, if_true]
        exact getD_set_ne _ B q _ default hq
    · refine ⟨_, rfl, ?_, ?_, ?_, ?_⟩
      · simp only [hones, decide_False, Bool.false_eq_true, if_false]
        rw [hclear]
        exact ⟨fun h => Bool.noConfusion h, fun h => h.elim⟩
      · simp only [hones, decide_False, Bool.false_eq_true, if_false]
      · simp only [hones, decide_False, Bool.false_eq_true, if_false]
      · intro q _
        simp only [hones, decide_False, Bool.false_eq_true, if_false]
  · intro A d s2 hs
    have h1 := Send_result s A d true s2 hs
    have hlt : s.buffer_.length < 32 := of_decide_eq_true h1.1.symm
    rw [Send_accept s A d hc hlt] at hs
    simp only [Option.some.injEq, Prod.mk.injEq, true_and] at hs
    rw [← hs]
  · intro e
    cases e <;> decide

/-- C21 at a concrete run: Mark mode, node 0 sends `0b10101010`, which has four
1 bits; the poll of node 1 sets its parity error flag. -/
theorem C21_parity_disabled_witness :
    run ((ComLynx.new 2).Configure false true) [Op.Send 0 0b10101010] =
      some ([Ret.bool true],
        { (ComLynx.new 2).Configure false true with buffer_ := [⟨0, 0b10101010, true, 1⟩] }) ∧
    onesCount 0b10101010 % 2 = 0 ∧
    ∃ s1, ({ (ComLynx.new 2).Configure false true with
        buffer_ := [⟨0, 0b10101010, true, 1⟩] } : ComLynx).IsRxReady 1 = some (true, s1) ∧
      ((s1.errors_.getD 1 default).parity = true ↔
        onesCount (⟨0, 0b10101010, true, 1⟩ : ByteMessage).data % 2 = 0) ∧
      (s1.errors_.getD 1 default).overrun =
        (({ (ComLynx.new 2).Configure false true with
          buffer_ := [⟨0, 0b10101010, true, 1⟩] } : ComLynx).errors_.getD 1 default).overrun ∧
      (s1.errors_.getD 1 default).frame =
        (({ (ComLynx.new 2).Configure false true with
          buffer_ := [⟨0, 0b10101010, true, 1⟩] } : ComLynx).errors_.getD 1 default).frame ∧
      (∀ q, q ≠ 1 → s1.errors_.getD q default =
        ({ (ComLynx.new 2).Configure false true with
          buffer_ := [⟨0, 0b10101010, true, 1⟩] } : ComLynx).errors_.getD q default) :=
  ⟨by decide, by decide,
    (C21_parity_disabled 2 true [Op.Send 0 0b10101010] [Ret.bool true]
      { (ComLynx.new 2).Configure false true with buffer_ := [⟨0, 0b10101010, true, 1⟩] }
      1 [] ⟨0, 0b10101010, true, 1⟩ []
      (by decide)
      (fun p d h => by
        simp only [List.mem_singleton, Op.Send.injEq] at h
        rw [h.2]
        decide)
      (by decide) (by decide) rfl (fun x hx => absurd hx (List.not_mem_nil x)) (by decide)
      (by decide)).1⟩

/-! ## The status byte consumes nothing -/

theorem set_getD_self {α : Type} (l : List α) (i : Nat) (d : α) :
    l.set i (l.getD i d) = l := by
  induction l generalizing i with
  | nil => rfl
  | cons a l ih =>
    cases i with
    | zero => rfl
    | succ i =>
      show a :: l.set i (l.getD i d) = a :: l
      rw [ih]

theorem set_parity_idem (l : List Error) (p : Nat)
    (h : (l.getD p default).parity = true ∨ l.length ≤ p) :
    l.set p { (l.getD p default) with parity := true } = l := by
  rcases h with h | h
  · have he : ({ (l.getD p default) with parity := true } : Error) = l.getD p default := by
      cases hx : l.getD p default with
      | mk o pa f =>
        rw [hx] at h
        simp only at h
        rw [h]
    rw [he]
    exact set_getD_self l p default
  · exact List.set_eq_of_length_le h

/-- What `IsRxReady` does to the bus: nothing, or it sets the parity error
flag of the polled node, which was clear. -/
theorem IsRxReady_effect (s : ComLynx) (p : Player) (b : Bool) (s1 : ComLynx)
    (h : s.IsRxReady p = some (b, s1)) :
    s1 = s ∨ (p < s.errors_.length ∧ (s.errors_.getD p default).parity = false ∧
      s1 = { s with
        errors_ := s.errors_.set p { (s.errors_.getD p default) with parity := true } }) := by
  rcases (IsRxReady_cases s p b s1 h).2 with h1 | h1
  · exact Or.inl h1
  · by_cases hlt : p < s.errors_.length
    · cases hpar : (s.errors_.getD p default).parity with
      | false => exact Or.inr ⟨hlt, rfl, h1⟩
      | true =>
        left
        rw [h1, set_parity_idem s.errors_ p (Or.inl hpar)]
    · left
      rw [h1, set_parity_idem s.errors_ p (Or.inr (Nat.le_of_not_lt hlt))]

/-- Polling twice is polling once. -/
theorem IsRxReady_idem (s : ComLynx) (p : Player) (b : Bool) (s1 : ComLynx)
    (h : s.IsRxReady p = some (b, s1)) : s1.IsRxReady p = some (b, s1) := by
  have hc := (IsRxReady_cases s p b s1 h).1
  rcases IsRxReady_effect s p b s1 h with h1 | ⟨hlt, _, h1⟩
  · rw [h1]
    rw [h1] at h
    exact h
  · by_cases hex : ∃ m ∈ s.buffer_, m.HasRead p = false
    · obtain ⟨pre, m, post, hb, hpre, hm⟩ := exists_unread_split p _ hex
      have h0 := h
      rw [IsRxReady_of_split s p pre m post hc hb hpre hm] at h0
      simp only [Option.some.injEq, Prod.mk.injEq] at h0
      have hc1 : s1.configured_ = true := by rw [h1]; exact hc
      have hb1 : s1.buffer_ = pre ++ m :: post := by rw [h1]; exact hb
      rw [IsRxReady_of_split s1 p pre m post hc1 hb1 hpre hm, ← h0.1]
      have hset : s1.errors_.set p { (s1.errors_.getD p default) with parity := true } =
          s1.errors_ := by
        apply set_parity_idem
        left
        rw [h1]
        show ((s.errors_.set p { (s.errors_.getD p default) with parity := true }).getD p
          default).parity = true
        rw [getD_set_self _ p _ default hlt]
      rw [hset]
      split <;> rfl
    · have hall : ∀ m ∈ s.buffer_, m.HasRead p = true := by
        intro m hm
        by_contra hr
        exact hex ⟨m, hm, by simpa using hr⟩
      have h0 := h
      rw [IsRxReady_of_all_read s p hc hall] at h0
      simp only [Option.some.injEq, Prod.mk.injEq] at h0
      rw [← h0.2, ← h0.1]
      exact IsRxReady_of_all_read s p hc hall

/-- C25 (the status byte consumes nothing). On a configured bus
`GetSERCTL node` returns; it leaves the buffer with every receipt, the break
flags, both vectors of interrupt enables, the configuration, the overrun and
frame flags of every node and all flags of the other nodes as they are; either
the whole bus is unchanged or the parity error flag of `node` went from clear
to set; bit 1 of the byte is the break flag of `node`, which stays set, whereas
`IsRxBrk node` returns the same flag and clears it; and a second
`GetSERCTL node` returns the same byte and changes nothing. -/
theorem C25_GetSERCTL_consumes_nothing (s : ComLynx) (node : Player)
    (hc : s.configured_ = true) :
    ∃ byte s1, s.GetSERCTL node = some (byte, s1) ∧
      s1.buffer_ = s.buffer_ ∧ s1.breaks_ = s.breaks_ ∧
      s1.rx_int_en_ = s.rx_int_en_ ∧ s1.tx_int_en_ = s.tx_int_en_ ∧
      s1.configured_ = s.configured_ ∧ s1.enable_parity_ = s.enable_parity_ ∧
      s1.even_parity_ = s.even_parity_ ∧ s1.n_players_ = s.n_players_ ∧
      s1.s_read_receipt_complete = s.s_read_receipt_complete ∧
      s1.errors_.length = s.errors_.length ∧
      (∀ q, (s1.errors_.getD q default).overrun = (s.errors_.getD q default).overrun ∧
        (s1.errors_.getD q default).frame = (s.errors_.getD q default).frame) ∧
      (∀ q, q ≠ node → s1.errors_.getD q default = s.errors_.getD q default) ∧
      (s1 = s ∨ ((s.errors_.getD node default).parity = false ∧
        (s1.errors_.getD node default).parity = true)) ∧
      byte.testBit 1 = s.breaks_.getD node false ∧
      (s.IsRxBrk node).map Prod.fst = some (s.breaks_.getD node false) ∧
      (∀ b t, s.IsRxBrk node = some (b, t) → t.breaks_.getD node false = false) ∧
      s1.GetSERCTL node = some (byte, s1) := by
  obtain ⟨b, s1, h0, _⟩ := IsRxReady_total s node hc
  have hfr := IsRxReady_buffer s node b s1 h0
  have hc1 : s1.configured_ = true := by rw [hfr.2.2.2.1]; exact hc
  have hg := GetSERCTL_eq s node b s1 hc h0
  have hg1 := GetSERCTL_eq s1 node b s1 hc1 (IsRxReady_idem s node b s1 h0)
  rw [hfr.1, hfr.2.2.2.2.2.2.1] at hg1
  have hbrk := IsRxBrk_eq s node hc
  refine ⟨_, s1, hg, hfr.1, hfr.2.2.2.2.2.2.1, hfr.2.2.2.2.2.2.2.1, hfr.2.2.2.2.2.2.2.2,
    hfr.2.2.2.1, hfr.2.2.2.2.1, hfr.2.2.2.2.2.1, hfr.2.2.1, hfr.2.1, ?_, ?_, ?_, ?_, ?_, ?_, ?_,
    hg1⟩
  · rcases IsRxReady_effect s node b s1 h0 with h1 | ⟨_, _, h1⟩
    · rw [h1]
    · rw [h1]
      exact List.length_set _ _ _
  · intro q
    rcases IsRxReady_effect s node b s1 h0 with h1 | ⟨hlt, _, h1⟩
    · rw [h1]
      exact ⟨rfl, rfl⟩
    · rw [h1]
      show ((s.errors_.set node { (s.errors_.getD node default) with parity := true }).getD q
          default).overrun = _ ∧
        ((s.errors_.set node { (s.errors_.getD node default) with parity := true }).getD q
          default).frame = _
      by_cases hq : q = node
      · rw [hq, getD_set_self _ node _ default hlt]
        exact ⟨rfl, rfl⟩
      · rw [getD_set_ne _ node q _ default hq]
        exact ⟨rfl, rfl⟩
  · intro q hq
    rcases IsRxReady_effect s node b s1 h0 with h1 | ⟨_, _, h1⟩
    · rw [h1]
    · rw [h1]
      exact getD_set_ne _ node q _ default hq
  · rcases IsRxReady_effect s node b s1 h0 with h1 | ⟨hlt, hpar, h1⟩
    · exact Or.inl h1
    · refine Or.inr ⟨hpar, ?_⟩
      rw [h1]
      show ((s.errors_.set node { (s.errors_.getD node default) with parity := true }).getD node
          default).parity = true
      rw [getD_set_self _ node _ default hlt]
  · exact (PackSERCTL_bits _ _ _ _ _ _ _ _).2.2.2.2.2.2.2.1
  · rw [hbrk]
    rfl
  · intro b2 t ht
    rw [hbrk] at ht
    simp only [Option.some.injEq, Prod.mk.injEq] at ht
    rw [← ht.2]
    by_cases hflag : s.breaks_.getD node false = true
    · simp only [hflag, if_true]
      by_cases hlt : node < s.breaks_.length
      · exact getD_set_self _ node _ false hlt
      · rw [List.set_eq_of_length_le (Nat.le_of_not_lt hlt)]
        exact List.getD_eq_default _ _ (Nat.le_of_not_lt hlt)
    · simp only [hflag, Bool.false_eq_true, if_false]

/-- C25 at a concrete state: node 1 of a two-player bus in Odd mode holds an
unread message with the wrong parity and a pending break. -/
theorem C25_GetSERCTL_consumes_nothing_witness :
    ({ twoPlayerBus [⟨0, 65, false, 1⟩] with breaks_ := [true, true] } : ComLynx).GetSERCTL 1 =
      some (0xF3, { twoPlayerBus [⟨0, 65, false, 1⟩] with
        breaks_ := [true, true], errors_ := [{}, { parity := true }] }) ∧
    ∃ byte s1,
      ({ twoPlayerBus [⟨0, 65, false, 1⟩] with breaks_ := [true, true] } : ComLynx).GetSERCTL 1 =
        some (byte, s1) ∧ s1.GetSERCTL 1 = some (byte, s1) :=
  ⟨by decide,
    match C25_GetSERCTL_consumes_nothing
      { twoPlayerBus [⟨0, 65, false, 1⟩] with breaks_ := [true, true] } 1 rfl with
    | ⟨byte, s1, h⟩ => ⟨byte, s1, h.1, h.2.2.2.2.2.2.2.2.2.2.2.2.2.2.2.2.2⟩⟩

/-! ## The client forwards to the bus -/

theorem clientStep_eq (c : ComLynxClient) (bus : ComLynx) (op : ClientOp) :
    clientStep c bus op = step bus (op.toOp c.player_) := by
  cases op <;> rfl

theorem clientRun_eq (calls : List (ComLynxClient × ClientOp)) :
    ∀ bus : ComLynx,
      clientRun bus calls = run bus (calls.map (fun call => call.2.toOp call.1.player_)) := by
  induction calls with
  | nil => intro bus; rfl
  | cons call calls ih =>
    intro bus
    obtain ⟨c, op⟩ := call
    simp only [clientRun, List.map_cons, run, clientStep_eq]
    cases hstep : step bus (op.toOp c.player_) with
    | none => rfl
    | some rs =>
      obtain ⟨r, s1⟩ := rs
      simp only [ih s1]

/-- C23 (the client is a forwarder). For every bus state and every client
`c`, each of the sixteen client operations returns the value and produces the
bus state of the operation of the bus with the same name called with
`c.player_`, also along sequences of calls made through several clients; the
client has the single constant member `player_` next to its reference to the
bus, so a client `c2` bound to the same identity is equal to `c` and performs
every call exactly as `c` does. -/
theorem C23_client_forwards (c c2 : ComLynxClient) (bus : ComLynx)
    (hsame : c2.player_ = c.player_) :
    (∀ v, c.EnableRxIRQ bus v = bus.EnableRxIRQ c.player_ v) ∧
    (∀ v, c.EnableTxIRQ bus v = bus.EnableTxIRQ c.player_ v) ∧
    (∀ d, c.Send bus d = bus.Send c.player_ d) ∧
    c.Recv bus = bus.Recv c.player_ ∧
    c.SendBreak bus = bus.SendBreak ∧
    c.IsRxReady bus = bus.IsRxReady c.player_ ∧
    (∀ reason, c.IsTxReady bus reason = bus.IsTxReady c.player_ reason) ∧
    c.IsTxEmpty bus = bus.IsTxEmpty c.player_ ∧
    c.IsRxBrk bus = bus.IsRxBrk c.player_ ∧
    c.IsIRQ bus = bus.IsIRQ c.player_ ∧
    c.HasFrameError bus = bus.HasFrameError c.player_ ∧
    c.HasOverrunError bus = bus.HasOverrunError c.player_ ∧
    c.HasParityError bus = bus.HasParityError c.player_ ∧
    c.HasAnyError bus = bus.HasAnyError c.player_ ∧
    c.ResetErrors bus = bus.ResetErrors c.player_ ∧
    c.GetSERCTL bus = bus.GetSERCTL c.player_ ∧
    (∀ op, clientStep c bus op = step bus (op.toOp c.player_)) ∧
    (∀ calls, clientRun bus calls =
      run bus (calls.map (fun call => call.2.toOp call.1.player_))) ∧
    c2 = c ∧
    (∀ op, clientStep c2 bus op = clientStep c bus op) ∧
    (∀ calls : List ClientOp, clientRun bus (calls.map (fun op => (c2, op))) =
      clientRun bus (calls.map (fun op => (c, op)))) := by
  have heq : c2 = c := by
    cases c
    cases c2
    simp only [ComLynxClient.mk.injEq]
    exact hsame
  refine ⟨fun _ => rfl, fun _ => rfl, fun _ => rfl, rfl, rfl, rfl, fun _ => rfl, rfl, rfl, rfl,
    rfl, rfl, rfl, rfl, rfl, rfl, clientStep_eq c bus, fun calls => clientRun_eq calls bus, heq,
    ?_, ?_⟩
  · intro op
    rw [heq]
  · intro calls
    rw [heq]

/-- C23 at a concrete state: two clients bound to node 1 of a two-player bus
that holds one message of node 0. -/
theorem C23_client_forwards_witness :
    clientRun (twoPlayerBus [⟨0, 65, true, 1⟩])
        [(⟨1⟩, ClientOp.IsRxReady), (⟨1⟩, ClientOp.Recv), (⟨0⟩, ClientOp.IsTxEmpty)] =
      some ([Ret.bool true, Ret.byte 65, Ret.bool true], twoPlayerBus []) ∧
    (⟨1⟩ : ComLynxClient).Recv (twoPlayerBus [⟨0, 65, true, 1⟩]) =
      (twoPlayerBus [⟨0, 65, true, 1⟩]).Recv (⟨1⟩ : ComLynxClient).player_ :=
  ⟨by decide,
    (C23_client_forwards ⟨1⟩ ⟨1⟩ (twoPlayerBus [⟨0, 65, true, 1⟩]) rfl).2.2.2.1⟩
